import Mathlib

/-!
# Verification development for `linyows/probe`

Shallow embedding of the workflow engine (`worflow.go`) and of the mail latency
report (`smtp/latency.go`), followed by the properties proved about them.

Modelling conventions

* Go `map[string]any` values are association lists with first-match lookup; a map
  is treated as a value (two maps never alias).
* Go slices of step results are headers `(array, len, cap)` into a heap of backing
  arrays, so that `append` may write in place into a shared backing array exactly
  as in Go.
* Code that is called by `worflow.go` but is not part of the sources
  (`RunActions`, `EvaluateExprs`, `getEnvMap`, `isJSON`, `mustMarshalJSON`, the
  growth policy of `append`) is a field of `Externals`; every theorem holds for all
  of them.
* The effect of `RunActions` on the outside world is a state `σ` threaded through
  the calls, so that each call may succeed or fail independently of the others.
* An execution of `Workflow.Start` is an interleaving of steps of its goroutines:
  the main goroutine executes one statement per step, a run of `Job.Start` one
  iteration of its loop. The closure of a `go` statement sees the `job` of its own
  iteration of the loop over the jobs (the loop variables of Go 1.22).
* Go strings are sequences of bytes, Go times are instants counted in nanoseconds,
  a Go `error` or a panic is a `Fault`. The maildir is the sequence of calls that
  `filepath.WalkDir` makes, a file is the sequence of lines `bufio.Scanner` yields.
  The library functions `smtp/latency.go` calls and that are not modelled
  (`time.Parse`, `time.LoadLocation`, `sort.Slice`, the Unicode part of
  `strings.ToLower`) are fields of `Stdlib`.
-/

namespace Probe

/-! ## Go values -/

/-- Go `any` values as they occur in action results. -/
inductive Value where
  | null : Value
  | bool (b : Bool) : Value
  | num (n : Int) : Value
  | str (s : String) : Value
  | list (xs : List Value) : Value
  | map (kvs : List (String × Value)) : Value

/-- Go `map[string]any`. -/
abbrev GoMap := List (String × Value)

/-- Go `m[k]`: the value stored under `k`, `none` standing for the nil interface. -/
def mapIndex (m : GoMap) (k : String) : Option Value :=
  List.lookup k m

/-- Go `m[k] = v`. -/
def mapAssign : GoMap → String → Value → GoMap
  | [], k, v => [(k, v)]
  | (k', v') :: rest, k, v =>
      if k' = k then (k, v) :: rest else (k', v') :: mapAssign rest k v

/-- Go `x.(map[string]any)`, `none` when the assertion reports `ok = false`. -/
def assertMap : Option Value → Option GoMap
  | some (Value.map kvs) => some kvs
  | _ => none

/-- Go `x.(string)`, `none` when the assertion reports `ok = false`. -/
def assertString : Option Value → Option String
  | some (Value.str s) => some s
  | _ => none

/-! ## Slices of `map[string]any` -/

/-- Slice header: backing array, length, capacity. -/
structure Slice where
  arr : Nat
  len : Nat
  cap : Nat

/-- The backing arrays allocated so far; an address is an index into the list. -/
abbrev Heap := List (List GoMap)

/-- The elements `s[0], ..., s[len-1]` of a slice. -/
def readSlice (h : Heap) (s : Slice) : List GoMap :=
  (h.getD s.arr []).take s.len

/-- Go `append(s, v)`: writes in place when the capacity allows it, otherwise
allocates a new backing array (of capacity at least `len + 1`, chosen by `grow`),
copies the elements over and writes `v` after them. -/
def goAppend (grow : Nat → Nat) (h : Heap) (s : Slice) (v : GoMap) : Heap × Slice :=
  if s.len < s.cap then
    (h.set s.arr ((h.getD s.arr []).set s.len v), { s with len := s.len + 1 })
  else
    let newcap := max (grow s.cap) (s.len + 1)
    (h ++ [readSlice h s ++ v :: List.replicate (newcap - (s.len + 1)) []],
      { arr := h.length, len := s.len + 1, cap := newcap })

/-- The slice header describes a region inside an allocated backing array. -/
def Slice.WF (h : Heap) (s : Slice) : Prop :=
  s.len ≤ s.cap ∧ (0 < s.cap → s.arr < h.length ∧ (h.getD s.arr []).length = s.cap)

/-! ## Data model of `worflow.go` -/

structure Repeat where
  Count : Int
  Interval : Int

structure Step where
  Name : String
  Uses : String
  With : GoMap
  errors : Option String

structure Job where
  Name : String
  Steps : List Step
  Repeat : Option Repeat
  Defaults : Value

structure Workflow where
  Name : String
  Jobs : List Job

structure JobContext where
  Envs : List (String × String)
  Logs : Slice

/-- The functions `worflow.go` calls but does not define. -/
structure Externals (σ : Type) where
  getEnvMap : σ → List (String × String)
  EvaluateExprs : GoMap → List (String × String) → List GoMap → GoMap
  RunActions : String → List String → GoMap → σ → Except String GoMap × σ
  isJSON : String → Bool
  mustMarshalJSON : String → Value
  growCap : Nat → Nat

/-- One call of `RunActions` made by `Job.Start`, with its outcome. -/
structure Call where
  index : Nat
  uses : String
  args : List String
  input : GoMap
  result : Except String GoMap

/-- What `Job.Start` prints for a step. -/
inductive Report where
  | verbose (i : Nat) (req res : GoMap) : Report
  | raw (i : Nat) (ret : GoMap) : Report

/-- State of one run of `Job.Start`: the outside world and the heap it shares with
the other runs, its parameter `ctx`, and what it has called and printed so far. -/
structure JobState (σ : Type) where
  world : σ
  heap : Heap
  ctx : JobContext
  calls : List Call
  stdout : List Report

/-! ## `Job.Start` -/

/-- Lines 89-92: `body, okbody := res["body"].(string)` and the assignment of
`res["bodyjson"]`. -/
def parseBody {σ : Type} (X : Externals σ) (res : GoMap) : GoMap :=
  match assertString (mapIndex res "body") with
  | some body =>
      if X.isJSON body then mapAssign res "bodyjson" (X.mustMarshalJSON body) else res
  | none => res

/-- Lines 85-93: the value `ret` holds when it is appended to the log. `res` is the
map stored under `ret["res"]`, so the assignment to `res["bodyjson"]` is seen
through `ret`. -/
def postProcess {σ : Type} (X : Externals σ) (ret : GoMap) : GoMap :=
  match assertMap (mapIndex ret "res") with
  | some res => mapAssign ret "res" (Value.map (parseBody X res))
  | none => ret

/-- Lines 94-98: the report printed for step `i`. -/
def report {σ : Type} (X : Externals σ) (i : Nat) (ret : GoMap) : Report :=
  match assertMap (mapIndex ret "req"), assertMap (mapIndex ret "res") with
  | some req, some res => Report.verbose i req (parseBody X res)
  | _, _ => Report.raw i (postProcess X ret)

/-- One iteration of the loop of `Job.Start` (lines 78-100) for step `st` at
index `i`. On a dispatch error the error is stored in the loop variable `st`, a
copy of `j.Steps[i]` that is dropped by `continue`; nothing is appended. -/
def Job.iter {σ : Type} (X : Externals σ) (i : Nat) (st : Step) (s : JobState σ) :
    JobState σ :=
  let expW := X.EvaluateExprs st.With s.ctx.Envs (readSlice s.heap s.ctx.Logs)
  match X.RunActions st.Uses [] expW s.world with
  | (Except.error err, world) =>
      let _st : Step := { st with errors := some err }
      { s with world := world
               calls := s.calls ++ [⟨i, st.Uses, [], expW, Except.error err⟩] }
  | (Except.ok ret, world) =>
      let grown := goAppend X.growCap s.heap s.ctx.Logs (postProcess X ret)
      { world := world
        heap := grown.1
        ctx := { s.ctx with Logs := grown.2 }
        calls := s.calls ++ [⟨i, st.Uses, [], expW, Except.ok ret⟩]
        stdout := s.stdout ++ [report X i ret] }

/-- The loop of `Job.Start` over the steps `sts`, the first of them having index
`i`. -/
def Job.loop {σ : Type} (X : Externals σ) : Nat → List Step → JobState σ → JobState σ
  | _, [], s => s
  | i, st :: sts, s => Job.loop X (i + 1) sts (Job.iter X i st s)

/-- Go `func (j *Job) Start(ctx JobContext)`: `ctx` is the callee's copy of the
argument; `j.ctx`, which is only ever written, is left out. -/
def Job.Start {σ : Type} (X : Externals σ) (j : Job) (ctx : JobContext) (world : σ)
    (heap : Heap) : JobState σ :=
  Job.loop X 0 j.Steps { world := world, heap := heap, ctx := ctx, calls := [], stdout := [] }

/-- The step log of a run: the elements of `ctx.Logs`. -/
def JobState.log {σ : Type} (s : JobState σ) : List GoMap :=
  readSlice s.heap s.ctx.Logs

/-- The entry a call contributes to the log: its post-processed result when the
dispatch succeeded, nothing when it failed. -/
def Call.logged {σ : Type} (X : Externals σ) (c : Call) : Option GoMap :=
  match c.result with
  | Except.ok ret => some (postProcess X ret)
  | Except.error _ => none

/-- Whether the dispatch succeeded. -/
def Call.succeeded (c : Call) : Bool :=
  match c.result with
  | Except.ok _ => true
  | Except.error _ => false

/-! ## `Workflow.Start` -/

/-- Go `int64` wrap-around. -/
def wrap64 (x : Int) : Int :=
  (x + 2 ^ 63) % 2 ^ 64 - 2 ^ 63

/-- Go `time.Duration(n) * time.Second`, in nanoseconds. -/
def secondsDuration (n : Int) : Int :=
  wrap64 (n * 1000000000)

/-- One statement executed by the goroutine that runs `Workflow.Start`. -/
inductive MainOp where
  /-- Statement `wg.Add(1)`. -/
  | add : MainOp
  /-- Statement `go func() { defer wg.Done(); job.Start(ctx) }()`, for the job at index
  `idx`. -/
  | go (idx : Nat) (job : Job) : MainOp
  /-- Statement `time.Sleep(d)`. -/
  | sleep (d : Int) : MainOp
  /-- Statement `wg.Wait()`. -/
  | wait : MainOp

/-- Lines 30-37: the loop `for i := 0; i < job.Repeat.Count; i++`, with `n`
iterations left. -/
def Workflow.repeatLoop (idx : Nat) (job : Job) (r : Repeat) : Nat → List MainOp
  | 0 => []
  | n + 1 =>
      MainOp.add :: MainOp.go idx job :: MainOp.sleep (secondsDuration r.Interval) ::
        Workflow.repeatLoop idx job r n

/-- Lines 19-37: the body of `for _, job := range w.Jobs`. -/
def Workflow.jobOps (idx : Nat) (job : Job) : List MainOp :=
  match job.Repeat with
  | none => [MainOp.add, MainOp.go idx job]
  | some r => Workflow.repeatLoop idx job r r.Count.toNat

/-- Lines 18-38: the loop over the jobs `jobs`, the first of them having index
`idx`. -/
def Workflow.rangeJobs : Nat → List Job → List MainOp
  | _, [] => []
  | idx, job :: jobs => Workflow.jobOps idx job ++ Workflow.rangeJobs (idx + 1) jobs

/-- The statements `Workflow.Start` executes after `ctx := w.createContext()`, in
order. Neither loop depends on anything but `w`. -/
def Workflow.mainOps (w : Workflow) : List MainOp :=
  Workflow.rangeJobs 0 w.Jobs ++ [MainOp.wait]

/-- Go `func (w *Workflow) createContext() JobContext`. The literal
`[]map[string]any{}` is a slice of length and capacity 0. -/
def Workflow.createContext {σ : Type} (X : Externals σ) (_w : Workflow) (world : σ) :
    JobContext :=
  { Envs := X.getEnvMap world, Logs := { arr := 0, len := 0, cap := 0 } }

/-- One goroutine started by `Workflow.Start`: a run of `job.Start(ctx)`. `ctx` is
the run's own copy of the argument, `pc` the index of the step the loop of
`Job.Start` is at, `finished` says that the deferred `wg.Done()` has run. -/
structure Run where
  idx : Nat
  job : Job
  ctx : JobContext
  pc : Nat
  calls : List Call
  stdout : List Report
  finished : Bool

/-- The goroutine started for the job at index `idx`: `job.Start(ctx)` receives a
copy of `ctx`. -/
def Run.start (idx : Nat) (job : Job) (ctx : JobContext) : Run :=
  { idx := idx, job := job, ctx := ctx, pc := 0, calls := [], stdout := [], finished := false }

/-- State of an execution of `Workflow.Start`. -/
structure Sys (σ : Type) where
  world : σ
  heap : Heap
  /-- the variable `ctx` of `Workflow.Start` -/
  ctx : JobContext
  /-- the statements the main goroutine has still to execute -/
  ops : List MainOp
  /-- the counter of `wg` -/
  wg : Int
  /-- the goroutines started so far, in the order they were started -/
  runs : List Run
  /-- the time the main goroutine has spent in `time.Sleep`, in nanoseconds -/
  slept : Int
  /-- whether `Workflow.Start` has returned -/
  returned : Bool

/-- A goroutine of the execution. -/
inductive Tid where
  | main : Tid
  | run (k : Nat) : Tid

/-- The main goroutine executes its next statement. `wg.Wait()` does not complete
while the counter is not zero. -/
def Sys.stepMain {σ : Type} (s : Sys σ) : Sys σ :=
  match s.ops with
  | [] => s
  | MainOp.add :: ops => { s with ops := ops, wg := s.wg + 1 }
  | MainOp.go idx job :: ops =>
      { s with ops := ops, runs := s.runs ++ [Run.start idx job s.ctx] }
  | MainOp.sleep d :: ops => { s with ops := ops, slept := s.slept + max d 0 }
  | MainOp.wait :: ops => if s.wg = 0 then { s with ops := ops, returned := true } else s

/-- The state of `Job.Start` in the goroutine `r`. -/
def Run.jobState {σ : Type} (r : Run) (world : σ) (heap : Heap) : JobState σ :=
  { world := world, heap := heap, ctx := r.ctx, calls := r.calls, stdout := r.stdout }

/-- The goroutine `r` after the iteration of the loop of `Job.Start` that has led to
`js`. -/
def Run.iterated {σ : Type} (r : Run) (js : JobState σ) : Run :=
  { r with pc := r.pc + 1, ctx := js.ctx, calls := js.calls, stdout := js.stdout }

/-- The goroutine `r` after it has returned from `Job.Start` and run the deferred
`wg.Done()`. -/
def Run.done (r : Run) : Run :=
  { r with finished := true }

/-- The goroutine `k` executes one iteration of the loop of `Job.Start`, or, the
loop being over, returns from `Job.Start` and runs the deferred `wg.Done()`. The
heap and the outside world are shared with the other goroutines. -/
def Sys.stepRun {σ : Type} (X : Externals σ) (k : Nat) (s : Sys σ) : Sys σ :=
  match s.runs[k]? with
  | none => s
  | some r =>
      if r.finished then s
      else
        match r.job.Steps[r.pc]? with
        | some st =>
            let js := Job.iter X r.pc st (r.jobState s.world s.heap)
            { s with world := js.world, heap := js.heap, runs := s.runs.set k (r.iterated js) }
        | none => { s with wg := s.wg - 1, runs := s.runs.set k r.done }

/-- One step of the goroutine `t`. -/
def Sys.step {σ : Type} (X : Externals σ) (t : Tid) (s : Sys σ) : Sys σ :=
  match t with
  | Tid.main => Sys.stepMain s
  | Tid.run k => Sys.stepRun X k s

/-- The execution in which the goroutines take their steps in the order `sched`. -/
def Sys.exec {σ : Type} (X : Externals σ) : List Tid → Sys σ → Sys σ
  | [], s => s
  | t :: sched, s => Sys.exec X sched (Sys.step X t s)

/-- The state in which `Workflow.Start` begins the loop over the jobs. -/
def Workflow.init {σ : Type} (X : Externals σ) (w : Workflow) (world : σ) (heap : Heap) :
    Sys σ :=
  { world := world, heap := heap, ctx := Workflow.createContext X w world,
    ops := Workflow.mainOps w, wg := 0, runs := [], slept := 0, returned := false }

/-- Go `func (w *Workflow) Start()`, under the interleaving `sched` of its goroutines. -/
def Workflow.Start {σ : Type} (X : Externals σ) (w : Workflow) (world : σ) (heap : Heap)
    (sched : List Tid) : Sys σ :=
  Sys.exec X sched (Workflow.init X w world heap)

/-! ### Observations on the statements of the main goroutine -/

/-- Number of `wg.Add(1)` among `ops`. -/
def countAdds : List MainOp → Nat
  | [] => 0
  | MainOp.add :: ops => countAdds ops + 1
  | _ :: ops => countAdds ops

/-- Number of goroutines `ops` starts. -/
def countGos : List MainOp → Nat
  | [] => 0
  | MainOp.go _ _ :: ops => countGos ops + 1
  | _ :: ops => countGos ops

/-- Number of goroutines `ops` starts for the job at index `i`. -/
def countGosOf (i : Nat) : List MainOp → Nat
  | [] => 0
  | MainOp.go idx _ :: ops => (if idx = i then 1 else 0) + countGosOf i ops
  | _ :: ops => countGosOf i ops

/-- Time slept by the main goroutine before it first starts a goroutine for the job
at index `i`; `none` when `ops` starts none. -/
def sleptBefore (i : Nat) : List MainOp → Option Int
  | [] => none
  | MainOp.go idx _ :: ops => if idx = i then some 0 else sleptBefore i ops
  | MainOp.sleep d :: ops => (sleptBefore i ops).map (fun t => max d 0 + t)
  | _ :: ops => sleptBefore i ops

/-- Number of runs `Workflow.Start` is to start for `job`. -/
def Job.launches (job : Job) : Nat :=
  match job.Repeat with
  | none => 1
  | some r => r.Count.toNat

/-- Time the main goroutine sleeps while it handles `job`. -/
def Job.sleeps (job : Job) : Int :=
  match job.Repeat with
  | none => 0
  | some r => r.Count.toNat * max (secondsDuration r.Interval) 0

/-! ## Invariants and examples for the workflow engine -/

/-- Externals of the examples. The world counts the calls of `RunActions`; the call
number `failAt` fails, every other call answers with the input as its response. -/
def exampleExternals (failAt : Nat) : Externals Nat where
  getEnvMap _ := []
  EvaluateExprs w _ _ := w
  RunActions uses _ input n :=
    (if n = failAt then Except.error "unreachable"
      else Except.ok [("req", Value.map [("uses", Value.str uses)]), ("res", Value.map input)],
     n + 1)
  isJSON body := body == "\x7b\"a\":1\x7d"
  mustMarshalJSON _ := Value.map [("a", Value.num 1)]
  growCap c := 2 * c

/-- A job of three steps. -/
def exampleJob : Job where
  Name := "J1"
  Steps := [⟨"first", "hello", [("body", Value.str "\x7b\"a\":1\x7d")], none⟩,
            ⟨"second", "http", [], none⟩,
            ⟨"third", "smtp", [("body", Value.str "plain")], none⟩]
  Repeat := none
  Defaults := Value.null

def exampleCtx : JobContext := { Envs := [], Logs := ⟨0, 0, 0⟩ }

def exampleRet : GoMap :=
  [("req", Value.map [("uses", Value.str "hello")]),
   ("res", Value.map [("body", Value.str "\x7b\"a\":1\x7d")])]

def exampleCall : Call :=
  { index := 0, uses := "hello", args := [], input := [("body", Value.str "\x7b\"a\":1\x7d")],
    result := Except.ok exampleRet }

/-- Two slices that both own a backing array own different ones. -/
def Slice.Apart (s t : Slice) : Prop :=
  0 < s.cap → 0 < t.cap → s.arr ≠ t.arr

/-- Every run's log slice is well formed, holds exactly the results the run has
logged, and shares no backing array with the log of another run; the variable `ctx`
of `Workflow.Start` still holds the empty slice `createContext` built. -/
structure HeapInv {σ : Type} (X : Externals σ) (s : Sys σ) : Prop where
  wf : ∀ (k : Nat) (r : Run), s.runs[k]? = some r → r.ctx.Logs.WF s.heap
  log : ∀ (k : Nat) (r : Run), s.runs[k]? = some r →
    readSlice s.heap r.ctx.Logs = r.calls.filterMap (Call.logged X)
  apart : ∀ (k k' : Nat) (r r' : Run), k ≠ k' → s.runs[k]? = some r → s.runs[k']? = some r' →
    r.ctx.Logs.Apart r'.ctx.Logs
  main : s.ctx.Logs = { arr := 0, len := 0, cap := 0 }

/-- Number of `wg.Wait()` among `ops`. -/
def countWaits : List MainOp → Nat
  | [] => 0
  | MainOp.wait :: ops => countWaits ops + 1
  | _ :: ops => countWaits ops

/-- What the counter of `wg`, the goroutines started and the statements the main
goroutine has still to execute have to do with each other. -/
structure SchedInv {σ : Type} (w : Workflow) (s : Sys σ) : Prop where
  gos : ∀ i : Nat, s.runs.countP (fun r => decide (r.idx = i)) + countGosOf i s.ops
    = countGosOf i (Workflow.mainOps w)
  total : s.runs.length + countGos s.ops = countGos (Workflow.mainOps w)
  wg : s.wg + countAdds s.ops = s.runs.countP (fun r => !r.finished) + countGos s.ops
  tail : s.ops = [] ∨ ∃ pre, s.ops = pre ++ [MainOp.wait] ∧ countWaits pre = 0
  returned : s.returned = true → s.ops = [] ∧ ∀ (k : Nat) (r : Run), s.runs[k]? = some r →
    r.finished = true

/-- Every goroutine runs the job it was started for, has called `RunActions` for the
steps before `pc`, once each and in order, and has finished only after the last. -/
structure RunInv {σ : Type} (w : Workflow) (s : Sys σ) : Prop where
  ops : ∀ (idx : Nat) (job : Job), MainOp.go idx job ∈ s.ops → w.Jobs[idx]? = some job
  runs : ∀ (k : Nat) (r : Run), s.runs[k]? = some r →
    w.Jobs[r.idx]? = some r.job ∧ r.pc ≤ r.job.Steps.length ∧
    r.calls.map Call.index = List.range r.pc ∧
    r.calls.map Call.uses = (r.job.Steps.take r.pc).map Step.Uses ∧
    (r.finished = true → r.pc = r.job.Steps.length)

/-- The three invariants together. -/
structure Inv {σ : Type} (X : Externals σ) (w : Workflow) (s : Sys σ) : Prop where
  heap : HeapInv X s
  sched : SchedInv w s
  runs : RunInv w s

/-- Time the main goroutine sleeps while it executes `ops`. -/
def totalSleep : List MainOp → Int
  | [] => 0
  | MainOp.sleep d :: ops => max d 0 + totalSleep ops
  | _ :: ops => totalSleep ops

/-- A workflow of two jobs: the first is launched twice, one second apart, the
second has no `Repeat`. -/
def exampleWorkflow : Workflow where
  Name := "example"
  Jobs := [{ exampleJob with Repeat := some { Count := 2, Interval := 1 } },
           { exampleJob with Name := "J2" }]

/-- A workflow whose only job has a `Repeat` with `count = 0`. -/
def zeroCountWorkflow : Workflow where
  Name := "zero"
  Jobs := [{ exampleJob with Repeat := some { Count := 0, Interval := 5 } }]

/-- An interleaving of the goroutines of `exampleWorkflow` after which
`Workflow.Start` has returned: the main goroutine runs up to `wg.Wait()`, the three
runs take their steps in turn, and the main goroutine completes `wg.Wait()`. -/
def exampleSchedule : List Tid :=
  List.replicate 8 Tid.main
    ++ (List.replicate 4 [Tid.run 0, Tid.run 1, Tid.run 2]).flatten
    ++ [Tid.main]

/-- The main goroutine has executed the statements `done` of `Workflow.mainOps w`
and has slept as long as they ask for. -/
def SleptInv {σ : Type} (w : Workflow) (s : Sys σ) (done : List MainOp) : Prop :=
  Workflow.mainOps w = done ++ s.ops ∧ s.slept = totalSleep done ∧
    s.runs.length = countGos done

/-- Number of steps the execution still needs for the statement `op` and for the
goroutine it starts. -/
def MainOp.cost : MainOp → Nat
  | MainOp.go _ job => job.Steps.length + 2
  | _ => 1

/-- Number of steps the goroutine `r` still needs. -/
def Run.cost (r : Run) : Nat :=
  if r.finished then 0 else r.job.Steps.length - r.pc + 1

/-- Number of steps the execution still needs before `Workflow.Start` returns. -/
def Sys.cost {σ : Type} (s : Sys σ) : Nat :=
  (s.ops.map MainOp.cost).sum + (s.runs.map Run.cost).sum

/-- The first run of `exampleWorkflow` after `exampleSchedule`. -/
def exampleRun : Run where
  idx := 0
  job := { exampleJob with Repeat := some { Count := 2, Interval := 1 } }
  ctx := { Envs := [], Logs := { arr := 5, len := 3, cap := 4 } }
  pc := 3
  calls := [⟨0, "hello", [], [("body", Value.str "\x7b\"a\":1\x7d")],
              Except.ok [("req", Value.map [("uses", Value.str "hello")]),
                         ("res", Value.map [("body", Value.str "\x7b\"a\":1\x7d")])]⟩,
            ⟨1, "http", [], [],
              Except.ok [("req", Value.map [("uses", Value.str "http")]),
                         ("res", Value.map [])]⟩,
            ⟨2, "smtp", [], [("body", Value.str "plain")],
              Except.ok [("req", Value.map [("uses", Value.str "smtp")]),
                         ("res", Value.map [("body", Value.str "plain")])]⟩]
  stdout := [Report.verbose 0 [("uses", Value.str "hello")]
               [("body", Value.str "\x7b\"a\":1\x7d"), ("bodyjson", Value.map [("a", Value.num 1)])],
             Report.verbose 1 [("uses", Value.str "http")] [],
             Report.verbose 2 [("uses", Value.str "smtp")] [("body", Value.str "plain")]]
  finished := true

/-! ## Go strings

A Go string is a sequence of bytes. The functions of package `strings` that
`smtp/latency.go` calls are modelled on bytes, after their documentation. -/

/-- Go `string`. -/
abbrev GoString := List UInt8

/-- The bytes of a string literal whose characters are all ASCII. -/
def ascii (s : String) : GoString :=
  s.toList.map (fun c => c.toNat.toUInt8)

/-- Go `strings.HasPrefix`. -/
def HasPrefix (s pfx : GoString) : Bool :=
  pfx.isPrefixOf s

/-- Go `strings.TrimPrefix`. -/
def TrimPrefix (s pfx : GoString) : GoString :=
  if HasPrefix s pfx then s.drop pfx.length else s

/-- Go `strings.Contains(s, sep)` for a separator `sep` of one byte. -/
def Contains (s : GoString) (sep : UInt8) : Bool :=
  s.contains sep

/-- Go `strings.Split(s, sep)` for a separator `sep` of one byte; `cur` holds, in
reverse, the bytes read since the last separator. -/
def splitFrom (sep : UInt8) : GoString → GoString → List GoString
  | [], cur => [cur.reverse]
  | b :: rest, cur =>
      if b = sep then cur.reverse :: splitFrom sep rest [] else splitFrom sep rest (b :: cur)

/-- Go `strings.Split(s, sep)` for a separator `sep` of one byte. -/
def Split (s : GoString) (sep : UInt8) : List GoString :=
  splitFrom sep s []

/-- Go `strings.Join`. -/
def Join : List GoString → GoString → GoString
  | [], _ => []
  | [a], _ => a
  | a :: b :: rest, sep => a ++ sep ++ Join (b :: rest) sep

/-- The white space of Unicode, in UTF-8: the six ASCII characters `\t \n \v \f \r`
and space, then U+0085, U+00A0, U+1680, U+2000 to U+200A, U+2028, U+2029, U+202F,
U+205F and U+3000. -/
def whiteSpace : List GoString :=
  [[9], [10], [11], [12], [13], [32], [0xC2, 0x85], [0xC2, 0xA0], [0xE1, 0x9A, 0x80],
   [0xE2, 0x80, 0x80], [0xE2, 0x80, 0x81], [0xE2, 0x80, 0x82], [0xE2, 0x80, 0x83],
   [0xE2, 0x80, 0x84], [0xE2, 0x80, 0x85], [0xE2, 0x80, 0x86], [0xE2, 0x80, 0x87],
   [0xE2, 0x80, 0x88], [0xE2, 0x80, 0x89], [0xE2, 0x80, 0x8A], [0xE2, 0x80, 0xA8],
   [0xE2, 0x80, 0xA9], [0xE2, 0x80, 0xAF], [0xE2, 0x81, 0x9F], [0xE3, 0x80, 0x80]]

/-- Removes the white space `s` starts with; `fuel` bounds the number of characters
removed. -/
def trimLeftSpace : Nat → GoString → GoString
  | 0, s => s
  | fuel + 1, s =>
      match whiteSpace.find? (fun w => w.isPrefixOf s) with
      | some w => trimLeftSpace fuel (s.drop w.length)
      | none => s

/-- Removes the white space `s` ends with, `s` being given in reverse. -/
def trimRightSpace : Nat → GoString → GoString
  | 0, s => s
  | fuel + 1, s =>
      match whiteSpace.find? (fun w => w.reverse.isPrefixOf s) with
      | some w => trimRightSpace fuel (s.drop w.length)
      | none => s

/-- Go `strings.TrimSpace`. -/
def TrimSpace (s : GoString) : GoString :=
  let t := trimLeftSpace s.length s
  (trimRightSpace t.length t.reverse).reverse

/-- Go `strings.Trim(s, cutset)` for a cutset of ASCII characters. -/
def Trim (s cutset : GoString) : GoString :=
  ((s.dropWhile (fun b => cutset.contains b)).reverse.dropWhile
    (fun b => cutset.contains b)).reverse

/-! ## Go times -/

/-- Go `time.Time`, as the instant it denotes: nanoseconds since the zero time,
January 1, year 1, 00:00:00 UTC. -/
structure Time where
  ns : Int
deriving DecidableEq

/-- Go `time.Duration`: nanoseconds, an `int64`. -/
abbrev Duration := Int

/-- Go `time.Time{}`. -/
def Time.zero : Time := { ns := 0 }

/-- Go `func (t Time) IsZero() bool`. -/
def Time.IsZero (t : Time) : Bool :=
  t.ns == 0

/-- Go `func (t Time) Before(u Time) bool`. -/
def Time.Before (t u : Time) : Bool :=
  decide (t.ns < u.ns)

def minDuration : Duration := -(2 ^ 63)

def maxDuration : Duration := 2 ^ 63 - 1

/-- Go `func (t Time) Sub(u Time) Duration`: the difference, or the minimum or
maximum duration when the difference does not fit a `Duration`. -/
def Time.Sub (t u : Time) : Duration :=
  if t.ns - u.ns < minDuration then minDuration
  else if maxDuration < t.ns - u.ns then maxDuration
  else t.ns - u.ns

/-- Go `*time.Location`, as the name it was loaded under. -/
structure Location where
  name : GoString
deriving DecidableEq

/-! ## Data model of `smtp/latency.go` -/

/-- How a call ends that does not return normally: with a Go `error`, or in a
run-time panic. -/
inductive Fault where
  | error (msg : String) : Fault
  | panic (msg : String) : Fault
deriving DecidableEq

structure Latency where
  ElapsedTimeToSent : Duration
  ElapsedTimeToReceived : Duration
  SentTime : Time
  LastReceivedTime : Time
  EndToEnd : Duration
  FirstReceivedTime : Time
  Relay : Duration
  ReturnPath : GoString
  FilePath : GoString
deriving DecidableEq

structure Latencies where
  EarliestTime : Time
  Data : List Latency
  MailDir : GoString
  TimeFormat : GoString
  TimeLocation : Option Location
deriving DecidableEq

def defaultTimezone : GoString := ascii "Asia/Tokyo"

def defaultTimeformat : GoString := ascii "2006-01-02 15:04:05"

/-- The library functions `smtp/latency.go` relies on that are not modelled here.
`mapToLower` is `strings.Map(unicode.ToLower, s)`, `Parse` is
`time.Parse(time.RFC1123Z, s)`, `sortSlice less xs` is what `sort.Slice(xs, less)`
leaves in `xs`. -/
structure Stdlib where
  mapToLower : GoString → GoString
  Parse : GoString → Except String Time
  LoadLocation : GoString → Except String Location
  sortSlice : (Latency → Latency → Bool) → List Latency → List Latency

/-- The contract of `sort.Slice` for an order given by an integer key: the slice is
permuted, and ends up sorted by the key. -/
def SortsByKey (sort : (Latency → Latency → Bool) → List Latency → List Latency) : Prop :=
  ∀ (key : Latency → Int) (xs : List Latency),
    (sort (fun a b => decide (key a < key b)) xs).Perm xs ∧
    (sort (fun a b => decide (key a < key b)) xs).Pairwise (fun a b => key a ≤ key b)

/-- One call `fn(path, d, err)` that `filepath.WalkDir` makes on the maildir, in the
order of the walk. `content` is what reading the file gives: the error of
`os.Open`, or the lines `bufio.Scanner` yields. -/
structure Visit where
  path : GoString
  isDir : Bool
  err : Option String
  content : Except String (List GoString)

/-- Go `filepath.WalkDir(root, fn)`, the walk of `root` being `visits`: `fn` is
called on every entry in turn, and the first error it returns ends the walk. -/
def WalkDir {S : Type} (fn : Visit → S → S × Option Fault) : List Visit → S → S × Option Fault
  | [], s => (s, none)
  | v :: vs, s =>
      match fn v s with
      | (s', none) => WalkDir fn vs s'
      | (s', some e) => (s', some e)

/-! ## `smtp/latency.go` -/

/-- Go `strings.ToLower`: ASCII strings are lowered byte by byte, the others go
through `strings.Map(unicode.ToLower, s)`. -/
def ToLower (X : Stdlib) (s : GoString) : GoString :=
  if s.all (fun b => decide (b < 0x80)) then
    s.map (fun b => if 0x41 ≤ b ∧ b ≤ 0x5A then b + 0x20 else b)
  else X.mapToLower s

/-- Go `func HasFlexedPrefix(s, prefix string) bool`. The slice expression
`s[0:len(lower)]` panics when `lower` is longer than `s`. -/
def HasFlexedPrefix (X : Stdlib) (s pfx : GoString) : Except Fault Bool :=
  if s.length < pfx.length then Except.ok false
  else
    let lower := ToLower X pfx
    if s.length < lower.length then Except.error (Fault.panic "slice bounds out of range")
    else Except.ok (ToLower X (s.take lower.length) == lower)

/-- Go `func (l *Latencies) getReturnPathWithParse(s string) string`. -/
def getReturnPathWithParse (s : GoString) : GoString :=
  Trim (TrimSpace (TrimPrefix s (ascii "Return-Path: "))) (ascii "<>")

/-- Go `func (l *Latencies) getSentTimeWithParse(s string) (time.Time, error)`. -/
def getSentTimeWithParse (X : Stdlib) (s : GoString) : Except Fault Time :=
  match X.Parse (TrimPrefix s (ascii "Date: ")) with
  | Except.ok t => Except.ok t
  | Except.error e => Except.error (Fault.error e)

/-- Go `func (l *Latencies) getReceivedTimeWithParse(s string) (time.Time, error)`. -/
def getReceivedTimeWithParse (X : Stdlib) (s : GoString) : Except Fault Time :=
  let parts := Split s 0x3B
  if parts.length < 2 then Except.error (Fault.error "malformed Received header")
  else
    match X.Parse (TrimSpace ((Split (parts.getLastD []) 0x28).headD [])) with
    | Except.ok t => Except.ok t
    | Except.error e => Except.error (Fault.error e)

/-- Lines 94-99 and 145-150: what a line does to the date read so far. -/
def dateStep (X : Stdlib) (line : GoString) (date : Time) : Except Fault Time :=
  match HasFlexedPrefix X line (ascii "Date:") with
  | Except.error e => Except.error e
  | Except.ok b => if b && date.IsZero then getSentTimeWithParse X line else Except.ok date

/-- The loop of `getDateHeader` (lines 92-103): it ends at the first line after
which the date is not zero. -/
def getDateHeaderLoop (X : Stdlib) : List GoString → Time → Except Fault Time
  | [], date => Except.ok date
  | line :: rest, date =>
      match dateStep X line date with
      | Except.error e => Except.error e
      | Except.ok date' => if !date'.IsZero then Except.ok date' else getDateHeaderLoop X rest date'

/-- Go `func (l *Latencies) getDateHeader(p string) (time.Time, error)`, `content`
being what reading `p` gives. -/
def getDateHeader (X : Stdlib) (content : Except String (List GoString)) : Except Fault Time :=
  match content with
  | Except.error e => Except.error (Fault.error e)
  | Except.ok lines =>
      match getDateHeaderLoop X lines Time.zero with
      | Except.error e => Except.error e
      | Except.ok date =>
          if date.IsZero then Except.error (Fault.error "missing required date headers")
          else Except.ok date

/-- The callback of `FindEarliestSentTime` (lines 61-76); the state is the captured
variable `earliestTime`. -/
def findEarliestFn (X : Stdlib) (v : Visit) (earliestTime : Time) : Time × Option Fault :=
  match v.err with
  | some e => (earliestTime, some (Fault.error e))
  | none =>
      if v.isDir then (earliestTime, none)
      else
        match getDateHeader X v.content with
        | Except.error e => (earliestTime, some e)
        | Except.ok sentTime =>
            if earliestTime.IsZero || sentTime.Before earliestTime then (sentTime, none)
            else (earliestTime, none)

/-- Go `func (l *Latencies) FindEarliestSentTime() (time.Time, error)`, `visits`
being the walk of `l.MailDir`. -/
def FindEarliestSentTime (X : Stdlib) (visits : List Visit) : Time × Option Fault :=
  WalkDir (findEarliestFn X) visits Time.zero

/-- The local variables of `ParseMail` that its loop updates. -/
structure Scan where
  row : Latency
  receivedTimes : List Time
  receivedLines : List GoString

/-- Lines 152-164 of `ParseMail`: the handling of `Received:` lines and of their
continuation lines. -/
def receivedStep (X : Stdlib) (line : GoString) (sc : Scan) : Except Fault Scan :=
  match HasFlexedPrefix X line (ascii "Received:") with
  | Except.error e => Except.error e
  | Except.ok true =>
      Except.ok { sc with receivedLines := sc.receivedLines ++ [TrimSpace line] }
  | Except.ok false =>
      if 0 < sc.receivedLines.length && (HasPrefix line (ascii "\t") || HasPrefix line (ascii " "))
      then
        if Contains line 0x3B then
          match getReceivedTimeWithParse X
              (Join (sc.receivedLines ++ [TrimSpace line]) (ascii " ")) with
          | Except.error e => Except.error e
          | Except.ok rt =>
              Except.ok { sc with receivedTimes := sc.receivedTimes ++ [rt], receivedLines := [] }
        else Except.ok { sc with receivedLines := sc.receivedLines ++ [TrimSpace line] }
      else Except.ok sc

/-- The body of the loop of `ParseMail` (lines 139-164) for one line. -/
def parseLine (X : Stdlib) (line : GoString) (sc : Scan) : Except Fault Scan :=
  match HasFlexedPrefix X line (ascii "Return-Path:") with
  | Except.error e => Except.error e
  | Except.ok isReturnPath =>
      let row1 : Latency :=
        if isReturnPath && sc.row.ReturnPath == [] then
          { sc.row with ReturnPath := getReturnPathWithParse line }
        else sc.row
      match dateStep X line row1.SentTime with
      | Except.error e => Except.error e
      | Except.ok sent =>
          receivedStep X line { sc with row := { row1 with SentTime := sent } }

/-- The loop of `ParseMail` (lines 138-165). -/
def parseLines (X : Stdlib) : List GoString → Scan → Except Fault Scan
  | [], sc => Except.ok sc
  | line :: rest, sc =>
      match parseLine X line sc with
      | Except.error e => Except.error e
      | Except.ok sc' => parseLines X rest sc'

/-- Lines 171-176 of `ParseMail`: the row, once the headers are read. -/
def finishRow (l : Latencies) (sc : Scan) : Latency :=
  let last := sc.receivedTimes.headD Time.zero
  let first := sc.receivedTimes.getLastD Time.zero
  { sc.row with
    LastReceivedTime := last
    FirstReceivedTime := first
    EndToEnd := last.Sub sc.row.SentTime
    Relay := last.Sub first
    ElapsedTimeToSent := sc.row.SentTime.Sub l.EarliestTime
    ElapsedTimeToReceived := last.Sub l.EarliestTime }

/-- Go `func (l *Latencies) ParseMail(p string) error`, `content` being what reading
`p` gives: the receiver after the call, and the error returned. -/
def ParseMail (X : Stdlib) (l : Latencies) (p : GoString)
    (content : Except String (List GoString)) : Latencies × Option Fault :=
  match content with
  | Except.error e => (l, some (Fault.error e))
  | Except.ok lines =>
      let row : Latency :=
        { ElapsedTimeToSent := 0, ElapsedTimeToReceived := 0, SentTime := Time.zero,
          LastReceivedTime := Time.zero, EndToEnd := 0, FirstReceivedTime := Time.zero,
          Relay := 0, ReturnPath := [], FilePath := p }
      match parseLines X lines { row := row, receivedTimes := [], receivedLines := [] } with
      | Except.error e => (l, some e)
      | Except.ok sc =>
          if sc.row.SentTime.IsZero || sc.receivedTimes.length == 0 then
            (l, some (Fault.error "missing required headers"))
          else ({ l with Data := l.Data ++ [finishRow l sc] }, none)

/-- The callback of `Make` (lines 237-248); the state is the receiver `l`. -/
def makeFn (X : Stdlib) (v : Visit) (l : Latencies) : Latencies × Option Fault :=
  match v.err with
  | some e => (l, some (Fault.error e))
  | none => if v.isDir then (l, none) else ParseMail X l v.path v.content

/-- Lines 222-231 of `Make`: the defaults of `TimeLocation` and `TimeFormat`. -/
def makeDefaults (X : Stdlib) (l : Latencies) : Latencies × Option Fault :=
  match l.TimeLocation with
  | none =>
      match X.LoadLocation defaultTimezone with
      | Except.error e => (l, some (Fault.error e))
      | Except.ok z =>
          ({ l with TimeLocation := some z
                    TimeFormat := if l.TimeFormat == [] then defaultTimeformat else l.TimeFormat },
            none)
  | some _ =>
      ({ l with TimeFormat := if l.TimeFormat == [] then defaultTimeformat else l.TimeFormat },
        none)

/-- Go `func (l *Latencies) Make() error`, `visits` being the walk of `l.MailDir`
(the same for both walks): the receiver after the call, and the error returned. -/
def Make (X : Stdlib) (visits : List Visit) (l : Latencies) : Latencies × Option Fault :=
  match makeDefaults X l with
  | (l1, some e) => (l1, some e)
  | (l1, none) =>
      match FindEarliestSentTime X visits with
      | (t, some e) => ({ l1 with EarliestTime := t }, some e)
      | (t, none) =>
          match WalkDir (makeFn X) visits { l1 with EarliestTime := t } with
          | (l2, some e) => (l2, some e)
          | (l2, none) =>
              ({ l2 with
                 Data := X.sortSlice
                   (fun a b => decide (a.ElapsedTimeToSent < b.ElapsedTimeToSent)) l2.Data },
                none)

/-! ## Auxiliary definitions and examples for `smtp/latency.go` -/

/-- The date after all of `lines`, each line doing to the date what `dateStep`
says. -/
def dateFold (X : Stdlib) : List GoString → Time → Except Fault Time
  | [], date => Except.ok date
  | line :: rest, date =>
      match dateStep X line date with
      | Except.error e => Except.error e
      | Except.ok date' => dateFold X rest date'

/-- The entries of the walk that are not directories. -/
def mailFiles (visits : List Visit) : List Visit :=
  visits.filter (fun v => !v.isDir)

/-- Insertion of `x` into a list sorted by `less`, after the elements that are not
greater. -/
def insertSorted (less : Latency → Latency → Bool) (x : Latency) : List Latency → List Latency
  | [] => [x]
  | y :: ys => if less x y then x :: y :: ys else y :: insertSorted less x ys

/-- A sort that meets the contract of `sort.Slice`: insertion sort. -/
def exampleSort (less : Latency → Latency → Bool) : List Latency → List Latency
  | [] => []
  | x :: xs => insertSorted less x (exampleSort less xs)

/-- The value of a sequence of decimal digits. -/
def digits (s : GoString) : Option Nat :=
  s.foldl (fun acc b => acc.bind (fun n =>
    if 0x30 ≤ b ∧ b ≤ 0x39 then some (n * 10 + (b.toNat - 0x30)) else none)) (some 0)

/-- The number of the month named `s`, from 1. -/
def monthNumber (s : GoString) : Option Nat :=
  match (["Jan", "Feb", "Mar", "Apr", "May", "Jun", "Jul", "Aug", "Sep", "Oct", "Nov",
      "Dec"].map ascii).indexOf? s with
  | some i => some (i + 1)
  | none => none

/-- Days from January 1, year 1 to the day `d` of month `m` of year `y` (Gregorian
calendar). -/
def daysFromCivil (y m d : Int) : Int :=
  let y' := if m ≤ 2 then y - 1 else y
  let era := y' / 400
  let yoe := y' - era * 400
  let doy := (153 * (m + (if 2 < m then -3 else 9)) + 2) / 5 + d - 1
  era * 146097 + (yoe * 365 + yoe / 4 - yoe / 100 + doy) - 306

/-- A reading of dates laid out as `Mon, 02 Jan 2006 15:04:05 -0700`
(`time.RFC1123Z`), for the examples: every field has its full width, and the name of
the day is not looked at. -/
def exampleParse (s : GoString) : Except String Time :=
  match digits ((s.drop 5).take 2), monthNumber ((s.drop 8).take 3),
      digits ((s.drop 12).take 4), digits ((s.drop 17).take 2), digits ((s.drop 20).take 2),
      digits ((s.drop 23).take 2), digits ((s.drop 27).take 2), digits ((s.drop 29).take 2) with
  | some day, some month, some year, some hh, some mm, some ss, some zh, some zm =>
      if s.length = 31 ∧ ((s.drop 26).take 1 = ascii "+" ∨ (s.drop 26).take 1 = ascii "-") then
        let offset : Int := (if (s.drop 26).take 1 = ascii "-" then -1 else 1) * (zh * 3600 + zm * 60)
        Except.ok { ns := ((daysFromCivil year month day * 86400 + hh * 3600 + mm * 60 + ss)
                            - offset) * 1000000000 }
      else Except.error "cannot parse"
  | _, _, _, _, _, _, _, _ => Except.error "cannot parse"

/-- The library of the examples; the examples hold ASCII strings only. -/
def exampleStdlib : Stdlib where
  mapToLower s := s
  Parse := exampleParse
  LoadLocation name := Except.ok { name := name }
  sortSlice := exampleSort

/-- A mail with the headers `latency.go` reads: relayed once, sent at `sent`,
received by the relay at `first` and delivered at `last`. -/
def exampleMail (name returnPath sent first last : String) : Visit where
  path := ascii ("testdata/" ++ name)
  isDir := false
  err := none
  content := Except.ok [
    ascii ("Return-Path: <" ++ returnPath ++ ">"),
    ascii "Received: from relay.local by mx.local",
    ascii ("\tfor <bob@mx.local>; Sun, 25 Aug 2024 " ++ last ++ " +0900 (JST)"),
    ascii "Received: from msa.local by relay.local",
    ascii ("\tfor <bob@mx.local>; Sun, 25 Aug 2024 " ++ first ++ " +0900 (JST)"),
    ascii ("Date: Sun, 25 Aug 2024 " ++ sent ++ " +0900"),
    ascii "Subject: probe"]

/-- The walk of a maildir that holds six mails with the file names, return paths and
times `TestLatency` expects of `./testdata/`, in the lexical order of the walk. -/
def exampleMaildir : List Visit :=
  [{ path := ascii "testdata/", isDir := true, err := none, content := Except.error "is a directory" },
   exampleMail "1724572551.V802I9c075dM312459.mx1" "alice@msa1.local" "16:55:51" "16:55:51" "16:55:51",
   exampleMail "1724574778.V802I9c11ceM957845.mx1" "alice@msa1.local" "16:59:51" "16:59:52" "17:32:58",
   exampleMail "1724575209.V802I9c13e7M569645.mx2" "carol@msa2.local" "16:59:31" "16:59:38" "17:40:09",
   exampleMail "1724575381.V802I9c1498M584002.mx2" "carol@msa2.local" "17:02:01" "17:02:16" "17:43:01",
   exampleMail "1724575381.V802I9c1499M584795.mx1" "alice@msa1.local" "17:00:01" "17:00:02" "17:43:01",
   exampleMail "1724575382.V802I9c14aeM356992.mx2" "carol@msa2.local" "17:02:11" "17:02:12" "17:43:02"]

/-- The receiver of `TestLatency`: `Latencies{MailDir: "./testdata/"}`. -/
def exampleLatencies : Latencies where
  EarliestTime := Time.zero
  Data := []
  MailDir := ascii "./testdata/"
  TimeFormat := []
  TimeLocation := none

/-! ## Examples for `HasFlexedPrefix` -/

/-- The lowering of the examples on non-ASCII strings: the letter U+023A, in UTF-8
the bytes `C8 BA`, becomes U+2C65, the bytes `E2 B1 A5`, as `unicode.ToLower` has
it; the other bytes of the examples have no lower case. -/
def lowerStroke : GoString → GoString
  | 0xC8 :: 0xBA :: rest => 0xE2 :: 0xB1 :: 0xA5 :: lowerStroke rest
  | b :: rest => b :: lowerStroke rest
  | [] => []

/-- The library of the examples, with `lowerStroke` for the strings that are not
ASCII. -/
def strokeStdlib : Stdlib :=
  { exampleStdlib with mapToLower := lowerStroke }

/-! ## `getMailLatency` -/

/-- Go `func parseReturnPathHeader(header string) string`. -/
def parseReturnPathHeader (header : GoString) : GoString :=
  Trim (TrimSpace (TrimPrefix header (ascii "Return-Path: "))) (ascii "<>")

/-- Go `func parseDateHeader(header string) (time.Time, error)`. -/
def parseDateHeader (X : Stdlib) (header : GoString) : Except Fault Time :=
  match X.Parse (TrimPrefix header (ascii "Date: ")) with
  | Except.ok t => Except.ok t
  | Except.error e => Except.error (Fault.error e)

/-- Go `func parseReceivedHeader(header string) (time.Time, error)`. -/
def parseReceivedHeader (X : Stdlib) (header : GoString) : Except Fault Time :=
  let parts := Split header 0x3B
  if parts.length < 2 then Except.error (Fault.error "malformed Received header")
  else
    match X.Parse (TrimSpace ((Split (parts.getLastD []) 0x28).headD [])) with
    | Except.ok t => Except.ok t
    | Except.error e => Except.error (Fault.error e)

/-- The local variables of `getMailLatency` that its loop updates. -/
structure MailScan where
  dateHeader : Time
  returnPathHeader : GoString
  receivedHeaders : List Time
  receivedLines : List GoString

/-- What `getMailLatency` returns beside the error: `returnPathHeader`, `dateHeader`,
`firstR`, `lastR`, `latency` and `subLatency`. -/
structure MailLatency where
  returnPath : GoString
  sendTime : Time
  firstReceived : Time
  lastReceived : Time
  latency : Duration
  subLatency : Duration

/-- Lines 432-445 of `getMailLatency`: the handling of `Received:` lines and of their
continuation lines. -/
def mailReceivedStep (X : Stdlib) (line : GoString) (sc : MailScan) : Except Fault MailScan :=
  if HasPrefix line (ascii "Received:") then
    Except.ok { sc with receivedLines := sc.receivedLines ++ [TrimSpace line] }
  else if 0 < sc.receivedLines.length &&
      (HasPrefix line (ascii "\t") || HasPrefix line (ascii " ")) then
    if Contains line 0x3B then
      match parseReceivedHeader X (Join (sc.receivedLines ++ [TrimSpace line]) (ascii " ")) with
      | Except.error e => Except.error e
      | Except.ok rH =>
          Except.ok { sc with receivedHeaders := sc.receivedHeaders ++ [rH], receivedLines := [] }
    else Except.ok { sc with receivedLines := sc.receivedLines ++ [TrimSpace line] }
  else Except.ok sc

/-- The body of the loop of `getMailLatency` (lines 419-445) for one line. -/
def mailLine (X : Stdlib) (line : GoString) (sc : MailScan) : Except Fault MailScan :=
  let sc1 : MailScan :=
    if HasPrefix line (ascii "Return-Path:") && sc.returnPathHeader == [] then
      { sc with returnPathHeader := parseReturnPathHeader line }
    else sc
  if HasPrefix line (ascii "Date:") && sc1.dateHeader.IsZero then
    match parseDateHeader X line with
    | Except.error e => Except.error e
    | Except.ok t => mailReceivedStep X line { sc1 with dateHeader := t }
  else mailReceivedStep X line sc1

/-- The loop of `getMailLatency` (lines 418-450). -/
def mailLines (X : Stdlib) : List GoString → MailScan → Except Fault MailScan
  | [], sc => Except.ok sc
  | line :: rest, sc =>
      match mailLine X line sc with
      | Except.error e => Except.error e
      | Except.ok sc' => mailLines X rest sc'

/-- Go `func getMailLatency(filePath string)`, `content` being what reading
`filePath` gives. -/
def getMailLatency (X : Stdlib) (content : Except String (List GoString)) :
    Except Fault MailLatency :=
  match content with
  | Except.error e => Except.error (Fault.error e)
  | Except.ok lines =>
      match mailLines X lines
          { dateHeader := Time.zero, returnPathHeader := [], receivedHeaders := [],
            receivedLines := [] } with
      | Except.error e => Except.error e
      | Except.ok sc =>
          if sc.dateHeader.IsZero || sc.receivedHeaders.length == 0 then
            Except.error (Fault.error "missing required headers")
          else
            let lastR := sc.receivedHeaders.headD Time.zero
            let firstR := sc.receivedHeaders.getLastD Time.zero
            Except.ok
              { returnPath := sc.returnPathHeader, sendTime := sc.dateHeader,
                firstReceived := firstR, lastReceived := lastR,
                latency := lastR.Sub sc.dateHeader, subLatency := lastR.Sub firstR }

/-! ## Mails whose `Received` headers are on one line -/

/-- Whether `line` starts with a tab or a space. -/
def startsBlank (line : GoString) : Bool :=
  HasPrefix line (ascii "\t") || HasPrefix line (ascii " ")

/-- No line of `lines` that starts with a tab or a space and comes after a
`Received:` line contains `;`. With `seen`, a `Received:` line comes before
`lines`. -/
def NoLateSemicolon (X : Stdlib) (seen : Prop) (lines : List GoString) : Prop :=
  ∀ (pre : List GoString) (line : GoString) (post : List GoString),
    lines = pre ++ line :: post →
    (seen ∨ ∃ r ∈ pre, HasFlexedPrefix X r (ascii "Received:") = Except.ok true) →
    startsBlank line = true → Contains line 0x3B = false

/-- Every `Date:` line of `lines` holds a date that `time.Parse` reads. -/
def DatesValid (X : Stdlib) (lines : List GoString) : Prop :=
  ∀ line ∈ lines, HasFlexedPrefix X line (ascii "Date:") = Except.ok true →
    ∃ t, X.Parse (TrimPrefix line (ascii "Date: ")) = Except.ok t

/-- A mail with a valid `Date` header and a `Received` header on one line, followed
by a folded `Content-Type` header. -/
def foldedMail : List GoString :=
  [ascii "Date: Sun, 25 Aug 2024 16:55:51 +0900",
   ascii "Received: from msa.local by mx.local; Sun, 25 Aug 2024 16:55:52 +0900",
   ascii "Content-Type: multipart/mixed;",
   ascii "\tboundary=b1; charset=utf-8",
   ascii "Subject: probe"]

/-- A mail with a valid `Date` header and a `Received` header on one line, followed
by a folded header whose continuation line ends in a date. -/
def tracedMail : List GoString :=
  [ascii "Date: Sun, 25 Aug 2024 16:55:51 +0900",
   ascii "Received: from msa.local by mx.local; Sun, 25 Aug 2024 16:55:52 +0900",
   ascii "X-Trace: hop",
   ascii "\t(seen); Sun, 25 Aug 2024 16:55:53 +0900",
   ascii "Subject: probe"]

/-- A mail with a valid `Date` header, two `Received` headers on one line each, and
no folded header. -/
def singleLineMail : List GoString :=
  [ascii "Return-Path: <alice@msa1.local>",
   ascii "Received: from relay.local by mx.local; Sun, 25 Aug 2024 16:55:53 +0900",
   ascii "Received: from msa.local by relay.local; Sun, 25 Aug 2024 16:55:52 +0900",
   ascii "Date: Sun, 25 Aug 2024 16:55:51 +0900",
   ascii "Subject: probe"]

/-! # Theorems -/

/-! ## Maps -/

theorem mapIndex_mapAssign_self (m : GoMap) (k : String) (v : Value) :
    mapIndex (mapAssign m k v) k = some v := by
  induction m with
  | nil => simp [mapAssign, mapIndex, List.lookup]
  | cons p rest ih =>
    obtain ⟨k', v'⟩ := p
    by_cases h : k' = k
    · simp [mapAssign, mapIndex, List.lookup, h]
    · have h' : (k == k') = false := by
        simpa using fun e => h e.symm
      simp only [mapAssign, h, if_false, mapIndex, List.lookup, h']
      exact ih

theorem mapIndex_mapAssign_ne (m : GoMap) (k k' : String) (v : Value) (hk : k' ≠ k) :
    mapIndex (mapAssign m k v) k' = mapIndex m k' := by
  induction m with
  | nil =>
    have h' : (k' == k) = false := by simpa using hk
    simp [mapAssign, mapIndex, List.lookup, h']
  | cons p rest ih =>
    obtain ⟨k₁, v₁⟩ := p
    by_cases h : k₁ = k
    · subst h
      have h' : (k' == k₁) = false := by simpa using hk
      simp [mapAssign, mapIndex, List.lookup, h']
    · simp only [mapAssign, h, if_false, mapIndex, List.lookup]
      cases hb : (k' == k₁) with
      | true => rfl
      | false => exact ih

theorem mapAssign_of_mapIndex (m : GoMap) (k : String) (v : Value)
    (h : mapIndex m k = some v) : mapAssign m k v = m := by
  induction m with
  | nil => simp [mapIndex, List.lookup] at h
  | cons p rest ih =>
    obtain ⟨k₁, v₁⟩ := p
    by_cases hk : k₁ = k
    · subst hk
      simp [mapIndex, List.lookup] at h
      simp [mapAssign, h]
    · have h' : (k == k₁) = false := by
        simpa using fun e => hk e.symm
      simp only [mapIndex, List.lookup, h'] at h
      simp only [mapAssign, hk, if_false]
      rw [ih h]

theorem assertMap_eq_some {x : Option Value} {m : GoMap} (h : assertMap x = some m) :
    x = some (Value.map m) := by
  unfold assertMap at h
  split at h
  · simp at h; subst h; rfl
  · simp at h

theorem assertString_eq_some {x : Option Value} {b : String} (h : assertString x = some b) :
    x = some (Value.str b) := by
  unfold assertString at h
  split at h
  · simp at h; subst h; rfl
  · simp at h

/-! ## Slices -/

theorem getD_set_self (h : Heap) (a : Nat) (x : List GoMap) (ha : a < h.length) :
    (h.set a x).getD a [] = x := by
  simp [List.getD_eq_getElem?_getD, List.getElem?_set, ha]

theorem getD_set_ne (h : Heap) (a b : Nat) (x : List GoMap) (hab : a ≠ b) :
    (h.set a x).getD b [] = h.getD b [] := by
  simp [List.getD_eq_getElem?_getD, List.getElem?_set, hab]

theorem getD_append_lt (h : Heap) (b : Nat) (x : List GoMap) (hb : b < h.length) :
    (h ++ [x]).getD b [] = h.getD b [] := by
  simp [List.getD_eq_getElem?_getD, List.getElem?_append_left hb]

theorem getD_append_length (h : Heap) (x : List GoMap) :
    (h ++ [x]).getD h.length [] = x := by
  simp [List.getD_eq_getElem?_getD]

theorem length_readSlice (h : Heap) (s : Slice) (wf : s.WF h) :
    (readSlice h s).length = s.len := by
  obtain ⟨hlen, hcap⟩ := wf
  unfold readSlice
  by_cases hc : 0 < s.cap
  · obtain ⟨_, hsz⟩ := hcap hc
    rw [List.length_take, hsz]; omega
  · have : s.len = 0 := by omega
    rw [this]; rfl

theorem take_set_self {α : Type} (a : List α) (n : Nat) (v : α) :
    (a.set n v).take n = a.take n := by
  induction a generalizing n with
  | nil => simp
  | cons x xs ih =>
    cases n with
    | zero => simp
    | succ n => simp [ih]

theorem readSlice_goAppend (g : Nat → Nat) (h : Heap) (s : Slice) (v : GoMap)
    (wf : s.WF h) :
    readSlice (goAppend g h s v).1 (goAppend g h s v).2 = readSlice h s ++ [v] := by
  have hrl := length_readSlice h s wf
  obtain ⟨hlen, hcap⟩ := wf
  unfold goAppend
  by_cases hlt : s.len < s.cap
  · obtain ⟨harr, hsz⟩ := hcap (by omega)
    simp only [hlt, if_true, readSlice]
    rw [getD_set_self h _ _ harr]
    have hl : s.len < (h.getD s.arr []).length := by omega
    generalize h.getD s.arr [] = a at hl
    rw [List.take_succ, take_set_self]
    simp [List.getElem?_set, hl]
  · simp only [hlt, if_false]
    unfold readSlice at hrl ⊢
    simp only []
    rw [getD_append_length]
    generalize List.take s.len (h.getD s.arr []) = l at hrl
    rw [List.take_append_eq_append_take, hrl]
    simp [← hrl]

theorem WF_goAppend (g : Nat → Nat) (h : Heap) (s : Slice) (v : GoMap) (wf : s.WF h) :
    (goAppend g h s v).2.WF (goAppend g h s v).1 := by
  have hrl := length_readSlice h s wf
  obtain ⟨hlen, hcap⟩ := wf
  unfold goAppend
  by_cases hlt : s.len < s.cap
  · obtain ⟨harr, hsz⟩ := hcap (by omega)
    simp only [hlt, if_true, Slice.WF]
    refine ⟨by omega, fun _ => ⟨by simpa using harr, ?_⟩⟩
    rw [getD_set_self h _ _ harr, List.length_set]
    exact hsz
  · simp only [hlt, if_false, Slice.WF]
    refine ⟨by omega, fun _ => ⟨by simp, ?_⟩⟩
    rw [getD_append_length]
    simp only [List.length_append, List.length_cons, List.length_replicate, hrl]
    omega

/-! ## `Job.Start` -/

theorem Job.iter_spec {σ : Type} (X : Externals σ) (i : Nat) (st : Step) (s : JobState σ)
    (wf : s.ctx.Logs.WF s.heap) :
    ∃ c : Call, (Job.iter X i st s).calls = s.calls ++ [c] ∧ c.index = i ∧
      c.uses = st.Uses ∧
      c.result = (X.RunActions st.Uses []
        (X.EvaluateExprs st.With s.ctx.Envs (readSlice s.heap s.ctx.Logs)) s.world).1 ∧
      (Job.iter X i st s).log = s.log ++ (c.logged X).toList ∧
      (Job.iter X i st s).ctx.Logs.WF (Job.iter X i st s).heap ∧
      (Job.iter X i st s).ctx.Envs = s.ctx.Envs := by
  unfold Job.iter
  simp only []
  rcases hr : X.RunActions st.Uses []
      (X.EvaluateExprs st.With s.ctx.Envs (readSlice s.heap s.ctx.Logs)) s.world with ⟨r, world⟩
  cases r with
  | error err =>
    refine ⟨_, rfl, rfl, rfl, rfl, ?_, wf, rfl⟩
    simp [JobState.log, Call.logged]
  | ok ret =>
    refine ⟨_, rfl, rfl, rfl, rfl, ?_, ?_, rfl⟩
    · simp only [JobState.log, Call.logged, Option.toList]
      exact readSlice_goAppend _ _ _ _ wf
    · exact WF_goAppend _ _ _ _ wf

theorem Job.loop_spec {σ : Type} (X : Externals σ) (sts : List Step) (i : Nat)
    (s : JobState σ) (wf : s.ctx.Logs.WF s.heap) :
    ∃ cs : List Call, (Job.loop X i sts s).calls = s.calls ++ cs ∧
      cs.map Call.index = List.range' i sts.length ∧
      cs.map Call.uses = sts.map Step.Uses ∧
      (Job.loop X i sts s).log = s.log ++ cs.filterMap (Call.logged X) ∧
      (Job.loop X i sts s).ctx.Logs.WF (Job.loop X i sts s).heap := by
  induction sts generalizing i s with
  | nil => exact ⟨[], by simp [Job.loop], rfl, rfl, by simp [Job.loop], wf⟩
  | cons st sts ih =>
    obtain ⟨c, hc, hi, hu, _, hl, hwf, _⟩ := Job.iter_spec X i st s wf
    obtain ⟨cs, hcs, his, hus, hls, hwfs⟩ := ih (i + 1) (Job.iter X i st s) hwf
    refine ⟨c :: cs, ?_, ?_, ?_, ?_, hwfs⟩
    · simp [Job.loop, hcs, hc]
    · simp [his, hi, List.range']
    · simp [hus, hu]
    · simp only [Job.loop, hls, hl, List.filterMap_cons]
      cases hlg : Call.logged X c <;> simp

theorem exampleCtx_WF (heap : Heap) : exampleCtx.Logs.WF heap :=
  ⟨Nat.le_refl 0, fun h => absurd h (Nat.lt_irrefl 0)⟩

/-- C1 (as stated, refuted): a job of three steps whose second dispatch fails ends
with a log of two entries, not three; the failed step has appended nothing. -/
theorem Job_Start_log_length_counterexample :
    (Job.Start (exampleExternals 1) exampleJob exampleCtx 0 []).calls.map Call.succeeded
        = [true, false, true] ∧
      (Job.Start (exampleExternals 1) exampleJob exampleCtx 0 []).log.length = 2 ∧
      (Job.Start (exampleExternals 1) exampleJob exampleCtx 0 []).log.length
        ≠ exampleJob.Steps.length := by
  decide

theorem length_filterMap_logged {σ : Type} (X : Externals σ) (cs : List Call) :
    (cs.filterMap (Call.logged X)).length = (cs.filter Call.succeeded).length := by
  induction cs with
  | nil => rfl
  | cons c cs ih =>
    rcases c with ⟨ci, cu, ca, cin, cr⟩
    cases cr <;> simp [List.filterMap_cons, List.filter_cons, Call.logged, Call.succeeded, ih]

/-- C1 (amended): after `Job.Start` every step has been dispatched, once and in
order, and the step log is the log the run was handed followed by exactly one entry
for each step whose dispatch succeeded, in the order of the steps, the entry being
the result of the dispatch as `Job.Start` logs it: a failed dispatch appends no
entry and stops no later step. So the log has as many new entries as dispatches
have succeeded, at most `len(j.Steps)`. -/
theorem Job_Start_log_length {σ : Type} (X : Externals σ) (j : Job) (ctx : JobContext)
    (world : σ) (heap : Heap) (wf : ctx.Logs.WF heap) :
    (Job.Start X j ctx world heap).calls.length = j.Steps.length ∧
      (Job.Start X j ctx world heap).log.length
        = (readSlice heap ctx.Logs).length
          + ((Job.Start X j ctx world heap).calls.filter Call.succeeded).length ∧
      (Job.Start X j ctx world heap).log.length
        ≤ (readSlice heap ctx.Logs).length + j.Steps.length ∧
      (Job.Start X j ctx world heap).calls.map Call.index = List.range j.Steps.length ∧
      (Job.Start X j ctx world heap).log
        = readSlice heap ctx.Logs
          ++ (Job.Start X j ctx world heap).calls.filterMap (Call.logged X) ∧
      (∀ c ∈ (Job.Start X j ctx world heap).calls,
        (∀ err, c.result = Except.error err → Call.logged X c = none) ∧
        (∀ ret, c.result = Except.ok ret → Call.logged X c = some (postProcess X ret))) := by
  obtain ⟨cs, hcs, hidx, _, hlog, _⟩ :=
    Job.loop_spec X j.Steps 0 ⟨world, heap, ctx, [], []⟩ wf
  have hlen : cs.length = j.Steps.length := by
    have := congrArg List.length hidx
    simpa using this
  have hf := length_filterMap_logged X cs
  simp only [List.nil_append] at hcs
  have hle : (cs.filter Call.succeeded).length ≤ cs.length := List.length_filter_le _ _
  have hlogged : ∀ c : Call,
      (∀ err, c.result = Except.error err → Call.logged X c = none) ∧
      (∀ ret, c.result = Except.ok ret → Call.logged X c = some (postProcess X ret)) := by
    intro c
    constructor
    · intro err he
      simp [Call.logged, he]
    · intro ret hr
      simp [Call.logged, hr]
  unfold Job.Start
  rw [hcs, hlog]
  refine ⟨hlen, ?_, ?_, ?_, rfl, fun c _ => hlogged c⟩
  · simp only [JobState.log, List.length_append, hf]
  · simp only [JobState.log, List.length_append, hf]
    omega
  · rw [List.range_eq_range']
    exact hidx

theorem Job_Start_log_length_witness :
    exampleCtx.Logs.WF [] ∧
      (Job.Start (exampleExternals 1) exampleJob exampleCtx 0 []).calls.map
          (fun c => (c.index, c.uses, c.succeeded))
        = [(0, "hello", true), (1, "http", false), (2, "smtp", true)] ∧
      (Job.Start (exampleExternals 1) exampleJob exampleCtx 0 []).log
        = [[("req", Value.map [("uses", Value.str "hello")]),
            ("res", Value.map [("body", Value.str "\x7b\"a\":1\x7d"),
                               ("bodyjson", Value.map [("a", Value.num 1)])])],
           [("req", Value.map [("uses", Value.str "smtp")]),
            ("res", Value.map [("body", Value.str "plain")])]] ∧
      (Job.Start (exampleExternals 1) exampleJob exampleCtx 0 []).log.length = 2 ∧
      (Job.Start (exampleExternals 1) exampleJob exampleCtx 0 []).calls.length
        = exampleJob.Steps.length ∧
      (Job.Start (exampleExternals 1) exampleJob exampleCtx 0 []).log.length
        = (readSlice [] exampleCtx.Logs).length
          + ((Job.Start (exampleExternals 1) exampleJob exampleCtx 0 []).calls.filter
              Call.succeeded).length ∧
      (Job.Start (exampleExternals 1) exampleJob exampleCtx 0 []).log.length
        ≤ (readSlice [] exampleCtx.Logs).length + exampleJob.Steps.length ∧
      (Job.Start (exampleExternals 1) exampleJob exampleCtx 0 []).calls.map Call.index
        = List.range exampleJob.Steps.length ∧
      (Job.Start (exampleExternals 1) exampleJob exampleCtx 0 []).log
        = readSlice [] exampleCtx.Logs
          ++ (Job.Start (exampleExternals 1) exampleJob exampleCtx 0 []).calls.filterMap
              (Call.logged (exampleExternals 1)) :=
  have h := Job_Start_log_length (exampleExternals 1) exampleJob exampleCtx 0 []
    (exampleCtx_WF [])
  ⟨exampleCtx_WF [], by decide, rfl, by decide, h.1, h.2.1, h.2.2.1, h.2.2.2.1, h.2.2.2.2.1⟩

/-- C2: `Job.Start` calls `RunActions` once for every declared step, in declaration
order (the call number `i` is for step `i` and uses `j.Steps[i].Uses`), whatever the
outcomes of the calls, and the entries appended to the step log are the results of
the successful calls in that same order. -/
theorem Job_Start_dispatch_order {σ : Type} (X : Externals σ) (j : Job) (ctx : JobContext)
    (world : σ) (heap : Heap) (wf : ctx.Logs.WF heap) :
    (Job.Start X j ctx world heap).calls.map Call.uses = j.Steps.map Step.Uses ∧
      (Job.Start X j ctx world heap).calls.map Call.index = List.range j.Steps.length ∧
      (Job.Start X j ctx world heap).log
        = readSlice heap ctx.Logs
          ++ (Job.Start X j ctx world heap).calls.filterMap (Call.logged X) := by
  obtain ⟨cs, hcs, hidx, huses, hlog, _⟩ :=
    Job.loop_spec X j.Steps 0 ⟨world, heap, ctx, [], []⟩ wf
  simp only [List.nil_append] at hcs
  unfold Job.Start
  rw [hcs, hlog, List.range_eq_range']
  exact ⟨huses, hidx, rfl⟩

theorem Job_Start_dispatch_order_witness :
    exampleCtx.Logs.WF [] ∧
      (Job.Start (exampleExternals 1) exampleJob exampleCtx 0 []).calls.map Call.uses
        = ["hello", "http", "smtp"] ∧
      (Job.Start (exampleExternals 1) exampleJob exampleCtx 0 []).calls.map Call.index
        = [0, 1, 2] ∧
      (Job.Start (exampleExternals 1) exampleJob exampleCtx 0 []).log
        = readSlice [] exampleCtx.Logs
          ++ (Job.Start (exampleExternals 1) exampleJob exampleCtx 0 []).calls.filterMap
              (Call.logged (exampleExternals 1)) :=
  ⟨exampleCtx_WF [], Job_Start_dispatch_order (exampleExternals 1) exampleJob exampleCtx 0 []
    (exampleCtx_WF [])⟩

theorem parseBody_spec {σ : Type} (X : Externals σ) (res : GoMap) :
    (∀ body, assertString (mapIndex res "body") = some body → X.isJSON body = true →
      mapIndex (parseBody X res) "bodyjson" = some (X.mustMarshalJSON body) ∧
      mapIndex (parseBody X res) "body" = some (Value.str body) ∧
      ∀ k, k ≠ "bodyjson" → mapIndex (parseBody X res) k = mapIndex res k) ∧
    ((∀ body, assertString (mapIndex res "body") = some body → X.isJSON body = false) →
      parseBody X res = res) := by
  constructor
  · intro body hb hj
    have hne : ∀ k, k ≠ "bodyjson" →
        mapIndex (parseBody X res) k = mapIndex res k := by
      intro k hk
      simp only [parseBody, hb, hj, if_true]
      exact mapIndex_mapAssign_ne _ _ _ _ hk
    refine ⟨?_, ?_, hne⟩
    · simp only [parseBody, hb, hj, if_true]
      exact mapIndex_mapAssign_self _ _ _
    · rw [hne "body" (by decide)]
      exact assertString_eq_some hb
  · intro h
    unfold parseBody
    cases hb : assertString (mapIndex res "body") with
    | none => rfl
    | some body => simp [h body hb]

theorem postProcess_spec {σ : Type} (X : Externals σ) (ret : GoMap) :
    (∀ k, k ≠ "res" → mapIndex (postProcess X ret) k = mapIndex ret k) ∧
    (∀ res body, assertMap (mapIndex ret "res") = some res →
      assertString (mapIndex res "body") = some body → X.isJSON body = true →
      ∃ res', mapIndex (postProcess X ret) "res" = some (Value.map res') ∧
        mapIndex res' "bodyjson" = some (X.mustMarshalJSON body) ∧
        mapIndex res' "body" = some (Value.str body) ∧
        ∀ k, k ≠ "bodyjson" → mapIndex res' k = mapIndex res k) ∧
    ((∀ res body, assertMap (mapIndex ret "res") = some res →
      assertString (mapIndex res "body") = some body → X.isJSON body = false) →
      postProcess X ret = ret) := by
  refine ⟨?_, ?_, ?_⟩
  · intro k hk
    unfold postProcess
    cases assertMap (mapIndex ret "res") with
    | none => rfl
    | some res => exact mapIndex_mapAssign_ne _ _ _ _ hk
  · intro res body hres hbody hjson
    refine ⟨parseBody X res, ?_, (parseBody_spec X res).1 body hbody hjson⟩
    simp only [postProcess, hres]
    exact mapIndex_mapAssign_self _ _ _
  · intro h
    unfold postProcess
    cases hr : assertMap (mapIndex ret "res") with
    | none => rfl
    | some res =>
      simp only []
      rw [(parseBody_spec X res).2 (fun body hb => h res body hr hb)]
      exact mapAssign_of_mapIndex _ _ _ (assertMap_eq_some hr)

/-- C3: for every call of `RunActions` that `Job.Start` makes and that succeeds with
result `ret`, the log holds an entry that agrees with `ret` on every key but `res`;
when `ret["res"]` is a map whose `body` is a string that is JSON, the logged
response holds the parsed value under `bodyjson`, the raw string under `body`, and
agrees with the response on every other key; in every other case the entry is `ret`
itself, without any key added. -/
theorem Job_Start_bodyjson {σ : Type} (X : Externals σ) (j : Job) (ctx : JobContext)
    (world : σ) (heap : Heap) (c : Call) (ret : GoMap) (wf : ctx.Logs.WF heap)
    (hc : c ∈ (Job.Start X j ctx world heap).calls) (hret : c.result = Except.ok ret) :
    ∃ logged : GoMap, logged ∈ (Job.Start X j ctx world heap).log ∧
      (∀ k, k ≠ "res" → mapIndex logged k = mapIndex ret k) ∧
      (∀ res body, assertMap (mapIndex ret "res") = some res →
        assertString (mapIndex res "body") = some body → X.isJSON body = true →
        ∃ res', mapIndex logged "res" = some (Value.map res') ∧
          mapIndex res' "bodyjson" = some (X.mustMarshalJSON body) ∧
          mapIndex res' "body" = some (Value.str body) ∧
          ∀ k, k ≠ "bodyjson" → mapIndex res' k = mapIndex res k) ∧
      ((∀ res body, assertMap (mapIndex ret "res") = some res →
        assertString (mapIndex res "body") = some body → X.isJSON body = false) →
        logged = ret) := by
  obtain ⟨cs, hcs, _, _, hlog, _⟩ :=
    Job.loop_spec X j.Steps 0 ⟨world, heap, ctx, [], []⟩ wf
  simp only [List.nil_append] at hcs
  unfold Job.Start at hc ⊢
  rw [hcs] at hc
  have hlg : Call.logged X c = some (postProcess X ret) := by
    simp [Call.logged, hret]
  refine ⟨postProcess X ret, ?_, postProcess_spec X ret⟩
  rw [hlog]
  exact List.mem_append_right _ (List.mem_filterMap.mpr ⟨c, hc, hlg⟩)

theorem exampleCall_mem :
    exampleCall ∈ (Job.Start (exampleExternals 1) exampleJob exampleCtx 0 []).calls := by
  rw [show (Job.Start (exampleExternals 1) exampleJob exampleCtx 0 []).calls
    = exampleCall :: ((Job.Start (exampleExternals 1) exampleJob exampleCtx 0 []).calls).tail
    from rfl]
  exact List.mem_cons_self _ _

theorem Job_Start_bodyjson_witness :
    exampleCtx.Logs.WF [] ∧
      exampleCall ∈ (Job.Start (exampleExternals 1) exampleJob exampleCtx 0 []).calls ∧
      exampleCall.result = Except.ok exampleRet ∧
      (Job.Start (exampleExternals 1) exampleJob exampleCtx 0 []).log
        = [[("req", Value.map [("uses", Value.str "hello")]),
            ("res", Value.map [("body", Value.str "\x7b\"a\":1\x7d"),
                               ("bodyjson", Value.map [("a", Value.num 1)])])],
           [("req", Value.map [("uses", Value.str "smtp")]),
            ("res", Value.map [("body", Value.str "plain")])]] ∧
      ∃ logged res' : GoMap,
        logged ∈ (Job.Start (exampleExternals 1) exampleJob exampleCtx 0 []).log ∧
        mapIndex logged "res" = some (Value.map res') ∧
        mapIndex res' "bodyjson" = some (Value.map [("a", Value.num 1)]) ∧
        mapIndex res' "body" = some (Value.str "\x7b\"a\":1\x7d") := by
  obtain ⟨logged, hmem, _, hjson, _⟩ :=
    Job_Start_bodyjson (exampleExternals 1) exampleJob exampleCtx 0 [] exampleCall exampleRet
      (exampleCtx_WF []) exampleCall_mem rfl
  obtain ⟨res', h1, h2, h3, _⟩ :=
    hjson [("body", Value.str "\x7b\"a\":1\x7d")] "\x7b\"a\":1\x7d" rfl rfl rfl
  exact ⟨exampleCtx_WF [], exampleCall_mem, rfl, rfl, logged, res', hmem, h1, h2, h3⟩

/-! ## The statements of the main goroutine -/

theorem countGos_append (a b : List MainOp) : countGos (a ++ b) = countGos a + countGos b := by
  induction a with
  | nil => simp [countGos]
  | cons op a ih =>
    cases op <;> simp [countGos, ih]
    omega

theorem countAdds_append (a b : List MainOp) :
    countAdds (a ++ b) = countAdds a + countAdds b := by
  induction a with
  | nil => simp [countAdds]
  | cons op a ih =>
    cases op <;> simp [countAdds, ih]
    omega

theorem countGosOf_append (i : Nat) (a b : List MainOp) :
    countGosOf i (a ++ b) = countGosOf i a + countGosOf i b := by
  induction a with
  | nil => simp [countGosOf]
  | cons op a ih =>
    cases op <;> simp [countGosOf, ih]
    omega

theorem repeatLoop_counts (idx : Nat) (job : Job) (r : Repeat) (n i : Nat) :
    countGos (Workflow.repeatLoop idx job r n) = n ∧
      countAdds (Workflow.repeatLoop idx job r n) = n ∧
      countGosOf i (Workflow.repeatLoop idx job r n) = if idx = i then n else 0 := by
  induction n with
  | zero => simp [Workflow.repeatLoop, countGos, countAdds, countGosOf]
  | succ n ih =>
    obtain ⟨h1, h2, h3⟩ := ih
    simp only [Workflow.repeatLoop, countGos, countAdds, countGosOf, h1, h2, h3]
    refine ⟨trivial, trivial, ?_⟩
    split <;> omega

theorem jobOps_counts (idx : Nat) (job : Job) (i : Nat) :
    countGos (Workflow.jobOps idx job) = job.launches ∧
      countAdds (Workflow.jobOps idx job) = job.launches ∧
      countGosOf i (Workflow.jobOps idx job) = if idx = i then job.launches else 0 := by
  unfold Workflow.jobOps Job.launches
  cases job.Repeat with
  | none => simp [countGos, countAdds, countGosOf]
  | some r => exact repeatLoop_counts idx job r _ i

theorem rangeJobs_counts (jobs : List Job) (idx : Nat) :
    countGos (Workflow.rangeJobs idx jobs) = (jobs.map Job.launches).sum ∧
      countAdds (Workflow.rangeJobs idx jobs) = (jobs.map Job.launches).sum := by
  induction jobs generalizing idx with
  | nil => simp [Workflow.rangeJobs, countGos, countAdds]
  | cons job jobs ih =>
    obtain ⟨h1, h2⟩ := ih (idx + 1)
    obtain ⟨j1, j2, _⟩ := jobOps_counts idx job 0
    simp [Workflow.rangeJobs, countGos_append, countAdds_append, h1, h2, j1, j2]

theorem rangeJobs_countGosOf_lt (jobs : List Job) (idx i : Nat) (h : i < idx) :
    countGosOf i (Workflow.rangeJobs idx jobs) = 0 := by
  induction jobs generalizing idx with
  | nil => simp [Workflow.rangeJobs, countGosOf]
  | cons job jobs ih =>
    have hne : ¬ idx = i := by omega
    simp [Workflow.rangeJobs, countGosOf_append, (jobOps_counts idx job i).2.2, hne,
      ih (idx + 1) (by omega)]

theorem rangeJobs_countGosOf (jobs : List Job) (idx i : Nat) (job : Job)
    (h : jobs[i]? = some job) :
    countGosOf (idx + i) (Workflow.rangeJobs idx jobs) = job.launches := by
  induction jobs generalizing idx i with
  | nil => simp at h
  | cons job' jobs ih =>
    cases i with
    | zero =>
      simp at h
      subst h
      simp [Workflow.rangeJobs, countGosOf_append, (jobOps_counts idx job' idx).2.2,
        rangeJobs_countGosOf_lt jobs (idx + 1) idx (by omega)]
    | succ i =>
      simp at h
      have hne : ¬ idx = idx + (i + 1) := by omega
      have := ih (idx + 1) i h
      rw [show idx + 1 + i = idx + (i + 1) by omega] at this
      simp [Workflow.rangeJobs, countGosOf_append, (jobOps_counts idx job' _).2.2, hne, this]

theorem mainOps_countGosOf (w : Workflow) (i : Nat) (job : Job) (h : w.Jobs[i]? = some job) :
    countGosOf i (Workflow.mainOps w) = job.launches := by
  have := rangeJobs_countGosOf w.Jobs 0 i job h
  simp only [Nat.zero_add] at this
  simp [Workflow.mainOps, countGosOf_append, this, countGosOf]

/-! ## Slices that do not share a backing array -/

theorem Slice.Apart.symm {s t : Slice} (h : s.Apart t) : t.Apart s :=
  fun ht hs e => h hs ht e.symm

theorem readSlice_of_cap_zero (h : Heap) (t : Slice) (wf : t.WF h) (hc : ¬ 0 < t.cap) :
    readSlice h t = [] := by
  have : t.len = 0 := by have := wf.1; omega
  simp [readSlice, this]

theorem goAppend_frame (g : Nat → Nat) (h : Heap) (s : Slice) (v : GoMap) (t : Slice)
    (wft : t.WF h) (ap : s.Apart t) :
    t.WF (goAppend g h s v).1 ∧ readSlice (goAppend g h s v).1 t = readSlice h t ∧
      (goAppend g h s v).2.Apart t := by
  by_cases hc : 0 < t.cap
  · obtain ⟨harr, hsz⟩ := wft.2 hc
    unfold goAppend
    by_cases hlt : s.len < s.cap
    · have hne : s.arr ≠ t.arr := ap (by omega) hc
      simp only [hlt, if_true]
      refine ⟨⟨wft.1, fun _ => ⟨by simpa using harr, ?_⟩⟩, ?_, fun _ _ => hne⟩
      · rw [getD_set_ne _ _ _ _ hne]; exact hsz
      · unfold readSlice; rw [getD_set_ne _ _ _ _ hne]
    · simp only [hlt, if_false]
      have hlen : t.arr < (h ++ [readSlice h s ++ v ::
          List.replicate (max (g s.cap) (s.len + 1) - (s.len + 1)) []]).length := by
        rw [List.length_append]; omega
      refine ⟨⟨wft.1, fun _ => ⟨hlen, ?_⟩⟩, ?_, fun _ _ => Nat.ne_of_gt harr⟩
      · rw [getD_append_lt _ _ _ harr]; exact hsz
      · unfold readSlice; rw [getD_append_lt _ _ _ harr]
  · have wft' : t.WF (goAppend g h s v).1 := ⟨wft.1, fun h' => absurd h' hc⟩
    refine ⟨wft', ?_, fun _ h' => absurd h' hc⟩
    rw [readSlice_of_cap_zero _ t wft' hc, readSlice_of_cap_zero _ t wft hc]

theorem Job.iter_frame {σ : Type} (X : Externals σ) (i : Nat) (st : Step) (s : JobState σ)
    (t : Slice) (wft : t.WF s.heap)
    (ap : s.ctx.Logs.Apart t) :
    t.WF (Job.iter X i st s).heap ∧
      readSlice (Job.iter X i st s).heap t = readSlice s.heap t ∧
      (Job.iter X i st s).ctx.Logs.Apart t := by
  unfold Job.iter
  simp only []
  rcases X.RunActions st.Uses []
      (X.EvaluateExprs st.With s.ctx.Envs (readSlice s.heap s.ctx.Logs)) s.world with ⟨r, world⟩
  cases r with
  | error err => exact ⟨wft, rfl, ap⟩
  | ok ret => exact goAppend_frame _ _ _ _ t wft ap

/-! ## Invariants of the executions of `Workflow.Start`: the heap -/

theorem getElem?_append_singleton {α : Type} (l : List α) (x : α) (k : Nat) (r : α)
    (h : (l ++ [x])[k]? = some r) : l[k]? = some r ∨ (k = l.length ∧ r = x) := by
  by_cases hk : k < l.length
  · rw [List.getElem?_append_left hk] at h; exact Or.inl h
  · rw [List.getElem?_append_right (by omega)] at h
    cases hd : k - l.length with
    | zero =>
      rw [hd] at h
      simp at h
      exact Or.inr ⟨by omega, h.symm⟩
    | succ n => rw [hd] at h; simp at h

theorem getElem?_set_cases {α : Type} (l : List α) (k j : Nat) (x r : α)
    (h : (l.set k x)[j]? = some r) : (j = k ∧ r = x) ∨ (j ≠ k ∧ l[j]? = some r) := by
  by_cases hjk : k = j
  · subst hjk
    rw [List.getElem?_set] at h
    simp at h
    exact Or.inl ⟨rfl, h.2.symm⟩
  · rw [List.getElem?_set_ne hjk] at h
    exact Or.inr ⟨fun e => hjk e.symm, h⟩

/-- The three ways a step of the goroutine `k` can go. -/
theorem Sys.stepRun_cases {σ : Type} (X : Externals σ) (k : Nat) (s : Sys σ) :
    Sys.stepRun X k s = s ∨
    (∃ r : Run, s.runs[k]? = some r ∧ r.finished = false ∧ r.job.Steps[r.pc]? = none ∧
      Sys.stepRun X k s = { s with wg := s.wg - 1, runs := s.runs.set k r.done }) ∨
    (∃ (r : Run) (st : Step), s.runs[k]? = some r ∧ r.finished = false ∧
      r.job.Steps[r.pc]? = some st ∧
      Sys.stepRun X k s =
        { s with
          world := (Job.iter X r.pc st (r.jobState s.world s.heap)).world
          heap := (Job.iter X r.pc st (r.jobState s.world s.heap)).heap
          runs := s.runs.set k (r.iterated (Job.iter X r.pc st (r.jobState s.world s.heap))) }) := by
  unfold Sys.stepRun
  cases hr : s.runs[k]? with
  | none => exact Or.inl rfl
  | some r =>
    cases hfin : r.finished with
    | true => exact Or.inl (by simp [hfin])
    | false =>
      cases hst : r.job.Steps[r.pc]? with
      | none => exact Or.inr (Or.inl ⟨r, rfl, hfin, hst, by simp [hfin, hst]⟩)
      | some st => exact Or.inr (Or.inr ⟨r, st, rfl, hfin, hst, by simp [hfin, hst]⟩)

/-- The five ways a step of the main goroutine can go. -/
theorem Sys.stepMain_cases {σ : Type} (s : Sys σ) :
    Sys.stepMain s = s ∨
    (∃ ops, s.ops = MainOp.add :: ops ∧ Sys.stepMain s = { s with ops := ops, wg := s.wg + 1 }) ∨
    (∃ idx job ops, s.ops = MainOp.go idx job :: ops ∧
      Sys.stepMain s = { s with ops := ops, runs := s.runs ++ [Run.start idx job s.ctx] }) ∨
    (∃ d ops, s.ops = MainOp.sleep d :: ops ∧
      Sys.stepMain s = { s with ops := ops, slept := s.slept + max d 0 }) ∨
    (∃ ops, s.ops = MainOp.wait :: ops ∧ s.wg = 0 ∧
      Sys.stepMain s = { s with ops := ops, returned := true }) := by
  unfold Sys.stepMain
  split
  · exact Or.inl rfl
  · next ops h => exact Or.inr (Or.inl ⟨ops, h, rfl⟩)
  · next idx job ops h => exact Or.inr (Or.inr (Or.inl ⟨idx, job, ops, h, rfl⟩))
  · next d ops h => exact Or.inr (Or.inr (Or.inr (Or.inl ⟨d, ops, h, rfl⟩)))
  · next ops h =>
    by_cases hw : s.wg = 0
    · exact Or.inr (Or.inr (Or.inr (Or.inr ⟨ops, h, hw, by simp [hw]⟩)))
    · exact Or.inl (by simp [hw])

theorem HeapInv.heap_stepMain {σ : Type} (X : Externals σ) (s : Sys σ) (inv : HeapInv X s) :
    HeapInv X (Sys.stepMain s) := by
  rcases Sys.stepMain_cases s with h | ⟨ops, _, h⟩ | ⟨idx, job, ops, _, h⟩ | ⟨d, ops, _, h⟩ |
    ⟨ops, _, _, h⟩ <;> rw [h]
  · exact inv
  · exact ⟨inv.wf, inv.log, inv.apart, inv.main⟩
  · have hnew : ∀ (k : Nat) (r : Run),
        (s.runs ++ [Run.start idx job s.ctx])[k]? = some r →
        s.runs[k]? = some r ∨ (r.ctx.Logs.cap = 0 ∧ r.ctx.Logs.len = 0 ∧ r.calls = []) := by
      intro k r h
      rcases getElem?_append_singleton _ _ _ _ h with h | ⟨_, h⟩
      · exact Or.inl h
      · subst h; simp [Run.start, inv.main]
    refine ⟨?_, ?_, ?_, inv.main⟩
    · intro k r h
      rcases hnew k r h with h | ⟨hc, hl, _⟩
      · exact inv.wf k r h
      · exact ⟨by omega, fun h' => by omega⟩
    · intro k r h
      rcases hnew k r h with h | ⟨hc, hl, hcs⟩
      · exact inv.log k r h
      · simp [readSlice, hl, hcs]
    · intro k k' r r' hne h h'
      rcases hnew k r h with h | ⟨hc, _⟩
      · rcases hnew k' r' h' with h' | ⟨hc', _⟩
        · exact inv.apart k k' r r' hne h h'
        · exact fun _ hp => by omega
      · exact fun hp _ => by omega
  · exact ⟨inv.wf, inv.log, inv.apart, inv.main⟩
  · exact ⟨inv.wf, inv.log, inv.apart, inv.main⟩

theorem HeapInv.heap_stepRun {σ : Type} (X : Externals σ) (k : Nat) (s : Sys σ)
    (inv : HeapInv X s) : HeapInv X (Sys.stepRun X k s) := by
  rcases Sys.stepRun_cases X k s with h | ⟨r, hr, _, _, h⟩ | ⟨r, st, hr, _, _, h⟩ <;> rw [h]
  · exact inv
  · have hold : ∀ (j : Nat) (q : Run), (s.runs.set k r.done)[j]? = some q →
        ∃ q', s.runs[j]? = some q' ∧ q.ctx = q'.ctx ∧ q.calls = q'.calls := by
      intro j q h
      rcases getElem?_set_cases _ _ _ _ _ h with ⟨hj, hq⟩ | ⟨_, h⟩
      · subst hj; subst hq; exact ⟨r, hr, rfl, rfl⟩
      · exact ⟨q, h, rfl, rfl⟩
    refine ⟨?_, ?_, ?_, inv.main⟩
    · intro j q h
      obtain ⟨q', h', hc, _⟩ := hold j q h
      rw [hc]; exact inv.wf j q' h'
    · intro j q h
      obtain ⟨q', h', hc, hcs⟩ := hold j q h
      rw [hc, hcs]; exact inv.log j q' h'
    · intro j j' q q' hne h h'
      obtain ⟨p, hp, hc, _⟩ := hold j q h
      obtain ⟨p', hp', hc', _⟩ := hold j' q' h'
      rw [hc, hc']; exact inv.apart j j' p p' hne hp hp'
  · have wfr : (r.jobState s.world s.heap).ctx.Logs.WF (r.jobState s.world s.heap).heap :=
      inv.wf k r hr
    obtain ⟨c, hcalls, _, _, _, hlog, hwf', _⟩ :=
      Job.iter_spec X r.pc st (r.jobState s.world s.heap) wfr
    generalize hjs : Job.iter X r.pc st (r.jobState s.world s.heap) = js at *
    have hother : ∀ (j : Nat) (q : Run), j ≠ k → s.runs[j]? = some q →
        q.ctx.Logs.WF js.heap ∧ readSlice js.heap q.ctx.Logs = readSlice s.heap q.ctx.Logs ∧
        js.ctx.Logs.Apart q.ctx.Logs := by
      intro j q hj hq
      rw [← hjs]
      exact Job.iter_frame X r.pc st (r.jobState s.world s.heap) q.ctx.Logs
        (inv.wf j q hq) (inv.apart k j r q (fun e => hj e.symm) hr hq)
    have hself : readSlice js.heap js.ctx.Logs = js.calls.filterMap (Call.logged X) := by
      simp only [JobState.log, Run.jobState] at hlog hcalls
      simp only [hlog, hcalls, List.filterMap_append, inv.log k r hr]
      cases hlc : Call.logged X c <;> simp [hlc]
    refine ⟨?_, ?_, ?_, inv.main⟩
    · intro j q h
      rcases getElem?_set_cases _ _ _ _ _ h with ⟨hj, hq⟩ | ⟨hj, h⟩
      · subst hq; exact hwf'
      · exact (hother j q hj h).1
    · intro j q h
      rcases getElem?_set_cases _ _ _ _ _ h with ⟨hj, hq⟩ | ⟨hj, h⟩
      · subst hq; exact hself
      · exact ((hother j q hj h).2.1).trans (inv.log j q h)
    · intro j j' q q' hne h h'
      rcases getElem?_set_cases _ _ _ _ _ h with ⟨hj, hq⟩ | ⟨hj, h⟩
      · rcases getElem?_set_cases _ _ _ _ _ h' with ⟨hj', hq'⟩ | ⟨hj', h'⟩
        · exact absurd (hj.trans hj'.symm) hne
        · subst hq; exact (hother j' q' hj' h').2.2
      · rcases getElem?_set_cases _ _ _ _ _ h' with ⟨hj', hq'⟩ | ⟨hj', h'⟩
        · subst hq'; exact (hother j q hj h).2.2.symm
        · exact inv.apart j j' q q' hne h h'

/-! ## Invariants of the executions of `Workflow.Start`: the schedule -/

theorem countP_set {α : Type} (p : α → Bool) (l : List α) (k : Nat) (old x : α)
    (h : l[k]? = some old) :
    (l.set k x).countP p + (if p old then 1 else 0) = l.countP p + (if p x then 1 else 0) := by
  induction l generalizing k with
  | nil => simp at h
  | cons a l ih =>
    cases k with
    | zero =>
      simp at h
      subst h
      simp only [List.set_cons_zero, List.countP_cons]
      omega
    | succ k =>
      simp at h
      have := ih k h
      simp only [List.set_cons_succ, List.countP_cons]
      omega

theorem countWaits_rangeJobs (jobs : List Job) (idx : Nat) :
    countWaits (Workflow.rangeJobs idx jobs) = 0 := by
  have hrep : ∀ (idx : Nat) (job : Job) (r : Repeat) (n : Nat),
      countWaits (Workflow.repeatLoop idx job r n) = 0 := by
    intro idx job r n
    induction n with
    | zero => rfl
    | succ n ih => simpa [Workflow.repeatLoop, countWaits] using ih
  have happ : ∀ a b : List MainOp, countWaits (a ++ b) = countWaits a + countWaits b := by
    intro a b
    induction a with
    | nil => simp [countWaits]
    | cons op a ih =>
      cases op <;> simp [countWaits, ih]
      omega
  induction jobs generalizing idx with
  | nil => rfl
  | cons job jobs ih =>
    simp only [Workflow.rangeJobs, happ, ih, Nat.add_zero]
    unfold Workflow.jobOps
    cases job.Repeat with
    | none => rfl
    | some r => exact hrep _ _ _ _

theorem SchedInv.sched_init {σ : Type} (X : Externals σ) (w : Workflow) (world : σ) (heap : Heap) :
    SchedInv w (Workflow.init X w world heap) := by
  refine ⟨fun i => by simp [Workflow.init], by simp [Workflow.init], ?_,
    Or.inr ⟨_, rfl, countWaits_rangeJobs _ _⟩, fun h => by simp [Workflow.init] at h⟩
  obtain ⟨h1, h2⟩ := rangeJobs_counts w.Jobs 0
  simp [Workflow.init, Workflow.mainOps, countAdds_append, countGos_append, h1, h2, countAdds,
    countGos]

theorem SchedInv.sched_stepMain {σ : Type} (w : Workflow) (s : Sys σ) (inv : SchedInv w s) :
    SchedInv w (Sys.stepMain s) := by
  have htail : ∀ op ops, s.ops = op :: ops →
      (op = MainOp.wait ∧ ops = []) ∨
      (countWaits [op] = 0 ∧ ∃ pre, ops = pre ++ [MainOp.wait] ∧ countWaits pre = 0) := by
    intro op ops h
    rcases inv.tail with h' | ⟨pre, h', hw⟩
    · rw [h'] at h; cases h
    · rw [h'] at h
      cases pre with
      | nil => simp at h; exact Or.inl ⟨h.1.symm, h.2⟩
      | cons p pre =>
        simp at h
        obtain ⟨hp, hpre⟩ := h
        subst hp
        refine Or.inr ⟨?_, pre, hpre.symm, ?_⟩
        · cases p <;> simp [countWaits] at hw ⊢
        · cases p <;> simp [countWaits] at hw ⊢ <;> exact hw
  have hret : s.returned = true → s.ops = [] := fun h => (inv.returned h).1
  rcases Sys.stepMain_cases s with h | ⟨ops, ho, h⟩ | ⟨idx, job, ops, ho, h⟩ | ⟨d, ops, ho, h⟩ |
    ⟨ops, ho, hwg, h⟩ <;> rw [h]
  · exact inv
  · have hg := inv.gos
    have ht := inv.total
    have hw := inv.wg
    simp only [ho, countGosOf, countGos, countAdds] at hg ht hw
    refine ⟨hg, ht, ?_, ?_, ?_⟩
    · simp only []; push_cast at hw ⊢; omega
    · rcases htail _ _ ho with ⟨h1, _⟩ | ⟨_, h2⟩
      · cases h1
      · exact Or.inr h2
    · intro hr; rw [hret hr] at ho; cases ho
  · have hg := inv.gos
    have ht := inv.total
    have hw := inv.wg
    simp only [ho, countGosOf, countGos, countAdds] at hg ht hw
    refine ⟨?_, ?_, ?_, ?_, ?_⟩
    · intro i
      have := hg i
      simp only [List.countP_append, List.countP_cons, List.countP_nil, Run.start]
      by_cases hi : idx = i <;> simp [hi] at this ⊢ <;> omega
    · simp only [List.length_append, List.length_singleton]; omega
    · simp only [List.countP_append, List.countP_cons, List.countP_nil, Run.start]
      push_cast at hw ⊢
      simp
      omega
    · rcases htail _ _ ho with ⟨h1, _⟩ | ⟨_, h2⟩
      · cases h1
      · exact Or.inr h2
    · intro hr; rw [hret hr] at ho; cases ho
  · have hg := inv.gos
    have ht := inv.total
    have hw := inv.wg
    simp only [ho, countGosOf, countGos, countAdds] at hg ht hw
    refine ⟨hg, ht, hw, ?_, ?_⟩
    · rcases htail _ _ ho with ⟨h1, _⟩ | ⟨_, h2⟩
      · cases h1
      · exact Or.inr h2
    · intro hr; rw [hret hr] at ho; cases ho
  · have hg := inv.gos
    have ht := inv.total
    have hw := inv.wg
    have hnil : ops = [] := by
      rcases htail _ _ ho with ⟨_, h2⟩ | ⟨h1, _⟩
      · exact h2
      · simp [countWaits] at h1
    subst hnil
    simp only [ho, countGosOf, countGos, countAdds] at hg ht hw
    refine ⟨hg, ht, hw, Or.inl rfl, fun _ => ⟨rfl, ?_⟩⟩
    simp only [hwg, Nat.cast_zero, add_zero, zero_add] at hw
    have hz : s.runs.countP (fun r => !r.finished) = 0 := by exact_mod_cast hw.symm
    intro k r hk
    have hmem : r ∈ s.runs := List.getElem?_mem hk
    have := (List.countP_eq_zero.mp hz) r hmem
    simpa using this

theorem SchedInv.sched_stepRun {σ : Type} (X : Externals σ) (w : Workflow) (k : Nat) (s : Sys σ)
    (inv : SchedInv w s) : SchedInv w (Sys.stepRun X k s) := by
  rcases Sys.stepRun_cases X k s with h | ⟨r, hr, hfin, _, h⟩ | ⟨r, st, hr, hfin, _, h⟩ <;>
    rw [h]
  · exact inv
  · have hnot : s.returned = true → False := by
      intro hret
      have := (inv.returned hret).2 k r hr
      rw [hfin] at this; cases this
    refine ⟨?_, ?_, ?_, inv.tail, fun hret => absurd hret (by simpa using hnot)⟩
    · intro i
      have := countP_set (fun r => decide (r.idx = i)) s.runs k r r.done hr
      have hi := inv.gos i
      simp only [Run.done] at this ⊢
      omega
    · simpa using inv.total
    · have := countP_set (fun r => !r.finished) s.runs k r r.done hr
      have hw := inv.wg
      simp only [Run.done, hfin] at this ⊢
      simp at this
      push_cast at hw ⊢
      omega
  · have hnot : s.returned = true → False := by
      intro hret
      have := (inv.returned hret).2 k r hr
      rw [hfin] at this; cases this
    refine ⟨?_, ?_, ?_, inv.tail, fun hret => absurd hret (by simpa using hnot)⟩
    · intro i
      have := countP_set (fun r => decide (r.idx = i)) s.runs k r
        (r.iterated (Job.iter X r.pc st (r.jobState s.world s.heap))) hr
      have hi := inv.gos i
      simp only [Run.iterated] at this ⊢
      omega
    · simpa using inv.total
    · have := countP_set (fun r => !r.finished) s.runs k r
        (r.iterated (Job.iter X r.pc st (r.jobState s.world s.heap))) hr
      have hw := inv.wg
      simp only [Run.iterated, hfin] at this ⊢
      simp at this
      push_cast at hw ⊢
      omega

/-! ## Invariants of the executions of `Workflow.Start`: the runs -/

theorem mem_repeatLoop (idx : Nat) (job : Job) (r : Repeat) (n i : Nat) (j : Job)
    (h : MainOp.go i j ∈ Workflow.repeatLoop idx job r n) : i = idx ∧ j = job := by
  induction n with
  | zero => simp [Workflow.repeatLoop] at h
  | succ n ih =>
    simp only [Workflow.repeatLoop, List.mem_cons] at h
    rcases h with h | h | h | h
    · cases h
    · cases h; exact ⟨rfl, rfl⟩
    · cases h
    · exact ih h

theorem mem_jobOps (idx : Nat) (job : Job) (i : Nat) (j : Job)
    (h : MainOp.go i j ∈ Workflow.jobOps idx job) : i = idx ∧ j = job := by
  unfold Workflow.jobOps at h
  cases hr : job.Repeat with
  | none =>
    simp only [hr, List.mem_cons] at h
    rcases h with h | h | h
    · cases h
    · cases h; exact ⟨rfl, rfl⟩
    · simp at h
  | some r =>
    simp only [hr] at h
    exact mem_repeatLoop _ _ _ _ _ _ h

theorem mem_rangeJobs (jobs : List Job) (idx i : Nat) (j : Job)
    (h : MainOp.go i j ∈ Workflow.rangeJobs idx jobs) : idx ≤ i ∧ jobs[i - idx]? = some j := by
  induction jobs generalizing idx with
  | nil => simp [Workflow.rangeJobs] at h
  | cons job jobs ih =>
    simp only [Workflow.rangeJobs, List.mem_append] at h
    rcases h with h | h
    · obtain ⟨h1, h2⟩ := mem_jobOps _ _ _ _ h
      subst h1; subst h2
      simp
    · obtain ⟨h1, h2⟩ := ih (idx + 1) h
      refine ⟨by omega, ?_⟩
      rw [show i - idx = (i - (idx + 1)) + 1 by omega]
      simpa using h2

theorem RunInv.runs_init {σ : Type} (X : Externals σ) (w : Workflow) (world : σ) (heap : Heap) :
    RunInv w (Workflow.init X w world heap) := by
  refine ⟨?_, fun k r h => by simp [Workflow.init] at h⟩
  intro idx job h
  simp only [Workflow.init, Workflow.mainOps, List.mem_append, List.mem_singleton] at h
  rcases h with h | h
  · simpa using (mem_rangeJobs _ _ _ _ h).2
  · cases h

theorem RunInv.runs_stepMain {σ : Type} (w : Workflow) (s : Sys σ) (inv : RunInv w s) :
    RunInv w (Sys.stepMain s) := by
  have hops : ∀ op ops, s.ops = op :: ops →
      ∀ (idx : Nat) (job : Job), MainOp.go idx job ∈ ops → w.Jobs[idx]? = some job := by
    intro op ops ho idx job h
    exact inv.ops idx job (by rw [ho]; exact List.mem_cons_of_mem _ h)
  rcases Sys.stepMain_cases s with h | ⟨ops, ho, h⟩ | ⟨idx, job, ops, ho, h⟩ | ⟨d, ops, ho, h⟩ |
    ⟨ops, ho, _, h⟩ <;> rw [h]
  · exact inv
  · exact ⟨hops _ _ ho, inv.runs⟩
  · refine ⟨hops _ _ ho, ?_⟩
    intro k r hk
    rcases getElem?_append_singleton _ _ _ _ hk with hk | ⟨_, hk⟩
    · exact inv.runs k r hk
    · subst hk
      have := inv.ops idx job (by rw [ho]; exact List.mem_cons_self _ _)
      simp [Run.start, this]
  · exact ⟨hops _ _ ho, inv.runs⟩
  · exact ⟨hops _ _ ho, inv.runs⟩

theorem RunInv.runs_stepRun {σ : Type} (X : Externals σ) (w : Workflow) (k : Nat) (s : Sys σ)
    (wf : ∀ (k : Nat) (r : Run), s.runs[k]? = some r → r.ctx.Logs.WF s.heap)
    (inv : RunInv w s) : RunInv w (Sys.stepRun X k s) := by
  rcases Sys.stepRun_cases X k s with h | ⟨r, hr, hfin, hst, h⟩ | ⟨r, st, hr, hfin, hst, h⟩ <;>
    rw [h]
  · exact inv
  · refine ⟨inv.ops, ?_⟩
    intro j q hq
    rcases getElem?_set_cases _ _ _ _ _ hq with ⟨_, hq⟩ | ⟨_, hq⟩
    · subst hq
      obtain ⟨h1, h2, h3, h4, _⟩ := inv.runs k r hr
      refine ⟨h1, h2, h3, h4, fun _ => ?_⟩
      have : r.job.Steps.length ≤ r.pc := by
        simpa using List.getElem?_eq_none_iff.mp hst
      simp only [Run.done]
      omega
    · exact inv.runs j q hq
  · refine ⟨inv.ops, ?_⟩
    intro j q hq
    rcases getElem?_set_cases _ _ _ _ _ hq with ⟨_, hq⟩ | ⟨_, hq⟩
    · subst hq
      obtain ⟨h1, h2, h3, h4, _⟩ := inv.runs k r hr
      obtain ⟨c, hcalls, hi, hu, _, _, _, _⟩ :=
        Job.iter_spec X r.pc st (r.jobState s.world s.heap) (wf k r hr)
      have hlt : r.pc < r.job.Steps.length := by
        by_contra hge
        rw [List.getElem?_eq_none (by omega)] at hst
        cases hst
      simp only [Run.jobState] at hcalls
      simp only [Run.iterated, Run.jobState, hcalls, List.map_append, List.map_cons,
        List.map_nil, h3, h4, hi, hu, hfin, List.range_succ, List.take_succ, hst,
        Option.toList]
      exact ⟨h1, hlt, trivial, trivial, fun hf => by cases hf⟩
    · exact inv.runs j q hq

/-! ## Executions -/

theorem Inv.step {σ : Type} (X : Externals σ) (w : Workflow) (t : Tid) (s : Sys σ)
    (inv : Inv X w s) : Inv X w (Sys.step X t s) := by
  cases t with
  | main => exact ⟨inv.heap.heap_stepMain, inv.sched.sched_stepMain, inv.runs.runs_stepMain⟩
  | run k =>
    exact ⟨inv.heap.heap_stepRun X k s, inv.sched.sched_stepRun X w k s,
      inv.runs.runs_stepRun X w k s inv.heap.wf⟩

theorem Inv.exec {σ : Type} (X : Externals σ) (w : Workflow) (sched : List Tid) (s : Sys σ)
    (inv : Inv X w s) : Inv X w (Sys.exec X sched s) := by
  induction sched generalizing s with
  | nil => exact inv
  | cons t sched ih => exact ih _ (inv.step X w t s)

theorem Inv.start {σ : Type} (X : Externals σ) (w : Workflow) (world : σ) (heap : Heap)
    (sched : List Tid) : Inv X w (Workflow.Start X w world heap sched) := by
  refine Inv.exec X w sched _ ⟨?_, SchedInv.sched_init X w world heap, RunInv.runs_init X w world heap⟩
  exact ⟨fun k r h => by simp [Workflow.init] at h, fun k r h => by simp [Workflow.init] at h,
    fun k k' r r' _ h => by simp [Workflow.init] at h, rfl⟩

theorem Sys.step_ctx {σ : Type} (X : Externals σ) (t : Tid) (s : Sys σ) :
    (Sys.step X t s).ctx = s.ctx := by
  cases t with
  | main =>
    rcases Sys.stepMain_cases s with h | ⟨_, _, h⟩ | ⟨_, _, _, _, h⟩ | ⟨_, _, _, h⟩ |
      ⟨_, _, _, h⟩ <;> simp only [Sys.step] <;> rw [h]
  | run k =>
    rcases Sys.stepRun_cases X k s with h | ⟨_, _, _, _, h⟩ | ⟨_, _, _, _, _, h⟩ <;>
      simp only [Sys.step] <;> rw [h]

theorem Sys.exec_ctx {σ : Type} (X : Externals σ) (sched : List Tid) (s : Sys σ) :
    (Sys.exec X sched s).ctx = s.ctx := by
  induction sched generalizing s with
  | nil => rfl
  | cons t sched ih => exact (ih _).trans (Sys.step_ctx X t s)

theorem totalSleep_repeatLoop (idx : Nat) (job : Job) (r : Repeat) (n : Nat) :
    totalSleep (Workflow.repeatLoop idx job r n) = n * max (secondsDuration r.Interval) 0 := by
  induction n with
  | zero => simp [Workflow.repeatLoop, totalSleep]
  | succ n ih =>
    simp only [Workflow.repeatLoop, totalSleep, ih]
    push_cast
    ring

theorem totalSleep_jobOps (idx : Nat) (job : Job) :
    totalSleep (Workflow.jobOps idx job) = job.sleeps := by
  unfold Workflow.jobOps Job.sleeps
  cases job.Repeat with
  | none => rfl
  | some r => exact totalSleep_repeatLoop _ _ _ _

theorem sleptBefore_append (i : Nat) (a b : List MainOp) (h : countGosOf i a = 0) :
    sleptBefore i (a ++ b) = (sleptBefore i b).map (fun t => totalSleep a + t) := by
  induction a with
  | nil => simp [totalSleep]
  | cons op a ih =>
    cases op with
    | add => simpa [sleptBefore, totalSleep, countGosOf] using ih (by simpa [countGosOf] using h)
    | wait => simpa [sleptBefore, totalSleep, countGosOf] using ih (by simpa [countGosOf] using h)
    | go idx job =>
      simp only [countGosOf] at h
      have hne : ¬ idx = i := by
        intro e; simp [e] at h
      have h' : countGosOf i a = 0 := by omega
      simpa [sleptBefore, totalSleep, hne] using ih h'
    | sleep d =>
      have h' : countGosOf i a = 0 := by simpa [countGosOf] using h
      have e := ih h'
      cases hb : sleptBefore i b <;> rw [hb] at e <;>
        simp [sleptBefore, totalSleep, e, add_assoc]

theorem sleptBefore_jobOps (idx : Nat) (job : Job) (b : List MainOp) (h : 0 < job.launches) :
    sleptBefore idx (Workflow.jobOps idx job ++ b) = some 0 := by
  unfold Workflow.jobOps
  unfold Job.launches at h
  cases hr : job.Repeat with
  | none => simp [sleptBefore]
  | some r =>
    rw [hr] at h
    simp only [] at h ⊢
    cases hn : r.Count.toNat with
    | zero => omega
    | succ n => simp [Workflow.repeatLoop, sleptBefore]

theorem sleptBefore_rangeJobs (jobs : List Job) (idx k : Nat) (job : Job) (tail : List MainOp)
    (hk : jobs[k]? = some job) (hl : 0 < job.launches) :
    sleptBefore (idx + k) (Workflow.rangeJobs idx jobs ++ tail)
      = some ((jobs.take k).map Job.sleeps).sum := by
  induction jobs generalizing idx k with
  | nil => simp at hk
  | cons j0 jobs ih =>
    cases k with
    | zero =>
      simp at hk
      subst hk
      simp only [Workflow.rangeJobs, List.append_assoc, Nat.add_zero]
      rw [sleptBefore_jobOps idx j0 _ hl]
      simp
    | succ k =>
      simp at hk
      have hz : countGosOf (idx + (k + 1)) (Workflow.jobOps idx j0) = 0 := by
        rw [(jobOps_counts idx j0 _).2.2]
        simp
      have := ih (idx + 1) k hk
      rw [show idx + 1 + k = idx + (k + 1) by omega] at this
      simp only [Workflow.rangeJobs, List.append_assoc]
      rw [sleptBefore_append _ _ _ hz, this, totalSleep_jobOps]
      simp

theorem totalSleep_append (a b : List MainOp) :
    totalSleep (a ++ b) = totalSleep a + totalSleep b := by
  induction a with
  | nil => simp [totalSleep]
  | cons op a ih => cases op <;> simp [totalSleep, ih, add_assoc]

theorem SleptInv_step {σ : Type} (X : Externals σ) (w : Workflow) (t : Tid) (s : Sys σ)
    (done : List MainOp) (inv : SleptInv w s done) :
    ∃ done', SleptInv w (Sys.step X t s) done' := by
  obtain ⟨hops, hslept, hruns⟩ := inv
  cases t with
  | main =>
    simp only [Sys.step]
    rcases Sys.stepMain_cases s with h | ⟨ops, ho, h⟩ | ⟨idx, job, ops, ho, h⟩ |
      ⟨d, ops, ho, h⟩ | ⟨ops, ho, _, h⟩ <;> rw [h]
    · exact ⟨done, hops, hslept, hruns⟩
    · exact ⟨done ++ [MainOp.add], by simp [hops, ho],
        by simp [totalSleep_append, totalSleep, hslept],
        by simp [countGos_append, countGos, hruns]⟩
    · exact ⟨done ++ [MainOp.go idx job], by simp [hops, ho],
        by simp [totalSleep_append, totalSleep, hslept],
        by simp [countGos_append, countGos, hruns]⟩
    · exact ⟨done ++ [MainOp.sleep d], by simp [hops, ho],
        by simp [totalSleep_append, totalSleep, hslept],
        by simp [countGos_append, countGos, hruns]⟩
    · exact ⟨done ++ [MainOp.wait], by simp [hops, ho],
        by simp [totalSleep_append, totalSleep, hslept],
        by simp [countGos_append, countGos, hruns]⟩
  | run k =>
    simp only [Sys.step]
    rcases Sys.stepRun_cases X k s with h | ⟨_, _, _, _, h⟩ | ⟨_, _, _, _, _, h⟩ <;> rw [h]
    · exact ⟨done, hops, hslept, hruns⟩
    · exact ⟨done, hops, hslept, by simpa using hruns⟩
    · exact ⟨done, hops, hslept, by simpa using hruns⟩

theorem SleptInv_exec {σ : Type} (X : Externals σ) (w : Workflow) (sched : List Tid)
    (s : Sys σ) (done : List MainOp) (inv : SleptInv w s done) :
    ∃ done', SleptInv w (Sys.exec X sched s) done' := by
  induction sched generalizing s done with
  | nil => exact ⟨done, inv⟩
  | cons t sched ih =>
    obtain ⟨done', inv'⟩ := SleptInv_step X w t s done inv
    exact ih _ done' inv'

/-! ## The launches of `Workflow.Start` -/

/-- C4: for the job at index `i` of any workflow, `Workflow.Start` starts exactly one
run when the job has no `Repeat` and exactly `n` runs when it has a `Repeat` of count
`n` (`0 ≤ n`); the goroutines it starts, and the `wg.Add(1)` it executes, number the
sum of these over `w.Jobs`. In every execution the runs started so far and the
launches still to come add up to these numbers, so that once `Workflow.Start` has
returned exactly that many runs have been started. -/
theorem Workflow_Start_launches {σ : Type} (X : Externals σ) (w : Workflow) (world : σ)
    (heap : Heap) (i : Nat) (job : Job) (hjob : w.Jobs[i]? = some job) :
    (job.Repeat = none → countGosOf i (Workflow.mainOps w) = 1) ∧
    (∀ r : Repeat, job.Repeat = some r → 0 ≤ r.Count →
      (countGosOf i (Workflow.mainOps w) : Int) = r.Count) ∧
    countGos (Workflow.mainOps w) = (w.Jobs.map Job.launches).sum ∧
    countAdds (Workflow.mainOps w) = (w.Jobs.map Job.launches).sum ∧
    ∀ sched : List Tid,
      (Workflow.Start X w world heap sched).runs.countP (fun r => decide (r.idx = i))
          + countGosOf i (Workflow.Start X w world heap sched).ops
        = countGosOf i (Workflow.mainOps w) ∧
      (Workflow.Start X w world heap sched).runs.length
          + countGos (Workflow.Start X w world heap sched).ops
        = countGos (Workflow.mainOps w) ∧
      ((Workflow.Start X w world heap sched).returned = true →
        (Workflow.Start X w world heap sched).runs.countP (fun r => decide (r.idx = i))
          = countGosOf i (Workflow.mainOps w) ∧
        (Workflow.Start X w world heap sched).runs.length = countGos (Workflow.mainOps w)) := by
  have hi := mainOps_countGosOf w i job hjob
  obtain ⟨h1, h2⟩ := rangeJobs_counts w.Jobs 0
  refine ⟨?_, ?_, ?_, ?_, ?_⟩
  · intro hr; rw [hi]; simp [Job.launches, hr]
  · intro r hr h0; rw [hi]; simp [Job.launches, hr, Int.toNat_of_nonneg h0]
  · simp [Workflow.mainOps, countGos_append, h1, countGos]
  · simp [Workflow.mainOps, countAdds_append, h2, countAdds]
  · intro sched
    have inv := (Inv.start X w world heap sched).sched
    refine ⟨inv.gos i, inv.total, fun hret => ?_⟩
    have hops := (inv.returned hret).1
    have hg := inv.gos i
    have ht := inv.total
    rw [hops] at hg ht
    exact ⟨by simpa [countGosOf] using hg, by simpa [countGos] using ht⟩

theorem Workflow_Start_launches_witness :
    exampleWorkflow.Jobs[0]? = some { exampleJob with Repeat := some { Count := 2, Interval := 1 } } ∧
    (0 : Int) ≤ 2 ∧
    (countGosOf 0 (Workflow.mainOps exampleWorkflow) : Int) = 2 ∧
    countGos (Workflow.mainOps exampleWorkflow) = 3 ∧
    (Workflow.Start (exampleExternals 1) exampleWorkflow 0 [] exampleSchedule).returned = true ∧
    (Workflow.Start (exampleExternals 1) exampleWorkflow 0 [] exampleSchedule).runs.length = 3 :=
  have h := Workflow_Start_launches (exampleExternals 1) exampleWorkflow 0 [] 0
    { exampleJob with Repeat := some { Count := 2, Interval := 1 } } rfl
  ⟨rfl, by decide, h.2.1 _ rfl (by decide), h.2.2.1,
    by decide, ((h.2.2.2.2 exampleSchedule).2.2 (by decide)).2⟩

/-- C5 (as stated, refuted): a job whose `Repeat` is present with `count = 0` is not
launched at all. -/
theorem Workflow_Start_zero_count_counterexample :
    zeroCountWorkflow.Jobs.map (fun job => job.Repeat.map Repeat.Count) = [some 0] ∧
    countGosOf 0 (Workflow.mainOps zeroCountWorkflow) = 0 ∧
    countGos (Workflow.mainOps zeroCountWorkflow) = 0 ∧
    (Workflow.Start (exampleExternals 1) zeroCountWorkflow 0 [] [Tid.main]).returned = true ∧
    (Workflow.Start (exampleExternals 1) zeroCountWorkflow 0 [] [Tid.main]).runs.length = 0 := by
  decide

/-- C5 (amended): `Workflow.Start` starts exactly one run of a job that has no
`Repeat`, and no run of a job whose `Repeat` is present with `count = 0`. -/
theorem Workflow_Start_zero_count (w : Workflow) (i : Nat) (job : Job)
    (hjob : w.Jobs[i]? = some job) :
    (job.Repeat = none → countGosOf i (Workflow.mainOps w) = 1) ∧
    (∀ r : Repeat, job.Repeat = some r → r.Count = 0 →
      countGosOf i (Workflow.mainOps w) = 0) := by
  have hi := mainOps_countGosOf w i job hjob
  constructor
  · intro hr; rw [hi]; simp [Job.launches, hr]
  · intro r hr h0; rw [hi]; simp [Job.launches, hr, h0]

theorem Workflow_Start_zero_count_witness :
    zeroCountWorkflow.Jobs[0]?
        = some { exampleJob with Repeat := some { Count := 0, Interval := 5 } } ∧
      countGosOf 0 (Workflow.mainOps zeroCountWorkflow) = 0 :=
  ⟨rfl, (Workflow_Start_zero_count zeroCountWorkflow 0
    { exampleJob with Repeat := some { Count := 0, Interval := 5 } } rfl).2 _ rfl rfl⟩

/-! ## The sleeps of `Workflow.Start` -/

/-- C8 (as stated, refuted): the second job of `exampleWorkflow` is started only
after the main goroutine has slept two seconds for the two launches of the first. -/
theorem Workflow_Start_sleep_counterexample :
    sleptBefore 1 (Workflow.mainOps exampleWorkflow) = some 2000000000 ∧
      sleptBefore 1 (Workflow.mainOps exampleWorkflow) ≠ some 0 ∧
      (Workflow.Start (exampleExternals 1) exampleWorkflow 0 []
        (List.replicate 7 Tid.main)).runs.map Run.idx = [0, 0] ∧
      (Workflow.Start (exampleExternals 1) exampleWorkflow 0 []
        (List.replicate 7 Tid.main)).slept = 2000000000 := by
  decide

/-- C8 (amended): before it starts the first run of the job at index `i`, the main
goroutine has slept, for every job declared before it that has a `Repeat`, `count`
times the duration of `interval` seconds (as long as `Job.sleeps` says); it has not
slept at all when no job declared before it has a `Repeat`. This is so on the
statements of the main goroutine, and in every execution at the moment the main
goroutine is about to start the first run of the job. -/
theorem Workflow_Start_sleep {σ : Type} (X : Externals σ) (w : Workflow) (world : σ)
    (heap : Heap) (i : Nat) (job : Job)
    (hjob : w.Jobs[i]? = some job) (hl : 0 < job.launches) :
    sleptBefore i (Workflow.mainOps w) = some ((w.Jobs.take i).map Job.sleeps).sum ∧
    ((∀ j ∈ w.Jobs.take i, j.Repeat = none) → sleptBefore i (Workflow.mainOps w) = some 0) ∧
    (∀ (j : Job) (r : Repeat), j.Repeat = some r → 0 ≤ r.Count → 0 ≤ r.Interval →
      r.Interval < 600 → j.sleeps = r.Count * (r.Interval * 1000000000)) ∧
    (∀ (sched : List Tid) (job' : Job) (rest : List MainOp),
      (Workflow.Start X w world heap sched).ops = MainOp.go i job' :: rest →
      (Workflow.Start X w world heap sched).runs.countP (fun r => decide (r.idx = i)) = 0 →
      (Workflow.Start X w world heap sched).slept = ((w.Jobs.take i).map Job.sleeps).sum) := by
  have h := sleptBefore_rangeJobs w.Jobs 0 i job [MainOp.wait] hjob hl
  simp only [Nat.zero_add] at h
  refine ⟨h, ?_, ?_, ?_⟩
  · intro hall
    rw [Workflow.mainOps, h]
    congr 1
    apply List.sum_eq_zero
    intro x hx
    obtain ⟨j, hj, rfl⟩ := List.mem_map.mp hx
    simp [Job.sleeps, hall j hj]
  · intro j r hr hc h0 h600
    have hd : secondsDuration r.Interval = r.Interval * 1000000000 := by
      unfold secondsDuration wrap64
      omega
    simp only [Job.sleeps, hr, hd]
    rw [max_eq_left (by omega)]
    have : ((r.Count.toNat : Nat) : Int) = r.Count := Int.toNat_of_nonneg hc
    rw [this]
  · intro sched job' rest hops hnone
    obtain ⟨done, hdone, hslept, _⟩ := SleptInv_exec X w sched (Workflow.init X w world heap) []
      ⟨rfl, rfl, rfl⟩
    have hg := (Inv.start X w world heap sched).sched.gos i
    have hdone' : Workflow.mainOps w
        = done ++ (Workflow.Start X w world heap sched).ops := hdone
    have hslept' : (Workflow.Start X w world heap sched).slept = totalSleep done := hslept
    rw [hnone, hdone', countGosOf_append] at hg
    have hz : countGosOf i done = 0 := by omega
    have h' : sleptBefore i (done ++ (Workflow.Start X w world heap sched).ops)
        = some ((w.Jobs.take i).map Job.sleeps).sum := by
      rw [← hdone']; exact h
    rw [sleptBefore_append i done _ hz, hops] at h'
    simp only [sleptBefore, if_true, Option.map_some', add_zero, Option.some.injEq] at h'
    rw [hslept', h']

theorem Workflow_Start_sleep_witness :
    exampleWorkflow.Jobs[1]? = some { exampleJob with Name := "J2" } ∧
      0 < Job.launches { exampleJob with Name := "J2" } ∧
      sleptBefore 1 (Workflow.mainOps exampleWorkflow)
        = some ((exampleWorkflow.Jobs.take 1).map Job.sleeps).sum :=
  ⟨rfl, by decide,
    (Workflow_Start_sleep (exampleExternals 1) exampleWorkflow 0 [] 1
      { exampleJob with Name := "J2" } rfl (by decide)).1⟩

/-! ## `Workflow.Start` can return -/

theorem sum_map_set {α : Type} (f : α → Nat) (l : List α) (k : Nat) (old x : α)
    (h : l[k]? = some old) :
    ((l.set k x).map f).sum + f old = (l.map f).sum + f x := by
  induction l generalizing k with
  | nil => simp at h
  | cons a l ih =>
    cases k with
    | zero =>
      simp at h
      subst h
      simp only [List.set_cons_zero, List.map_cons, List.sum_cons]
      omega
    | succ k =>
      simp at h
      have := ih k h
      simp only [List.set_cons_succ, List.map_cons, List.sum_cons]
      omega

/-- While `Workflow.Start` has not returned, the main goroutine has a statement to
execute. -/
theorem Sys.step_ops_ne_nil {σ : Type} (X : Externals σ) (w : Workflow) (t : Tid) (s : Sys σ)
    (inv : SchedInv w s) (h : s.ops = [] → s.returned = true) :
    (Sys.step X t s).ops = [] → (Sys.step X t s).returned = true := by
  cases t with
  | main =>
    simp only [Sys.step]
    have hcons : ∀ op ops, s.ops = op :: ops → op ≠ MainOp.wait → ops ≠ [] := by
      intro op ops ho hop he
      rcases inv.tail with h' | ⟨pre, h', _⟩
      · rw [h'] at ho; cases ho
      · rw [h', he] at ho
        cases pre with
        | nil => simp at ho; exact hop ho.symm
        | cons p pre => simp at ho
    rcases Sys.stepMain_cases s with h' | ⟨ops, ho, h'⟩ | ⟨idx, job, ops, ho, h'⟩ |
      ⟨d, ops, ho, h'⟩ | ⟨ops, ho, _, h'⟩ <;> rw [h']
    · exact h
    · exact fun he => absurd he (hcons _ _ ho (by simp))
    · exact fun he => absurd he (hcons _ _ ho (by simp))
    · exact fun he => absurd he (hcons _ _ ho (by simp))
    · exact fun _ => rfl
  | run k =>
    simp only [Sys.step]
    rcases Sys.stepRun_cases X k s with h' | ⟨_, _, _, _, h'⟩ | ⟨_, _, _, _, _, h'⟩ <;> rw [h']
    · exact h
    · exact h
    · exact h

/-- While `Workflow.Start` has not returned, some goroutine can take a step that
brings the return nearer. -/
theorem Sys.progress {σ : Type} (X : Externals σ) (w : Workflow) (s : Sys σ)
    (inv : SchedInv w s) (hops : s.ops = [] → s.returned = true)
    (hret : s.returned = false) :
    ∃ t : Tid, Sys.cost (Sys.step X t s) < Sys.cost s := by
  have hne : s.ops ≠ [] := fun he => by rw [hops he] at hret; cases hret
  by_cases hwait : ∃ ops, s.ops = MainOp.wait :: ops ∧ s.wg ≠ 0
  · obtain ⟨ops, ho, hwg⟩ := hwait
    have hnil : ops = [] := by
      rcases inv.tail with h' | ⟨pre, h', hw⟩
      · exact absurd h' hne
      · rw [h'] at ho
        cases pre with
        | nil => simp at ho; exact ho
        | cons p pre =>
          simp at ho
          rw [ho.1] at hw
          simp [countWaits] at hw
    have hw := inv.wg
    rw [ho, hnil] at hw
    simp only [countAdds, countGos, Nat.cast_zero, add_zero] at hw
    have hpos : 0 < s.runs.countP (fun r => !r.finished) := by
      rcases Nat.eq_zero_or_pos (s.runs.countP (fun r => !r.finished)) with hz | hp
      · rw [hz] at hw; exact absurd (by simpa using hw) hwg
      · exact hp
    obtain ⟨r, hr, hrf⟩ := List.countP_pos_iff.mp hpos
    obtain ⟨k, hk⟩ := List.mem_iff_getElem?.mp hr
    have hfin : r.finished = false := by simpa using hrf
    refine ⟨Tid.run k, ?_⟩
    simp only [Sys.step]
    rcases Sys.stepRun_cases X k s with h' | ⟨q, hq, hqf, hqs, h'⟩ | ⟨q, st, hq, hqf, hqs, h'⟩
    · exfalso
      unfold Sys.stepRun at h'
      rw [hk] at h'
      simp only [hfin] at h'
      cases hst : r.job.Steps[r.pc]? with
      | none =>
        rw [hst] at h'
        have := congrArg Sys.wg h'
        simp at this
      | some st =>
        rw [hst] at h'
        have := congrArg (fun s => s.runs[k]?.map Run.pc) h'
        have hlt : k < s.runs.length := by
          by_contra hge
          rw [List.getElem?_eq_none (by omega)] at hk
          cases hk
        simp [hk, List.getElem?_set, hlt, Run.iterated] at this
    · rw [h']
      have := sum_map_set Run.cost s.runs k q q.done hq
      have hc1 : q.done.cost = 0 := by simp [Run.cost, Run.done]
      have hc2 : 0 < q.cost := by simp [Run.cost, hqf]
      simp only [Sys.cost]
      omega
    · rw [h']
      have := sum_map_set Run.cost s.runs k q
        (q.iterated (Job.iter X q.pc st (q.jobState s.world s.heap))) hq
      have hlt : q.pc < q.job.Steps.length := by
        by_contra hge
        rw [List.getElem?_eq_none (by omega)] at hqs
        cases hqs
      have hc1 : (q.iterated (Job.iter X q.pc st (q.jobState s.world s.heap))).cost
          = q.job.Steps.length - (q.pc + 1) + 1 := by
        simp [Run.cost, Run.iterated, hqf]
      have hc2 : q.cost = q.job.Steps.length - q.pc + 1 := by simp [Run.cost, hqf]
      simp only [Sys.cost]
      omega
  · refine ⟨Tid.main, ?_⟩
    simp only [Sys.step]
    rcases Sys.stepMain_cases s with h' | ⟨ops, ho, h'⟩ | ⟨idx, job, ops, ho, h'⟩ |
      ⟨d, ops, ho, h'⟩ | ⟨ops, ho, _, h'⟩
    · exfalso
      unfold Sys.stepMain at h'
      cases hs : s.ops with
      | nil => exact hne hs
      | cons op ops =>
        rw [hs] at h'
        cases op with
        | add => have := congrArg Sys.ops h'; simp [hs] at this
        | go idx job => have := congrArg Sys.ops h'; simp [hs] at this
        | sleep d => have := congrArg Sys.ops h'; simp [hs] at this
        | wait =>
          by_cases hw : s.wg = 0
          · simp only [hw, if_true] at h'
            have := congrArg Sys.ops h'; simp [hs] at this
          · exact hwait ⟨ops, hs, hw⟩
    · rw [h']; simp [Sys.cost, ho, MainOp.cost]
    · rw [h']
      simp only [Sys.cost, ho, List.map_cons, List.sum_cons, MainOp.cost, List.map_append,
        List.sum_append, List.map_nil, List.sum_nil, Run.cost, Run.start]
      simp
      omega
    · rw [h']; simp [Sys.cost, ho, MainOp.cost]
    · rw [h']; simp [Sys.cost, ho, MainOp.cost]

/-- From every state an execution of `Workflow.Start` reaches, some interleaving
leads to the return of `Workflow.Start`. -/
theorem Sys.can_return {σ : Type} (X : Externals σ) (w : Workflow) (n : Nat) (s : Sys σ)
    (hn : Sys.cost s ≤ n) (inv : SchedInv w s) (hops : s.ops = [] → s.returned = true) :
    ∃ sched : List Tid, (Sys.exec X sched s).returned = true := by
  induction n generalizing s with
  | zero =>
    cases hret : s.returned with
    | true => exact ⟨[], hret⟩
    | false =>
      obtain ⟨t, ht⟩ := Sys.progress X w s inv hops hret
      omega
  | succ n ih =>
    cases hret : s.returned with
    | true => exact ⟨[], hret⟩
    | false =>
      obtain ⟨t, ht⟩ := Sys.progress X w s inv hops hret
      have inv' : SchedInv w (Sys.step X t s) := by
        cases t with
        | main => exact inv.sched_stepMain
        | run k => exact inv.sched_stepRun X w k s
      obtain ⟨sched, hs⟩ := ih (Sys.step X t s) (by omega) inv'
        (Sys.step_ops_ne_nil X w t s inv hops)
      exact ⟨t :: sched, hs⟩

/-! ## Isolation of the runs -/

theorem Sys.step_frame {σ : Type} (X : Externals σ) (s : Sys σ) (inv : HeapInv X s)
    (t : Tid) (k : Nat) (r : Run) (ht : t ≠ Tid.run k) (hr : s.runs[k]? = some r) :
    (Sys.step X t s).runs[k]? = some r ∧
      readSlice (Sys.step X t s).heap r.ctx.Logs = readSlice s.heap r.ctx.Logs := by
  cases t with
  | main =>
    have hk : k < s.runs.length := by
      by_contra hge
      rw [List.getElem?_eq_none (by omega)] at hr
      cases hr
    simp only [Sys.step]
    rcases Sys.stepMain_cases s with h | ⟨_, _, h⟩ | ⟨_, _, _, _, h⟩ | ⟨_, _, _, h⟩ |
      ⟨_, _, _, h⟩ <;> rw [h]
    · exact ⟨hr, rfl⟩
    · exact ⟨hr, rfl⟩
    · exact ⟨by simpa [List.getElem?_append_left hk] using hr, rfl⟩
    · exact ⟨hr, rfl⟩
    · exact ⟨hr, rfl⟩
  | run k' =>
    have hne : k' ≠ k := fun e => ht (by rw [e])
    simp only [Sys.step]
    rcases Sys.stepRun_cases X k' s with h | ⟨q, _, _, _, h⟩ | ⟨q, st, hq, _, _, h⟩ <;> rw [h]
    · exact ⟨hr, rfl⟩
    · exact ⟨by simpa [List.getElem?_set_ne hne] using hr, rfl⟩
    · refine ⟨by simpa [List.getElem?_set_ne hne] using hr, ?_⟩
      exact (Job.iter_frame X q.pc st (q.jobState s.world s.heap) r.ctx.Logs (inv.wf k r hr)
        (inv.apart k' k q r hne hq hr)).2.1

/-- C6: in every execution of `Workflow.Start`, the context built by `createContext`
stays as it was built, with an empty log; the step log of every run holds exactly
the results of the run's own successful dispatches, which are dispatches of the
steps of its own job, after the empty log it was handed; and a step of the main
goroutine or of another run leaves a run and the contents of its log unchanged. -/
theorem Workflow_Start_isolation {σ : Type} (X : Externals σ) (w : Workflow) (world : σ)
    (heap : Heap) (sched : List Tid) :
    ((Workflow.Start X w world heap sched).ctx = Workflow.createContext X w world ∧
      readSlice (Workflow.Start X w world heap sched).heap
        (Workflow.Start X w world heap sched).ctx.Logs = []) ∧
    (∀ (k : Nat) (r : Run), (Workflow.Start X w world heap sched).runs[k]? = some r →
      readSlice (Workflow.Start X w world heap sched).heap r.ctx.Logs
        = r.calls.filterMap (Call.logged X) ∧
      r.calls.map Call.uses = (r.job.Steps.take r.pc).map Step.Uses ∧
      r.calls.map Call.index = List.range r.pc) ∧
    (∀ (t : Tid) (k : Nat) (r : Run), t ≠ Tid.run k →
      (Workflow.Start X w world heap sched).runs[k]? = some r →
      (Sys.step X t (Workflow.Start X w world heap sched)).runs[k]? = some r ∧
      readSlice (Sys.step X t (Workflow.Start X w world heap sched)).heap r.ctx.Logs
        = readSlice (Workflow.Start X w world heap sched).heap r.ctx.Logs) ∧
    (∀ t : Tid, (Sys.step X t (Workflow.Start X w world heap sched)).ctx
      = Workflow.createContext X w world) := by
  have inv := Inv.start X w world heap sched
  have hctx : (Workflow.Start X w world heap sched).ctx = Workflow.createContext X w world :=
    Sys.exec_ctx X sched _
  refine ⟨⟨hctx, ?_⟩, ?_, ?_, ?_⟩
  · rw [inv.heap.main]; simp [readSlice]
  · intro k r hr
    obtain ⟨_, _, h3, h4, _⟩ := inv.runs.runs k r hr
    exact ⟨inv.heap.log k r hr, h4, h3⟩
  · intro t k r ht hr
    exact Sys.step_frame X _ inv.heap t k r ht hr
  · intro t
    rw [Sys.step_ctx, hctx]

theorem Workflow_Start_isolation_witness :
    (Workflow.Start (exampleExternals 1) exampleWorkflow 0 [] exampleSchedule).runs[0]?
        = some exampleRun ∧
      readSlice (Workflow.Start (exampleExternals 1) exampleWorkflow 0 [] exampleSchedule).heap
          exampleRun.ctx.Logs
        = exampleRun.calls.filterMap (Call.logged (exampleExternals 1)) ∧
      readSlice (Workflow.Start (exampleExternals 1) exampleWorkflow 0 [] exampleSchedule).heap
          (Workflow.Start (exampleExternals 1) exampleWorkflow 0 [] exampleSchedule).ctx.Logs
        = [] :=
  ⟨rfl,
    ((Workflow_Start_isolation (exampleExternals 1) exampleWorkflow 0 []
      exampleSchedule).2.1 0 exampleRun rfl).1,
    (Workflow_Start_isolation (exampleExternals 1) exampleWorkflow 0 []
      exampleSchedule).1.2⟩

/-! ## The join of `Workflow.Start` -/

/-- C7: `Workflow.Start` is a blocking join. Some interleaving of its goroutines
leads to its return; and in every execution, once the call has returned, the main
goroutine has executed all its statements, the counter of `wg` is zero, every run
the workflow asks for has been started, and every run started has gone through all
the steps of its job and has finished. -/
theorem Workflow_Start_join {σ : Type} (X : Externals σ) (w : Workflow) (world : σ)
    (heap : Heap) :
    (∃ sched : List Tid, (Workflow.Start X w world heap sched).returned = true) ∧
    ∀ sched : List Tid, (Workflow.Start X w world heap sched).returned = true →
      (Workflow.Start X w world heap sched).ops = [] ∧
      (Workflow.Start X w world heap sched).wg = 0 ∧
      (Workflow.Start X w world heap sched).runs.length = (w.Jobs.map Job.launches).sum ∧
      ∀ (k : Nat) (r : Run), (Workflow.Start X w world heap sched).runs[k]? = some r →
        r.finished = true ∧ r.pc = r.job.Steps.length ∧
        r.calls.length = r.job.Steps.length ∧ w.Jobs[r.idx]? = some r.job := by
  constructor
  · exact Sys.can_return X w _ (Workflow.init X w world heap) (Nat.le_refl _)
      (SchedInv.sched_init X w world heap) (fun h => by simp [Workflow.init, Workflow.mainOps] at h)
  intro sched hret
  have inv := Inv.start X w world heap sched
  obtain ⟨hops, hfin⟩ := inv.sched.returned hret
  have ht := inv.sched.total
  have hw := inv.sched.wg
  have hz : (Workflow.Start X w world heap sched).runs.countP (fun r => !r.finished) = 0 := by
    rw [List.countP_eq_zero]
    intro r hr
    obtain ⟨k, hk⟩ := List.mem_iff_getElem?.mp hr
    simp [hfin k r hk]
  rw [hops] at ht hw
  simp only [countGos, countAdds, hz, Nat.add_zero, Nat.cast_zero, add_zero] at ht hw
  refine ⟨hops, hw, ?_, ?_⟩
  · rw [ht, Workflow.mainOps, countGos_append, (rangeJobs_counts w.Jobs 0).1]
    simp [countGos]
  · intro k r hr
    obtain ⟨h1, _, h3, _, h5⟩ := inv.runs.runs k r hr
    have hf := hfin k r hr
    have hlen : r.calls.length = r.pc := by
      have := congrArg List.length h3
      simpa using this
    exact ⟨hf, h5 hf, by rw [hlen, h5 hf], h1⟩

theorem Workflow_Start_join_witness :
    (Workflow.Start (exampleExternals 1) exampleWorkflow 0 [] exampleSchedule).returned = true ∧
    (Workflow.Start (exampleExternals 1) exampleWorkflow 0 [] exampleSchedule).ops = [] ∧
    (Workflow.Start (exampleExternals 1) exampleWorkflow 0 [] exampleSchedule).wg = 0 ∧
    (Workflow.Start (exampleExternals 1) exampleWorkflow 0 [] exampleSchedule).runs.length = 3 ∧
    (Workflow.Start (exampleExternals 1) exampleWorkflow 0 [] exampleSchedule).runs[0]?
      = some exampleRun ∧
    exampleRun.finished = true ∧ exampleRun.pc = exampleRun.job.Steps.length :=
  have h := (Workflow_Start_join (exampleExternals 1) exampleWorkflow 0 []).2 exampleSchedule
    (by decide)
  ⟨by decide, h.1, h.2.1, h.2.2.1, rfl, (h.2.2.2 0 exampleRun rfl).1,
    (h.2.2.2 0 exampleRun rfl).2.1⟩

/-! ## The date of a mail -/

theorem dateStep_of_not_zero (X : Stdlib) (line : GoString) (date d : Time)
    (hz : date.IsZero = false) (h : dateStep X line date = Except.ok d) : d = date := by
  unfold dateStep at h
  cases hp : HasFlexedPrefix X line (ascii "Date:") with
  | error e => rw [hp] at h; cases h
  | ok b =>
    rw [hp] at h
    simp only [hz, Bool.and_false] at h
    cases h
    rfl

theorem dateFold_of_not_zero (X : Stdlib) (lines : List GoString) (date d : Time)
    (hz : date.IsZero = false) (h : dateFold X lines date = Except.ok d) : d = date := by
  induction lines generalizing date with
  | nil => simp only [dateFold] at h; cases h; rfl
  | cons line rest ih =>
    simp only [dateFold] at h
    cases hs : dateStep X line date with
    | error e => rw [hs] at h; cases h
    | ok date' =>
      rw [hs] at h
      have e := dateStep_of_not_zero X line date date' hz hs
      subst e
      exact ih _ hz h

theorem getDateHeaderLoop_dateFold (X : Stdlib) (lines : List GoString) (date d d' : Time)
    (h : getDateHeaderLoop X lines date = Except.ok d)
    (hf : dateFold X lines date = Except.ok d') : d' = d := by
  induction lines generalizing date with
  | nil =>
    simp only [getDateHeaderLoop] at h
    simp only [dateFold] at hf
    cases h; cases hf; rfl
  | cons line rest ih =>
    simp only [getDateHeaderLoop] at h
    simp only [dateFold] at hf
    cases hs : dateStep X line date with
    | error e => rw [hs] at h; cases h
    | ok date' =>
      rw [hs] at h hf
      simp only [] at h hf
      cases hd : date'.IsZero with
      | true =>
        simp only [hd, Bool.not_true] at h
        exact ih _ h hf
      | false =>
        simp only [hd, Bool.not_false, if_true] at h
        cases h
        exact dateFold_of_not_zero X rest _ _ hd hf

theorem getDateHeader_ok (X : Stdlib) (content : Except String (List GoString)) (d : Time)
    (h : getDateHeader X content = Except.ok d) :
    d.IsZero = false ∧ ∃ lines, content = Except.ok lines ∧
      ∀ d', dateFold X lines Time.zero = Except.ok d' → d' = d := by
  unfold getDateHeader at h
  cases content with
  | error e => cases h
  | ok lines =>
    simp only [] at h
    cases hl : getDateHeaderLoop X lines Time.zero with
    | error e => rw [hl] at h; cases h
    | ok date =>
      rw [hl] at h
      simp only [] at h
      cases hz : date.IsZero with
      | true => simp [hz] at h
      | false =>
        simp only [hz] at h
        cases h
        exact ⟨hz, lines, rfl, fun d' hf => getDateHeaderLoop_dateFold X lines _ _ _ hl hf⟩

/-! ## `ParseMail` -/

theorem receivedStep_row (X : Stdlib) (line : GoString) (sc sc' : Scan)
    (h : receivedStep X line sc = Except.ok sc') : sc'.row = sc.row := by
  unfold receivedStep at h
  split at h
  · cases h
  · cases h; rfl
  · split at h
    · split at h
      · split at h
        · cases h
        · cases h; rfl
      · cases h; rfl
    · cases h; rfl

theorem parseLine_row (X : Stdlib) (line : GoString) (sc sc' : Scan)
    (h : parseLine X line sc = Except.ok sc') :
    dateStep X line sc.row.SentTime = Except.ok sc'.row.SentTime ∧
      sc'.row.FilePath = sc.row.FilePath := by
  unfold parseLine at h
  cases hp : HasFlexedPrefix X line (ascii "Return-Path:") with
  | error e => rw [hp] at h; cases h
  | ok b =>
    rw [hp] at h
    simp only [] at h
    generalize hrow : (if (b && sc.row.ReturnPath == []) = true then
        ({ sc.row with ReturnPath := getReturnPathWithParse line } : Latency) else sc.row)
        = row1 at h
    have hs1 : row1.SentTime = sc.row.SentTime := by
      rw [← hrow]; split <;> rfl
    have hp1 : row1.FilePath = sc.row.FilePath := by
      rw [← hrow]; split <;> rfl
    cases hd : dateStep X line row1.SentTime with
    | error e => rw [hd] at h; cases h
    | ok sent =>
      rw [hd] at h
      simp only [] at h
      have := receivedStep_row X line _ _ h
      rw [this]
      exact ⟨by rw [← hs1]; exact hd, hp1⟩

theorem parseLines_row (X : Stdlib) (lines : List GoString) (sc sc' : Scan)
    (h : parseLines X lines sc = Except.ok sc') :
    dateFold X lines sc.row.SentTime = Except.ok sc'.row.SentTime ∧
      sc'.row.FilePath = sc.row.FilePath := by
  induction lines generalizing sc with
  | nil => simp only [parseLines] at h; cases h; exact ⟨rfl, rfl⟩
  | cons line rest ih =>
    simp only [parseLines] at h
    cases hl : parseLine X line sc with
    | error e => rw [hl] at h; cases h
    | ok sc1 =>
      rw [hl] at h
      obtain ⟨h1, h2⟩ := parseLine_row X line sc sc1 hl
      obtain ⟨h3, h4⟩ := ih sc1 h
      exact ⟨by simp only [dateFold, h1]; exact h3, h4.trans h2⟩

/-- What a successful `ParseMail` has done: it has appended one row, which depends on
the receiver through `EarliestTime` only. -/
theorem ParseMail_ok (X : Stdlib) (l l' : Latencies) (p : GoString)
    (content : Except String (List GoString)) (h : ParseMail X l p content = (l', none)) :
    ∃ row : Latency, l' = { l with Data := l.Data ++ [row] } ∧
      row.ElapsedTimeToSent = row.SentTime.Sub l.EarliestTime ∧ row.FilePath = p ∧
      (∀ d, getDateHeader X content = Except.ok d → row.SentTime = d) ∧
      (∀ l0 : Latencies, l0.EarliestTime = l.EarliestTime →
        ParseMail X l0 p content = ({ l0 with Data := l0.Data ++ [row] }, none)) := by
  unfold ParseMail at h
  cases content with
  | error e => cases h
  | ok lines =>
    simp only [] at h
    cases hs : parseLines X lines
        { row := { ElapsedTimeToSent := 0, ElapsedTimeToReceived := 0, SentTime := Time.zero,
                   LastReceivedTime := Time.zero, EndToEnd := 0,
                   FirstReceivedTime := Time.zero, Relay := 0, ReturnPath := [],
                   FilePath := p },
          receivedTimes := [], receivedLines := [] } with
    | error e => rw [hs] at h; cases h
    | ok sc =>
      rw [hs] at h
      simp only [] at h
      by_cases hc : (sc.row.SentTime.IsZero || sc.receivedTimes.length == 0) = true
      · rw [if_pos hc] at h; cases h
      · rw [if_neg hc] at h
        obtain ⟨hfold, hpath⟩ := parseLines_row X lines _ sc hs
        refine ⟨finishRow l sc, ?_, rfl, hpath, ?_, ?_⟩
        · cases h; rfl
        · intro d hd
          obtain ⟨_, lines', hl', hall⟩ := getDateHeader_ok X _ d hd
          cases hl'
          exact hall _ hfold
        · intro l0 h0
          unfold ParseMail
          simp only [hs, if_neg hc]
          simp [finishRow, h0]

/-! ## The two walks of `Make` -/

theorem Time.Sub_nonneg (t u : Time) (h : u.ns ≤ t.ns) : 0 ≤ t.Sub u := by
  have h63 : (2 : Int) ^ 63 = 9223372036854775808 := by norm_num
  unfold Time.Sub minDuration maxDuration
  rw [h63]
  split
  · omega
  · split
    · show (0 : Int) ≤ 9223372036854775808 - 1
      omega
    · show (0 : Int) ≤ t.ns - u.ns
      omega

theorem Time.Sub_self (t : Time) : t.Sub t = 0 := by
  unfold Time.Sub minDuration maxDuration
  simp

theorem FindEarliest_ok (X : Stdlib) (visits : List Visit) (e t : Time)
    (h : WalkDir (findEarliestFn X) visits e = (t, none)) :
    ∃ dates : List Time,
      List.Forall₂ (fun v d => getDateHeader X v.content = Except.ok d) (mailFiles visits) dates ∧
      (∀ d ∈ dates, t.ns ≤ d.ns) ∧
      (e.IsZero = false → t.ns ≤ e.ns ∧ (t = e ∨ t ∈ dates)) ∧
      (e.IsZero = true → (dates = [] ∧ t = e) ∨ t ∈ dates) := by
  induction visits generalizing e with
  | nil =>
    simp only [WalkDir] at h
    cases h
    exact ⟨[], List.Forall₂.nil, by simp, fun _ => ⟨le_refl _, Or.inl rfl⟩,
      fun _ => Or.inl ⟨rfl, rfl⟩⟩
  | cons v vs ih =>
    simp only [WalkDir] at h
    unfold findEarliestFn at h
    cases herr : v.err with
    | some msg => rw [herr] at h; cases h
    | none =>
      rw [herr] at h
      simp only [] at h
      cases hdir : v.isDir with
      | true =>
        simp only [hdir, if_true] at h
        obtain ⟨dates, hf, hmin, hnz, hz⟩ := ih e h
        exact ⟨dates, by simpa [mailFiles, hdir] using hf, hmin, hnz, hz⟩
      | false =>
        simp only [hdir] at h
        cases hd : getDateHeader X v.content with
        | error err => rw [hd] at h; simp at h
        | ok sent =>
          rw [hd] at h
          simp only [] at h
          have hsz : sent.IsZero = false := (getDateHeader_ok X _ _ hd).1
          have hfile : mailFiles (v :: vs) = v :: mailFiles vs := by
            simp [mailFiles, hdir]
          by_cases hc : (e.IsZero || sent.Before e) = true
          · simp only [hc, if_true] at h
            obtain ⟨dates, hf, hmin, hnz, _⟩ := ih sent h
            obtain ⟨hle, hmem⟩ := hnz hsz
            refine ⟨sent :: dates, by rw [hfile]; exact List.Forall₂.cons hd hf, ?_, ?_, ?_⟩
            · intro d hdm
              rcases List.mem_cons.mp hdm with hdm | hdm
              · rw [hdm]; exact hle
              · exact hmin d hdm
            · intro hez
              have hb : sent.ns < e.ns := by
                simpa [hez, Time.Before] using hc
              refine ⟨by omega, Or.inr ?_⟩
              rcases hmem with hmem | hmem
              · rw [hmem]; exact List.mem_cons_self _ _
              · exact List.mem_cons_of_mem _ hmem
            · intro _
              refine Or.inr ?_
              rcases hmem with hmem | hmem
              · rw [hmem]; exact List.mem_cons_self _ _
              · exact List.mem_cons_of_mem _ hmem
          · simp only [hc] at h
            have hez : e.IsZero = false := by
              cases hz : e.IsZero with
              | true => simp [hz] at hc
              | false => rfl
            have hb : e.ns ≤ sent.ns := by
              have : sent.Before e = false := by
                cases hbb : sent.Before e with
                | true => simp [hbb] at hc
                | false => rfl
              simpa [Time.Before] using this
            obtain ⟨dates, hf, hmin, hnz, _⟩ := ih e h
            obtain ⟨hle, hmem⟩ := hnz hez
            refine ⟨sent :: dates, by rw [hfile]; exact List.Forall₂.cons hd hf, ?_, ?_, ?_⟩
            · intro d hdm
              rcases List.mem_cons.mp hdm with hdm | hdm
              · rw [hdm]; omega
              · exact hmin d hdm
            · intro _
              refine ⟨hle, ?_⟩
              rcases hmem with hmem | hmem
              · exact Or.inl hmem
              · exact Or.inr (List.mem_cons_of_mem _ hmem)
            · intro hz; rw [hz] at hez; cases hez

theorem makeWalk_ok (X : Stdlib) (visits : List Visit) (l l' : Latencies)
    (h : WalkDir (makeFn X) visits l = (l', none)) :
    ∃ rows : List Latency, l' = { l with Data := l.Data ++ rows } ∧
      List.Forall₂ (fun v row =>
        row.ElapsedTimeToSent = row.SentTime.Sub l.EarliestTime ∧ row.FilePath = v.path ∧
        (∀ d, getDateHeader X v.content = Except.ok d → row.SentTime = d) ∧
        (∀ l0 : Latencies, l0.EarliestTime = l.EarliestTime →
          ParseMail X l0 v.path v.content = ({ l0 with Data := l0.Data ++ [row] }, none)))
        (mailFiles visits) rows := by
  induction visits generalizing l with
  | nil =>
    simp only [WalkDir] at h
    cases h
    exact ⟨[], by simp, List.Forall₂.nil⟩
  | cons v vs ih =>
    simp only [WalkDir] at h
    unfold makeFn at h
    cases herr : v.err with
    | some msg => rw [herr] at h; cases h
    | none =>
      rw [herr] at h
      simp only [] at h
      cases hdir : v.isDir with
      | true =>
        simp only [hdir, if_true] at h
        obtain ⟨rows, hl, hf⟩ := ih l h
        exact ⟨rows, hl, by simpa [mailFiles, hdir] using hf⟩
      | false =>
        simp only [hdir] at h
        rcases hp : ParseMail X l v.path v.content with ⟨l1, e⟩
        rw [hp] at h
        cases e with
        | some err => simp at h
        | none =>
          obtain ⟨row, hl1, h1, h2, h3, h4⟩ := ParseMail_ok X l l1 v.path v.content hp
          obtain ⟨rows, hl, hf⟩ := ih l1 h
          have he : l1.EarliestTime = l.EarliestTime := by rw [hl1]
          refine ⟨row :: rows, ?_, ?_⟩
          · rw [hl, hl1]; simp
          · have hfile : mailFiles (v :: vs) = v :: mailFiles vs := by
              simp [mailFiles, hdir]
            rw [hfile]
            refine List.Forall₂.cons ⟨h1, h2, h3, h4⟩ ?_
            rw [he] at hf
            exact hf

/-! ## Examples for `Make` -/

theorem insertSorted_perm (less : Latency → Latency → Bool) (x : Latency) (xs : List Latency) :
    (insertSorted less x xs).Perm (x :: xs) := by
  induction xs with
  | nil => exact List.Perm.refl _
  | cons y ys ih =>
    unfold insertSorted
    split
    · exact List.Perm.refl _
    · exact ((List.Perm.cons y ih).trans (List.Perm.swap x y ys))

theorem exampleSort_sortsByKey : SortsByKey exampleSort := by
  intro key xs
  induction xs with
  | nil => exact ⟨List.Perm.refl _, List.Pairwise.nil⟩
  | cons x xs ih =>
    obtain ⟨hp, hs⟩ := ih
    refine ⟨(insertSorted_perm _ x _).trans (List.Perm.cons x hp), ?_⟩
    show (insertSorted _ x (exampleSort _ xs)).Pairwise _
    generalize exampleSort (fun a b => decide (key a < key b)) xs = ys at hs
    clear hp
    induction ys with
    | nil => simp [insertSorted]
    | cons y ys ihy =>
      rw [List.pairwise_cons] at hs
      unfold insertSorted
      by_cases hlt : key x < key y
      · simp only [hlt, decide_True, if_true]
        refine List.Pairwise.cons ?_ (List.Pairwise.cons hs.1 hs.2)
        intro z hz
        rcases List.mem_cons.mp hz with hz | hz
        · rw [hz]; exact le_of_lt hlt
        · exact le_trans (le_of_lt hlt) (hs.1 z hz)
      · simp only [hlt, decide_False]
        refine List.Pairwise.cons ?_ (ihy hs.2)
        intro z hz
        have hz' := (insertSorted_perm _ x ys).subset hz
        rcases List.mem_cons.mp hz' with hz' | hz'
        · rw [hz']; exact not_lt.mp hlt
        · exact hs.1 z hz'

/-! ## `Make` -/

theorem makeDefaults_ok (X : Stdlib) (l l1 : Latencies) (h : makeDefaults X l = (l1, none)) :
    l1.Data = l.Data := by
  unfold makeDefaults at h
  split at h
  · split at h
    · cases h
    · cases h; rfl
  · cases h; rfl

/-- What a successful `Make` has done. -/
theorem Make_ok (X : Stdlib) (visits : List Visit) (l : Latencies)
    (hok : (Make X visits l).2 = none) :
    ∃ (l1 : Latencies) (t : Time) (rows : List Latency),
      l1.Data = l.Data ∧
      FindEarliestSentTime X visits = (t, none) ∧
      WalkDir (makeFn X) visits { l1 with EarliestTime := t }
        = ({ l1 with EarliestTime := t, Data := l1.Data ++ rows }, none) ∧
      (Make X visits l).1 =
        { l1 with
          EarliestTime := t
          Data := X.sortSlice (fun a b => decide (a.ElapsedTimeToSent < b.ElapsedTimeToSent))
            (l1.Data ++ rows) } := by
  rcases hd : makeDefaults X l with ⟨l1, e1⟩
  rcases hf : FindEarliestSentTime X visits with ⟨t, e2⟩
  rcases hw : WalkDir (makeFn X) visits { l1 with EarliestTime := t } with ⟨l2, e3⟩
  cases e1 with
  | some e => simp [Make, hd] at hok
  | none =>
    cases e2 with
    | some e => simp [Make, hd, hf] at hok
    | none =>
      cases e3 with
      | some e => simp [Make, hd, hf, hw] at hok
      | none =>
        obtain ⟨rows, hl2, _⟩ := makeWalk_ok X visits _ l2 hw
        refine ⟨l1, t, rows, makeDefaults_ok X l l1 hd, rfl, ?_, ?_⟩
        · rw [hw, hl2]
        · simp only [Make, hd, hf, hw]
          rw [hl2]

theorem forall₂_map_eq {α β γ : Type} (P : α → β → Prop) (Q : α → γ → Prop) (f : β → γ)
    (h : ∀ a b c, P a b → Q a c → f b = c) (xs : List α) (bs : List β) (cs : List γ)
    (hp : List.Forall₂ P xs bs) (hq : List.Forall₂ Q xs cs) : bs.map f = cs := by
  induction hp generalizing cs with
  | nil => cases hq; rfl
  | cons hab _ ih =>
    cases hq with
    | cons hac hq' => simp [h _ _ _ hab hac, ih _ hq']

theorem forall₂_mem_right {α β : Type} (P : α → β → Prop) (xs : List α) (bs : List β)
    (hp : List.Forall₂ P xs bs) (b : β) (hb : b ∈ bs) : ∃ a ∈ xs, P a b := by
  induction hp with
  | nil => cases hb
  | cons hab _ ih =>
    rcases List.mem_cons.mp hb with hb | hb
    · subst hb; exact ⟨_, List.mem_cons_self _ _, hab⟩
    · obtain ⟨a, ha, hpa⟩ := ih hb
      exact ⟨a, List.mem_cons_of_mem _ ha, hpa⟩

/-- The rows of a successful `Make` before they are sorted: one row for every file
of the walk, in the order of the walk, each being the row `ParseMail` computes for
the file, with the date `getDateHeader` has read from it; `EarliestTime` is the
earliest of these dates. -/
theorem Make_rows (X : Stdlib) (visits : List Visit) (l : Latencies) (hdata : l.Data = [])
    (hok : (Make X visits l).2 = none) :
    ∃ rows : List Latency,
      (Make X visits l).1.Data
        = X.sortSlice (fun a b => decide (a.ElapsedTimeToSent < b.ElapsedTimeToSent)) rows ∧
      List.Forall₂ (fun v row =>
        ParseMail X { (Make X visits l).1 with Data := [] } v.path v.content
          = ({ (Make X visits l).1 with Data := [row] }, none)) (mailFiles visits) rows ∧
      (∀ row ∈ rows,
        row.ElapsedTimeToSent = row.SentTime.Sub (Make X visits l).1.EarliestTime) ∧
      (∀ row ∈ rows, (Make X visits l).1.EarliestTime.ns ≤ row.SentTime.ns) ∧
      (mailFiles visits ≠ [] → ∃ row ∈ rows, row.SentTime = (Make X visits l).1.EarliestTime) := by
  obtain ⟨l1, t, rows, hl1, hfind, hwalk, hmake⟩ := Make_ok X visits l hok
  obtain ⟨rows', hl2, hrows⟩ := makeWalk_ok X visits _ _ hwalk
  have hrr : rows' = rows := by
    have := congrArg Latencies.Data hl2
    simpa using this.symm
  subst hrr
  obtain ⟨dates, hdates, hmin, _, hz⟩ := FindEarliest_ok X visits Time.zero t hfind
  rw [hl1, hdata] at hmake
  simp only [List.nil_append] at hmake
  have hmap : rows'.map Latency.SentTime = dates :=
    forall₂_map_eq _ _ Latency.SentTime (fun v row d hp hq => hp.2.2.1 d hq) _ _ _ hrows hdates
  refine ⟨rows', by rw [hmake], ?_, ?_, ?_, ?_⟩
  · rw [hmake]
    refine List.Forall₂.imp ?_ hrows
    intro v row h
    have := h.2.2.2 { l1 with EarliestTime := t, Data := [] } rfl
    simpa using this
  · intro row hrow
    rw [hmake]
    obtain ⟨v, _, h⟩ := forall₂_mem_right _ _ _ hrows row hrow
    exact h.1
  · intro row hrow
    rw [hmake]
    exact hmin _ (by rw [← hmap]; exact List.mem_map_of_mem _ hrow)
  · intro hne
    rw [hmake]
    have hdne : dates ≠ [] := by
      intro he
      rw [he] at hdates
      exact hne (List.forall₂_nil_right_iff.mp hdates)
    rcases hz rfl with ⟨he, _⟩ | hmem
    · exact absurd he hdne
    · rw [← hmap] at hmem
      obtain ⟨row, hrow, hr⟩ := List.mem_map.mp hmem
      exact ⟨row, hrow, hr⟩

/-- C9: when `Make` succeeds on a receiver whose `Data` is empty, `sort.Slice` meeting
its contract, `Data` ends up sorted by non-decreasing `ElapsedTimeToSent` and is a
permutation of the rows `ParseMail` produces, one for every entry of the walk of the
maildir that is not a directory, in the order of the walk. -/
theorem Make_sorted_perm (X : Stdlib) (visits : List Visit) (l : Latencies)
    (hsort : SortsByKey X.sortSlice) (hdata : l.Data = [])
    (hok : (Make X visits l).2 = none) :
    (Make X visits l).1.Data.Pairwise
        (fun a b => a.ElapsedTimeToSent ≤ b.ElapsedTimeToSent) ∧
      ∃ rows : List Latency, (Make X visits l).1.Data.Perm rows ∧
        List.Forall₂ (fun v row =>
          ParseMail X { (Make X visits l).1 with Data := [] } v.path v.content
            = ({ (Make X visits l).1 with Data := [row] }, none)) (mailFiles visits) rows := by
  obtain ⟨rows, hd, hrows, _⟩ := Make_rows X visits l hdata hok
  obtain ⟨hperm, hsorted⟩ := hsort Latency.ElapsedTimeToSent rows
  rw [hd]
  exact ⟨hsorted, rows, hperm, hrows⟩

set_option maxRecDepth 100000 in
theorem Make_sorted_perm_witness :
    SortsByKey exampleStdlib.sortSlice ∧ exampleLatencies.Data = [] ∧
      (Make exampleStdlib exampleMaildir exampleLatencies).2 = none ∧
      (Make exampleStdlib exampleMaildir exampleLatencies).1.Data.map Latency.ElapsedTimeToSent
        = [0, 220000000000, 240000000000, 250000000000, 370000000000, 380000000000] ∧
      (Make exampleStdlib exampleMaildir exampleLatencies).1.Data.Pairwise
        (fun a b => a.ElapsedTimeToSent ≤ b.ElapsedTimeToSent) :=
  ⟨exampleSort_sortsByKey, rfl, by decide, by decide,
    (Make_sorted_perm exampleStdlib exampleMaildir exampleLatencies exampleSort_sortsByKey rfl
      (by decide)).1⟩

/-- C10: when `Make` succeeds on a maildir that holds a mail, starting from an empty
`Data`, `EarliestTime` is the least `SentTime` of the rows, the `ElapsedTimeToSent`
of every row is `SentTime.Sub(EarliestTime)` and is not negative, also when the
difference saturates, and the first row of the sorted `Data` has
`ElapsedTimeToSent = 0`. -/
theorem Make_earliest (X : Stdlib) (visits : List Visit) (l : Latencies)
    (hsort : SortsByKey X.sortSlice) (hdata : l.Data = [])
    (hok : (Make X visits l).2 = none) (hne : mailFiles visits ≠ []) :
    (∀ row ∈ (Make X visits l).1.Data,
      (Make X visits l).1.EarliestTime.ns ≤ row.SentTime.ns) ∧
    (∃ row ∈ (Make X visits l).1.Data, row.SentTime = (Make X visits l).1.EarliestTime) ∧
    (∀ row ∈ (Make X visits l).1.Data,
      row.ElapsedTimeToSent = row.SentTime.Sub (Make X visits l).1.EarliestTime ∧
      (0 : Int) ≤ row.ElapsedTimeToSent) ∧
    (Make X visits l).1.Data.head?.map Latency.ElapsedTimeToSent = some (0 : Int) := by
  obtain ⟨rows, hd, _, helapsed, hmin, hex⟩ := Make_rows X visits l hdata hok
  obtain ⟨hperm, hsorted⟩ := hsort Latency.ElapsedTimeToSent rows
  rw [← hd] at hperm hsorted
  have hmem : ∀ row, row ∈ (Make X visits l).1.Data ↔ row ∈ rows := fun row => hperm.mem_iff
  have hnonneg : ∀ row ∈ (Make X visits l).1.Data,
      row.ElapsedTimeToSent = row.SentTime.Sub (Make X visits l).1.EarliestTime ∧
      (0 : Int) ≤ row.ElapsedTimeToSent := by
    intro row hrow
    have h1 := helapsed row ((hmem row).mp hrow)
    refine ⟨h1, ?_⟩
    rw [h1]
    exact Time.Sub_nonneg _ _ (hmin row ((hmem row).mp hrow))
  obtain ⟨r0, hr0, hr0t⟩ := hex hne
  have hzero : r0.ElapsedTimeToSent = (0 : Int) := by
    rw [helapsed r0 hr0, hr0t]
    exact Time.Sub_self _
  refine ⟨fun row hrow => hmin row ((hmem row).mp hrow), ⟨r0, (hmem r0).mpr hr0, hr0t⟩,
    hnonneg, ?_⟩
  have hr0d : r0 ∈ (Make X visits l).1.Data := (hmem r0).mpr hr0
  generalize (Make X visits l).1.Data = data at hsorted hnonneg hr0d
  cases data with
  | nil => cases hr0d
  | cons a rest =>
    simp only [List.head?_cons, Option.map_some', Option.some.injEq]
    have ha := (hnonneg a (List.mem_cons_self _ _)).2
    rcases List.mem_cons.mp hr0d with h | h
    · rw [← h]; exact hzero
    · have hle : (a.ElapsedTimeToSent : Int) ≤ r0.ElapsedTimeToSent :=
        (List.pairwise_cons.mp hsorted).1 r0 h
      rw [hzero] at hle
      exact le_antisymm hle ha

theorem exampleMaildir_files : mailFiles exampleMaildir ≠ [] := by
  intro h
  have := congrArg List.length h
  simp [mailFiles, exampleMaildir, exampleMail] at this

set_option maxRecDepth 100000 in
theorem Make_earliest_witness :
    SortsByKey exampleStdlib.sortSlice ∧ exampleLatencies.Data = [] ∧
      (Make exampleStdlib exampleMaildir exampleLatencies).2 = none ∧
      mailFiles exampleMaildir ≠ [] ∧
      (Make exampleStdlib exampleMaildir exampleLatencies).1.Data.head?.map
        Latency.ElapsedTimeToSent = some (0 : Int) :=
  ⟨exampleSort_sortsByKey, rfl, by decide, exampleMaildir_files,
    (Make_earliest exampleStdlib exampleMaildir exampleLatencies exampleSort_sortsByKey rfl
      (by decide) exampleMaildir_files).2.2.2⟩

/-! ## `HasFlexedPrefix` -/

theorem ToLower_ascii (X : Stdlib) (s : GoString)
    (h : s.all (fun b => decide (b < 0x80)) = true) :
    ToLower X s = s.map (fun b => if 0x41 ≤ b ∧ b ≤ 0x5A then b + 0x20 else b) := by
  unfold ToLower
  rw [if_pos h]

theorem length_ToLower_ascii (X : Stdlib) (s : GoString)
    (h : s.all (fun b => decide (b < 0x80)) = true) : (ToLower X s).length = s.length := by
  rw [ToLower_ascii X s h, List.length_map]

/-- With a prefix of ASCII characters `HasFlexedPrefix` does not panic. -/
theorem HasFlexedPrefix_ascii (X : Stdlib) (s pfx : GoString)
    (h : pfx.all (fun b => decide (b < 0x80)) = true) :
    ∃ b : Bool, HasFlexedPrefix X s pfx = Except.ok b := by
  unfold HasFlexedPrefix
  by_cases hlen : s.length < pfx.length
  · exact ⟨false, by rw [if_pos hlen]⟩
  · rw [if_neg hlen]
    simp only []
    rw [length_ToLower_ascii X pfx h, if_neg hlen]
    exact ⟨_, rfl⟩

/-- With a prefix of ASCII characters `strings.HasPrefix` implies
`HasFlexedPrefix`. -/
theorem HasFlexedPrefix_of_HasPrefix (X : Stdlib) (s pfx : GoString)
    (h : pfx.all (fun b => decide (b < 0x80)) = true) (hp : HasPrefix s pfx = true) :
    HasFlexedPrefix X s pfx = Except.ok true := by
  obtain ⟨t, ht⟩ := List.isPrefixOf_iff_prefix.mp hp
  have hlen : ¬ s.length < pfx.length := by
    rw [← ht, List.length_append]; omega
  have htake : s.take pfx.length = pfx := by
    rw [← ht, List.take_left']
    rfl
  unfold HasFlexedPrefix
  rw [if_neg hlen]
  simp only []
  rw [length_ToLower_ascii X pfx h, if_neg hlen, htake]
  simp

/-- C11 (the code where it fails): when `strings.ToLower` lowers U+023A to U+2C65, as
it does in Go, a string that is its own prefix in the sense of `strings.HasPrefix`
makes `HasFlexedPrefix` panic, and a longer string that has this prefix makes it
return `false`. -/
theorem HasFlexedPrefix_not_HasPrefix (X : Stdlib)
    (hlow : X.mapToLower [0xC8, 0xBA] = [0xE2, 0xB1, 0xA5])
    (hlow' : X.mapToLower [0xC8, 0xBA, 0x62] = [0xE2, 0xB1, 0xA5, 0x62]) :
    HasPrefix [0xC8, 0xBA] [0xC8, 0xBA] = true ∧
    HasFlexedPrefix X [0xC8, 0xBA] [0xC8, 0xBA]
      = Except.error (Fault.panic "slice bounds out of range") ∧
    HasPrefix [0xC8, 0xBA, 0x62] [0xC8, 0xBA] = true ∧
    HasFlexedPrefix X [0xC8, 0xBA, 0x62] [0xC8, 0xBA] = Except.ok false := by
  have h1 : ToLower X [0xC8, 0xBA] = [0xE2, 0xB1, 0xA5] := by
    unfold ToLower
    rw [if_neg (by decide), hlow]
  have h2 : ToLower X [0xC8, 0xBA, 0x62] = [0xE2, 0xB1, 0xA5, 0x62] := by
    unfold ToLower
    rw [if_neg (by decide), hlow']
  refine ⟨by decide, ?_, by decide, ?_⟩
  · unfold HasFlexedPrefix
    rw [if_neg (by decide)]
    simp only [h1]
    rw [if_pos (by decide)]
  · unfold HasFlexedPrefix
    rw [if_neg (by decide)]
    simp only [h1]
    rw [if_neg (by decide)]
    have : List.take [(0xE2 : UInt8), 0xB1, 0xA5].length [(0xC8 : UInt8), 0xBA, 0x62]
        = [0xC8, 0xBA, 0x62] := by decide
    rw [this, h2]
    rfl

theorem HasFlexedPrefix_not_HasPrefix_witness :
    strokeStdlib.mapToLower [0xC8, 0xBA] = [0xE2, 0xB1, 0xA5] ∧
    strokeStdlib.mapToLower [0xC8, 0xBA, 0x62] = [0xE2, 0xB1, 0xA5, 0x62] ∧
    HasPrefix [0xC8, 0xBA] [0xC8, 0xBA] = true ∧
    HasFlexedPrefix strokeStdlib [0xC8, 0xBA] [0xC8, 0xBA]
      = Except.error (Fault.panic "slice bounds out of range") ∧
    HasPrefix [0xC8, 0xBA, 0x62] [0xC8, 0xBA] = true ∧
    HasFlexedPrefix strokeStdlib [0xC8, 0xBA, 0x62] [0xC8, 0xBA] = Except.ok false :=
  ⟨by decide, by decide, HasFlexedPrefix_not_HasPrefix strokeStdlib (by decide) (by decide)⟩

/-! ## Mails whose `Received` headers are on one line -/

theorem ascii_Received : (ascii "Received:").all (fun b => decide (b < 0x80)) = true := by
  decide

theorem ascii_Date : (ascii "Date:").all (fun b => decide (b < 0x80)) = true := by
  decide

theorem ascii_ReturnPath : (ascii "Return-Path:").all (fun b => decide (b < 0x80)) = true := by
  decide

theorem NoLateSemicolon.late_tail (X : Stdlib) (P Q : Prop) (line : GoString)
    (rest : List GoString) (h : NoLateSemicolon X P (line :: rest))
    (hq : Q → P ∨ HasFlexedPrefix X line (ascii "Received:") = Except.ok true) :
    NoLateSemicolon X Q rest := by
  intro pre line' post hrest hseen hblank
  refine h (line :: pre) line' post (by rw [hrest]; rfl) ?_ hblank
  rcases hseen with hQ | ⟨r, hr, hrr⟩
  · rcases hq hQ with hP | hrecv
    · exact Or.inl hP
    · exact Or.inr ⟨line, List.mem_cons_self _ _, hrecv⟩
  · exact Or.inr ⟨r, List.mem_cons_of_mem _ hr, hrr⟩

theorem NoLateSemicolon.head (X : Stdlib) (P : Prop) (line : GoString)
    (rest : List GoString) (h : NoLateSemicolon X P (line :: rest)) (hP : P)
    (hblank : startsBlank line = true) : Contains line 0x3B = false :=
  h [] line rest rfl (Or.inl hP) hblank

/-- A mail without any line that starts with a tab or a space has no such line that
contains `;`. -/
theorem NoLateSemicolon_of_no_blank (X : Stdlib) (P : Prop) (lines : List GoString)
    (h : ∀ line ∈ lines, startsBlank line = false) : NoLateSemicolon X P lines := by
  intro pre line post hl _ hblank
  have hmem : line ∈ lines := by rw [hl]; simp
  rw [h line hmem] at hblank
  cases hblank

theorem DatesValid.dates_tail (X : Stdlib) (line : GoString) (rest : List GoString)
    (h : DatesValid X (line :: rest)) : DatesValid X rest :=
  fun l hl => h l (List.mem_cons_of_mem _ hl)

/-! ### The loop of `ParseMail` -/

theorem receivedStep_times (X : Stdlib) (line : GoString) (rest : List GoString)
    (sc sc' : Scan) (h : receivedStep X line sc = Except.ok sc')
    (ht : sc.receivedTimes = [])
    (hno : NoLateSemicolon X (sc.receivedLines ≠ []) (line :: rest)) :
    sc'.receivedTimes = [] ∧ sc'.row = sc.row ∧
      NoLateSemicolon X (sc'.receivedLines ≠ []) rest := by
  unfold receivedStep at h
  cases hp : HasFlexedPrefix X line (ascii "Received:") with
  | error e => rw [hp] at h; cases h
  | ok b =>
    rw [hp] at h
    cases b with
    | true =>
      simp only [] at h
      cases h
      exact ⟨ht, rfl, hno.late_tail X _ _ line rest (fun _ => Or.inr hp)⟩
    | false =>
      simp only [] at h
      by_cases hc : (decide (0 < sc.receivedLines.length) &&
          (HasPrefix line (ascii "\t") || HasPrefix line (ascii " "))) = true
      · rw [if_pos hc] at h
        have hne : sc.receivedLines ≠ [] := by
          intro he
          rw [he] at hc
          simp at hc
        have hblank : startsBlank line = true := by
          simp only [Bool.and_eq_true] at hc
          exact hc.2
        have hsemi := hno.head X _ line rest hne hblank
        rw [hsemi] at h
        simp only [Bool.false_eq_true, if_false] at h
        cases h
        exact ⟨ht, rfl, hno.late_tail X _ _ line rest (fun _ => Or.inl hne)⟩
      · rw [if_neg hc] at h
        cases h
        exact ⟨ht, rfl, hno.late_tail X _ _ line rest (fun hq => Or.inl hq)⟩

theorem receivedStep_ok (X : Stdlib) (line : GoString) (rest : List GoString) (sc : Scan)
    (hno : NoLateSemicolon X (sc.receivedLines ≠ []) (line :: rest)) :
    ∃ sc', receivedStep X line sc = Except.ok sc' := by
  unfold receivedStep
  obtain ⟨b, hb⟩ := HasFlexedPrefix_ascii X line (ascii "Received:") ascii_Received
  rw [hb]
  cases b with
  | true => exact ⟨_, rfl⟩
  | false =>
    simp only []
    by_cases hc : (decide (0 < sc.receivedLines.length) &&
        (HasPrefix line (ascii "\t") || HasPrefix line (ascii " "))) = true
    · rw [if_pos hc]
      have hne : sc.receivedLines ≠ [] := by
        intro he
        rw [he] at hc
        simp at hc
      have hblank : startsBlank line = true := by
        simp only [Bool.and_eq_true] at hc
        exact hc.2
      rw [hno.head X _ line rest hne hblank]
      exact ⟨_, rfl⟩
    · rw [if_neg hc]
      exact ⟨_, rfl⟩

theorem dateStep_ok (X : Stdlib) (line : GoString) (date : Time)
    (h : HasFlexedPrefix X line (ascii "Date:") = Except.ok true →
      ∃ t, X.Parse (TrimPrefix line (ascii "Date: ")) = Except.ok t) :
    ∃ d, dateStep X line date = Except.ok d := by
  unfold dateStep
  obtain ⟨b, hb⟩ := HasFlexedPrefix_ascii X line (ascii "Date:") ascii_Date
  rw [hb]
  simp only []
  by_cases hc : (b && date.IsZero) = true
  · rw [if_pos hc]
    have hbt : b = true := by
      simp only [Bool.and_eq_true] at hc
      exact hc.1
    obtain ⟨t, ht⟩ := h (by rw [hb, hbt])
    exact ⟨t, by simp [getSentTimeWithParse, ht]⟩
  · rw [if_neg hc]
    exact ⟨_, rfl⟩

theorem parseLine_times (X : Stdlib) (line : GoString) (rest : List GoString)
    (sc sc' : Scan) (h : parseLine X line sc = Except.ok sc')
    (ht : sc.receivedTimes = [])
    (hno : NoLateSemicolon X (sc.receivedLines ≠ []) (line :: rest)) :
    sc'.receivedTimes = [] ∧ NoLateSemicolon X (sc'.receivedLines ≠ []) rest := by
  unfold parseLine at h
  cases hp : HasFlexedPrefix X line (ascii "Return-Path:") with
  | error e => rw [hp] at h; cases h
  | ok b =>
    rw [hp] at h
    simp only [] at h
    split at h
    · cases h
    · next sent _ =>
      obtain ⟨h1, _, h3⟩ := receivedStep_times X line rest _ sc' h ht hno
      exact ⟨h1, h3⟩

theorem parseLine_ok (X : Stdlib) (line : GoString) (rest : List GoString) (sc : Scan)
    (hdate : DatesValid X (line :: rest))
    (hno : NoLateSemicolon X (sc.receivedLines ≠ []) (line :: rest)) :
    ∃ sc', parseLine X line sc = Except.ok sc' := by
  unfold parseLine
  obtain ⟨b, hb⟩ := HasFlexedPrefix_ascii X line (ascii "Return-Path:") ascii_ReturnPath
  rw [hb]
  simp only []
  obtain ⟨d, hd⟩ := dateStep_ok X line
    (if (b && sc.row.ReturnPath == []) = true then
      ({ sc.row with ReturnPath := getReturnPathWithParse line } : Latency)
     else sc.row).SentTime (hdate line (List.mem_cons_self _ _))
  rw [hd]
  exact receivedStep_ok X line rest _ hno

/-- The loop of `ParseMail` records no received time on a mail in which no line that
starts with a tab or a space and comes after a `Received:` line contains `;`. -/
theorem parseLines_times (X : Stdlib) (lines : List GoString) (sc sc' : Scan)
    (h : parseLines X lines sc = Except.ok sc') (ht : sc.receivedTimes = [])
    (hno : NoLateSemicolon X (sc.receivedLines ≠ []) lines) : sc'.receivedTimes = [] := by
  induction lines generalizing sc with
  | nil => simp only [parseLines] at h; cases h; exact ht
  | cons line rest ih =>
    simp only [parseLines] at h
    cases hl : parseLine X line sc with
    | error e => rw [hl] at h; cases h
    | ok sc1 =>
      rw [hl] at h
      obtain ⟨h1, h2⟩ := parseLine_times X line rest sc sc1 hl ht hno
      exact ih sc1 h h1 h2

theorem parseLines_ok (X : Stdlib) (lines : List GoString) (sc : Scan)
    (hdate : DatesValid X lines) (ht : sc.receivedTimes = [])
    (hno : NoLateSemicolon X (sc.receivedLines ≠ []) lines) :
    ∃ sc', parseLines X lines sc = Except.ok sc' := by
  induction lines generalizing sc with
  | nil => exact ⟨sc, rfl⟩
  | cons line rest ih =>
    obtain ⟨sc1, hl⟩ := parseLine_ok X line rest sc hdate hno
    obtain ⟨h1, h2⟩ := parseLine_times X line rest sc sc1 hl ht hno
    obtain ⟨sc', hs⟩ := ih sc1 (hdate.dates_tail X line rest) h1 h2
    exact ⟨sc', by simp only [parseLines, hl]; exact hs⟩

/-! ### The loop of `getMailLatency` -/

theorem mailReceivedStep_times (X : Stdlib) (line : GoString) (rest : List GoString)
    (sc sc' : MailScan) (h : mailReceivedStep X line sc = Except.ok sc')
    (ht : sc.receivedHeaders = [])
    (hno : NoLateSemicolon X (sc.receivedLines ≠ []) (line :: rest)) :
    sc'.receivedHeaders = [] ∧ NoLateSemicolon X (sc'.receivedLines ≠ []) rest := by
  unfold mailReceivedStep at h
  by_cases hp : HasPrefix line (ascii "Received:") = true
  · rw [if_pos hp] at h
    cases h
    exact ⟨ht, hno.late_tail X _ _ line rest
      (fun _ => Or.inr (HasFlexedPrefix_of_HasPrefix X line _ ascii_Received hp))⟩
  · rw [if_neg hp] at h
    by_cases hc : (decide (0 < sc.receivedLines.length) &&
        (HasPrefix line (ascii "\t") || HasPrefix line (ascii " "))) = true
    · rw [if_pos hc] at h
      have hne : sc.receivedLines ≠ [] := by
        intro he
        rw [he] at hc
        simp at hc
      have hblank : startsBlank line = true := by
        simp only [Bool.and_eq_true] at hc
        exact hc.2
      have hsemi := hno.head X _ line rest hne hblank
      rw [hsemi] at h
      simp only [Bool.false_eq_true, if_false] at h
      cases h
      exact ⟨ht, hno.late_tail X _ _ line rest (fun _ => Or.inl hne)⟩
    · rw [if_neg hc] at h
      cases h
      exact ⟨ht, hno.late_tail X _ _ line rest (fun hq => Or.inl hq)⟩

theorem mailReceivedStep_ok (X : Stdlib) (line : GoString) (rest : List GoString)
    (sc : MailScan) (hno : NoLateSemicolon X (sc.receivedLines ≠ []) (line :: rest)) :
    ∃ sc', mailReceivedStep X line sc = Except.ok sc' := by
  unfold mailReceivedStep
  by_cases hp : HasPrefix line (ascii "Received:") = true
  · rw [if_pos hp]
    exact ⟨_, rfl⟩
  · rw [if_neg hp]
    by_cases hc : (decide (0 < sc.receivedLines.length) &&
        (HasPrefix line (ascii "\t") || HasPrefix line (ascii " "))) = true
    · rw [if_pos hc]
      have hne : sc.receivedLines ≠ [] := by
        intro he
        rw [he] at hc
        simp at hc
      have hblank : startsBlank line = true := by
        simp only [Bool.and_eq_true] at hc
        exact hc.2
      rw [hno.head X _ line rest hne hblank]
      exact ⟨_, rfl⟩
    · rw [if_neg hc]
      exact ⟨_, rfl⟩

theorem mailLine_times (X : Stdlib) (line : GoString) (rest : List GoString)
    (sc sc' : MailScan) (h : mailLine X line sc = Except.ok sc')
    (ht : sc.receivedHeaders = [])
    (hno : NoLateSemicolon X (sc.receivedLines ≠ []) (line :: rest)) :
    sc'.receivedHeaders = [] ∧ NoLateSemicolon X (sc'.receivedLines ≠ []) rest := by
  unfold mailLine at h
  simp only [] at h
  have hsc1 : ∀ sc1 : MailScan, sc1 = (if (HasPrefix line (ascii "Return-Path:") &&
      sc.returnPathHeader == []) = true then
        { sc with returnPathHeader := parseReturnPathHeader line } else sc) →
      sc1.receivedHeaders = [] ∧ sc1.receivedLines = sc.receivedLines := by
    intro sc1 he
    rw [he]
    split <;> exact ⟨ht, rfl⟩
  generalize hg : (if (HasPrefix line (ascii "Return-Path:") &&
      sc.returnPathHeader == []) = true then
        { sc with returnPathHeader := parseReturnPathHeader line } else sc) = sc1 at h
  obtain ⟨h1, h2⟩ := hsc1 sc1 hg.symm
  split at h
  · split at h
    · cases h
    · exact mailReceivedStep_times X line rest _ sc' h h1 (by rw [← h2] at hno; exact hno)
  · exact mailReceivedStep_times X line rest _ sc' h h1 (by rw [← h2] at hno; exact hno)

theorem mailLine_ok (X : Stdlib) (line : GoString) (rest : List GoString) (sc : MailScan)
    (hdate : DatesValid X (line :: rest))
    (hno : NoLateSemicolon X (sc.receivedLines ≠ []) (line :: rest)) :
    ∃ sc', mailLine X line sc = Except.ok sc' := by
  unfold mailLine
  simp only []
  generalize hg : (if (HasPrefix line (ascii "Return-Path:") &&
      sc.returnPathHeader == []) = true then
        { sc with returnPathHeader := parseReturnPathHeader line } else sc) = sc1
  have h2 : sc1.receivedLines = sc.receivedLines := by
    rw [← hg]; split <;> rfl
  have hno1 : NoLateSemicolon X (sc1.receivedLines ≠ []) (line :: rest) := by
    rw [h2]; exact hno
  by_cases hc : (HasPrefix line (ascii "Date:") && sc1.dateHeader.IsZero) = true
  · rw [if_pos hc]
    have hp : HasPrefix line (ascii "Date:") = true := by
      simp only [Bool.and_eq_true] at hc
      exact hc.1
    obtain ⟨t, ht⟩ := hdate line (List.mem_cons_self _ _)
      (HasFlexedPrefix_of_HasPrefix X line _ ascii_Date hp)
    simp only [parseDateHeader, ht]
    exact mailReceivedStep_ok X line rest _ hno1
  · rw [if_neg hc]
    exact mailReceivedStep_ok X line rest _ hno1

theorem mailLines_times (X : Stdlib) (lines : List GoString) (sc sc' : MailScan)
    (h : mailLines X lines sc = Except.ok sc') (ht : sc.receivedHeaders = [])
    (hno : NoLateSemicolon X (sc.receivedLines ≠ []) lines) : sc'.receivedHeaders = [] := by
  induction lines generalizing sc with
  | nil => simp only [mailLines] at h; cases h; exact ht
  | cons line rest ih =>
    simp only [mailLines] at h
    cases hl : mailLine X line sc with
    | error e => rw [hl] at h; cases h
    | ok sc1 =>
      rw [hl] at h
      obtain ⟨h1, h2⟩ := mailLine_times X line rest sc sc1 hl ht hno
      exact ih sc1 h h1 h2

theorem mailLines_ok (X : Stdlib) (lines : List GoString) (sc : MailScan)
    (hdate : DatesValid X lines) (ht : sc.receivedHeaders = [])
    (hno : NoLateSemicolon X (sc.receivedLines ≠ []) lines) :
    ∃ sc', mailLines X lines sc = Except.ok sc' := by
  induction lines generalizing sc with
  | nil => exact ⟨sc, rfl⟩
  | cons line rest ih =>
    obtain ⟨sc1, hl⟩ := mailLine_ok X line rest sc hdate hno
    obtain ⟨h1, h2⟩ := mailLine_times X line rest sc sc1 hl ht hno
    obtain ⟨sc', hs⟩ := ih sc1 (hdate.dates_tail X line rest) h1 h2
    exact ⟨sc', by simp only [mailLines, hl]; exact hs⟩

/-! ## Received times and continuation lines -/

theorem NoLateSemicolon.mono (X : Stdlib) (P Q : Prop) (lines : List GoString)
    (h : NoLateSemicolon X P lines) (hq : Q → P) : NoLateSemicolon X Q lines := by
  intro pre line post hl hseen hblank
  exact h pre line post hl (hseen.imp_left hq) hblank

/-- When no received time can be recorded, some line that starts with a tab or a
space, comes after a `Received:` line and contains `;` is missing. -/
theorem exists_late_semicolon (X : Stdlib) (lines : List GoString)
    (h : ¬ NoLateSemicolon X False lines) :
    ∃ (pre : List GoString) (line : GoString) (post : List GoString),
      lines = pre ++ line :: post ∧
      (∃ r ∈ pre, HasFlexedPrefix X r (ascii "Received:") = Except.ok true) ∧
      startsBlank line = true ∧ Contains line 0x3B = true := by
  by_contra hcon
  apply h
  intro pre line post hl hseen hblank
  cases hc : Contains line 0x3B with
  | false => rfl
  | true =>
    exact absurd ⟨pre, line, post, hl, hseen.resolve_left id, hblank, hc⟩ hcon

theorem DatesValid_nil (X : Stdlib) : DatesValid X [] :=
  fun _ h => absurd h (List.not_mem_nil _)

theorem DatesValid_cons (X : Stdlib) (line : GoString) (rest : List GoString)
    (h : HasFlexedPrefix X line (ascii "Date:") = Except.ok true →
      ∃ t, X.Parse (TrimPrefix line (ascii "Date: ")) = Except.ok t)
    (hrest : DatesValid X rest) : DatesValid X (line :: rest) := by
  intro l hl
  rcases List.mem_cons.mp hl with e | hm
  · rw [e]; exact h
  · exact hrest l hm

/-- C12 (as stated, refuted): two mails with a valid `Date` header and a `Received`
header on one line. The continuation line of the folded `Content-Type` header of the
first is read as the end of the `Received` header, and the call fails with the error
of `time.Parse`; the continuation line of the second ends in a date, and the call
succeeds and appends a row. -/
theorem ParseMail_single_line_counterexample :
    (ParseMail exampleStdlib exampleLatencies (ascii "m") (Except.ok foldedMail)).2
        = some (Fault.error "cannot parse") ∧
      (ParseMail exampleStdlib exampleLatencies (ascii "m") (Except.ok foldedMail)).2
        ≠ some (Fault.error "missing required headers") ∧
      (ParseMail exampleStdlib exampleLatencies (ascii "m") (Except.ok tracedMail)).2 = none ∧
      (ParseMail exampleStdlib exampleLatencies (ascii "m")
        (Except.ok tracedMail)).1.Data.length = 1 ∧
      foldedMail.map startsBlank = [false, false, false, true, false] ∧
      tracedMail.map startsBlank = [false, false, false, true, false] ∧
      getMailLatency exampleStdlib (Except.ok foldedMail)
        = Except.error (Fault.error "cannot parse") ∧
      (getMailLatency exampleStdlib (Except.ok tracedMail)).toBool = true :=
  ⟨by decide, by decide, by decide, by decide, by decide, by decide, rfl, by decide⟩

/-- C12 (amended): `ParseMail`, and likewise `getMailLatency`, succeeds only when some
line that starts with a tab or a space and comes after a `Received:` line, whichever
header it continues, contains `;`; and on every mail whose `Date:` lines hold valid
dates and in which no such line contains `;`, both fail with "missing required
headers", `ParseMail` leaving the receiver and its `Data` as they were. -/
theorem ParseMail_single_line (X : Stdlib) (l : Latencies) (p : GoString)
    (lines : List GoString) :
    (((∃ l', ParseMail X l p (Except.ok lines) = (l', none)) ∨
        (∃ r, getMailLatency X (Except.ok lines) = Except.ok r)) →
      ∃ (pre : List GoString) (line : GoString) (post : List GoString),
        lines = pre ++ line :: post ∧
        (∃ r ∈ pre, HasFlexedPrefix X r (ascii "Received:") = Except.ok true) ∧
        startsBlank line = true ∧ Contains line 0x3B = true) ∧
    (DatesValid X lines → NoLateSemicolon X False lines →
      ParseMail X l p (Except.ok lines)
        = (l, some (Fault.error "missing required headers")) ∧
      getMailLatency X (Except.ok lines)
        = Except.error (Fault.error "missing required headers")) := by
  have hstart : NoLateSemicolon X False lines →
      NoLateSemicolon X (([] : List GoString) ≠ []) lines :=
    fun h => h.mono X _ _ lines (fun hq => absurd rfl hq)
  constructor
  · intro hsucc
    apply exists_late_semicolon
    intro hno
    rcases hsucc with ⟨l', hl'⟩ | ⟨r, hr⟩
    · unfold ParseMail at hl'
      simp only [] at hl'
      split at hl'
      · cases hl'
      · next sc hsc =>
        have ht := parseLines_times X lines _ sc hsc rfl (hstart hno)
        simp [ht] at hl'
    · unfold getMailLatency at hr
      simp only [] at hr
      split at hr
      · cases hr
      · next sc hsc =>
        have ht := mailLines_times X lines _ sc hsc rfl (hstart hno)
        simp [ht] at hr
  · intro hdate hno
    constructor
    · obtain ⟨sc, hsc⟩ := parseLines_ok X lines
        { row := { ElapsedTimeToSent := 0, ElapsedTimeToReceived := 0, SentTime := Time.zero,
                   LastReceivedTime := Time.zero, EndToEnd := 0,
                   FirstReceivedTime := Time.zero, Relay := 0, ReturnPath := [],
                   FilePath := p },
          receivedTimes := [], receivedLines := [] } hdate rfl (hstart hno)
      have ht := parseLines_times X lines _ sc hsc rfl (hstart hno)
      unfold ParseMail
      simp only [hsc, ht]
      simp
    · obtain ⟨sc, hsc⟩ := mailLines_ok X lines
        { dateHeader := Time.zero, returnPathHeader := [], receivedHeaders := [],
          receivedLines := [] } hdate rfl (hstart hno)
      have ht := mailLines_times X lines _ sc hsc rfl (hstart hno)
      unfold getMailLatency
      simp only [hsc, ht]
      simp

theorem singleLineMail_dates : DatesValid exampleStdlib singleLineMail :=
  DatesValid_cons _ _ _ (fun h => absurd ((show _ = Except.ok false from rfl).symm.trans h)
      (by simp))
    (DatesValid_cons _ _ _ (fun h => absurd ((show _ = Except.ok false from rfl).symm.trans h)
      (by simp))
    (DatesValid_cons _ _ _ (fun h => absurd ((show _ = Except.ok false from rfl).symm.trans h)
      (by simp))
    (DatesValid_cons _ _ _ (fun _ => ⟨{ ns := 63860169351000000000 }, rfl⟩)
    (DatesValid_cons _ _ _ (fun h => absurd ((show _ = Except.ok false from rfl).symm.trans h)
      (by simp))
    (DatesValid_nil _)))))

theorem singleLineMail_no_blank : NoLateSemicolon exampleStdlib False singleLineMail :=
  NoLateSemicolon_of_no_blank _ _ _ (by decide)

theorem ParseMail_single_line_witness :
    DatesValid exampleStdlib singleLineMail ∧
      NoLateSemicolon exampleStdlib False singleLineMail ∧
      ParseMail exampleStdlib exampleLatencies (ascii "m") (Except.ok singleLineMail)
        = (exampleLatencies, some (Fault.error "missing required headers")) ∧
      getMailLatency exampleStdlib (Except.ok singleLineMail)
        = Except.error (Fault.error "missing required headers") :=
  ⟨singleLineMail_dates, singleLineMail_no_blank,
    (ParseMail_single_line exampleStdlib exampleLatencies (ascii "m") singleLineMail).2
      singleLineMail_dates singleLineMail_no_blank⟩

end Probe
